import Mathlib

/-!
Verification development for the `steenroder` package
(`src/steenroder/__init__.py`): persistent relative cohomology over GF(2)
with the clearing/twist optimization, plus Steenrod-square barcodes.

Shallow embedding conventions:
* a sparse GF(2) column is a strictly increasing `List Nat` of row indices
  (the source keeps sorted, duplicate-free Python lists of `int64`);
* Python's `-1` sentinels (`pivots_lookup`, barcode deaths) become
  `Option Nat` for lookups and `Int` (`-1`) inside barcode pairs;
* fallible Python code (dict `KeyError` on a missing face, unpacking an
  empty per-dimension table, `max` of an empty sequence, indexing
  `abs_barcode[-1]` on an empty list) is modelled with `Option`;
* the unbounded `while` loops of the reduction are modelled with explicit
  fuel; on every run considered by the theorems the head of a column
  strictly increases at each iteration and is bounded by the number of
  rows, so fuel `n + 1` is provably never exhausted.
-/

namespace Steenroder

/-- A simplex: in canonical form, a strictly sorted list of vertex ids
(the source stores `tuple(sorted(spx))`). -/
abbrev Simplex := List Nat

/-- A sparse GF(2) column: a strictly ascending list of row indices. -/
abbrev Col := List Nat

/-- `_symm_diff` from the source: merge of two sorted duplicate-free lists,
dropping elements common to both (GF(2) addition of sparse columns). -/
def symm_diff : List Nat → List Nat → List Nat
  | [], ys => ys
  | x :: xs, [] => x :: xs
  | x :: xs, y :: ys =>
    if x < y then x :: symm_diff xs (y :: ys)
    else if y < x then y :: symm_diff (x :: xs) ys
    else symm_diff xs ys
  termination_by xs ys => xs.length + ys.length

@[simp] theorem symm_diff_nil_left (ys : List Nat) : symm_diff [] ys = ys := by
  cases ys <;> rw [symm_diff]

@[simp] theorem symm_diff_nil_right (xs : List Nat) : symm_diff xs [] = xs := by
  cases xs <;> rw [symm_diff]

/-- Strictly sorted (ascending) list. -/
abbrev SortedLt (l : List Nat) : Prop := List.Sorted (· < ·) l

theorem mem_symm_diff {a : Nat} :
    ∀ {xs ys : List Nat}, SortedLt xs → SortedLt ys →
      (a ∈ symm_diff xs ys ↔ ((a ∈ xs ∧ a ∉ ys) ∨ (a ∈ ys ∧ a ∉ xs)))
  | [], ys, _, _ => by simp
  | x :: xs, [], _, _ => by simp
  | x :: xs, y :: ys, hx, hy => by
    have hx' : SortedLt xs := hx.of_cons
    have hy' : SortedLt ys := hy.of_cons
    have hxlb : ∀ b ∈ xs, x < b := (List.sorted_cons.mp hx).1
    have hylb : ∀ b ∈ ys, y < b := (List.sorted_cons.mp hy).1
    by_cases hlt : x < y
    · rw [symm_diff, if_pos hlt]
      have ih := mem_symm_diff (a := a) hx' hy
      constructor
      · intro h
        rcases List.mem_cons.mp h with rfl | h
        · exact Or.inl ⟨List.mem_cons_self _ _, by
            intro hmem
            rcases List.mem_cons.mp hmem with rfl | hmem
            · exact absurd hlt (lt_irrefl _)
            · exact absurd (hylb _ hmem) (by omega)⟩
        · rcases (ih.mp h) with ⟨h1, h2⟩ | ⟨h1, h2⟩
          · exact Or.inl ⟨List.mem_cons_of_mem _ h1, h2⟩
          · refine Or.inr ⟨h1, ?_⟩
            intro hmem
            rcases List.mem_cons.mp hmem with rfl | hmem
            · rcases List.mem_cons.mp h1 with rfl | h1
              · exact absurd hlt (lt_irrefl _)
              · exact absurd (hylb _ h1) (by omega)
            · exact h2 hmem
      · intro h
        rcases h with ⟨h1, h2⟩ | ⟨h1, h2⟩
        · rcases List.mem_cons.mp h1 with rfl | h1
          · exact List.mem_cons_self _ _
          · exact List.mem_cons_of_mem _ (ih.mpr (Or.inl ⟨h1, h2⟩))
        · refine List.mem_cons_of_mem _ (ih.mpr (Or.inr ⟨h1, ?_⟩))
          intro hmem
          exact h2 (List.mem_cons_of_mem _ hmem)
    · by_cases hgt : y < x
      · rw [symm_diff, if_neg hlt, if_pos hgt]
        have ih := mem_symm_diff (a := a) hx hy'
        constructor
        · intro h
          rcases List.mem_cons.mp h with rfl | h
          · exact Or.inr ⟨List.mem_cons_self _ _, by
              intro hmem
              rcases List.mem_cons.mp hmem with rfl | hmem
              · exact absurd hgt (lt_irrefl _)
              · exact absurd (hxlb _ hmem) (by omega)⟩
          · rcases (ih.mp h) with ⟨h1, h2⟩ | ⟨h1, h2⟩
            · refine Or.inl ⟨h1, ?_⟩
              intro hmem
              rcases List.mem_cons.mp hmem with rfl | hmem
              · rcases List.mem_cons.mp h1 with rfl | h1
                · exact absurd hgt (lt_irrefl _)
                · exact absurd (hxlb _ h1) (by omega)
              · exact h2 hmem
            · exact Or.inr ⟨List.mem_cons_of_mem _ h1, h2⟩
        · intro h
          rcases h with ⟨h1, h2⟩ | ⟨h1, h2⟩
          · refine List.mem_cons_of_mem _ (ih.mpr (Or.inl ⟨h1, ?_⟩))
            intro hmem
            exact h2 (List.mem_cons_of_mem _ hmem)
          · rcases List.mem_cons.mp h1 with rfl | h1
            · exact List.mem_cons_self _ _
            · exact List.mem_cons_of_mem _ (ih.mpr (Or.inr ⟨h1, h2⟩))
      · have hxy : x = y := by omega
        subst hxy
        rw [symm_diff, if_neg hlt, if_neg hgt]
        have ih := mem_symm_diff (a := a) hx' hy'
        rw [ih]
        constructor
        · intro h
          rcases h with ⟨h1, h2⟩ | ⟨h1, h2⟩
          · refine Or.inl ⟨List.mem_cons_of_mem _ h1, ?_⟩
            intro hmem
            rcases List.mem_cons.mp hmem with rfl | hmem
            · exact absurd (hxlb _ h1) (lt_irrefl _)
            · exact h2 hmem
          · refine Or.inr ⟨List.mem_cons_of_mem _ h1, ?_⟩
            intro hmem
            rcases List.mem_cons.mp hmem with rfl | hmem
            · exact absurd (hylb _ h1) (lt_irrefl _)
            · exact h2 hmem
        · intro h
          rcases h with ⟨h1, h2⟩ | ⟨h1, h2⟩
          · rcases List.mem_cons.mp h1 with rfl | h1
            · exact absurd (List.mem_cons_self _ _) h2
            · exact Or.inl ⟨h1, fun hmem => h2 (List.mem_cons_of_mem _ hmem)⟩
          · rcases List.mem_cons.mp h1 with rfl | h1
            · exact absurd (List.mem_cons_self _ _) h2
            · exact Or.inr ⟨h1, fun hmem => h2 (List.mem_cons_of_mem _ hmem)⟩
  termination_by xs ys => xs.length + ys.length

theorem lb_symm_diff {c : Nat} {xs ys : List Nat} (hx : SortedLt xs)
    (hy : SortedLt ys) (hxl : ∀ a ∈ xs, c < a) (hyl : ∀ a ∈ ys, c < a) :
    ∀ a ∈ symm_diff xs ys, c < a := by
  intro a ha
  rcases (mem_symm_diff hx hy).mp ha with ⟨h1, _⟩ | ⟨h1, _⟩
  · exact hxl _ h1
  · exact hyl _ h1

theorem sorted_symm_diff : ∀ {xs ys : List Nat}, SortedLt xs → SortedLt ys →
    SortedLt (symm_diff xs ys)
  | [], ys, _, hy => by simpa using hy
  | x :: xs, [], hx, _ => by simpa using hx
  | x :: xs, y :: ys, hx, hy => by
    have hx' : SortedLt xs := hx.of_cons
    have hy' : SortedLt ys := hy.of_cons
    have hxlb : ∀ b ∈ xs, x < b := (List.sorted_cons.mp hx).1
    have hylb : ∀ b ∈ ys, y < b := (List.sorted_cons.mp hy).1
    by_cases hlt : x < y
    · rw [symm_diff, if_pos hlt]
      refine List.sorted_cons.mpr ⟨?_, sorted_symm_diff hx' hy⟩
      exact lb_symm_diff hx' hy hxlb (by
        intro a ha
        rcases List.mem_cons.mp ha with rfl | ha
        · exact hlt
        · exact lt_trans hlt (hylb _ ha))
    · by_cases hgt : y < x
      · rw [symm_diff, if_neg hlt, if_pos hgt]
        refine List.sorted_cons.mpr ⟨?_, sorted_symm_diff hx hy'⟩
        refine lb_symm_diff hx hy' ?_ hylb
        intro a ha
        rcases List.mem_cons.mp ha with rfl | ha
        · exact hgt
        · exact lt_trans hgt (hxlb _ ha)
      · have hxy : x = y := by omega
        subst hxy
        rw [symm_diff, if_neg hlt, if_neg hgt]
        exact sorted_symm_diff hx' hy'
  termination_by xs ys => xs.length + ys.length

/-- When two sorted columns share the same head, the source's
`_symm_diff(x[1:], y[1:])` computes the symmetric difference of the full
columns (the common head cancels). -/
theorem symm_diff_tail_eq {x y : Nat} {xs ys : List Nat} (hxy : x = y) :
    symm_diff xs ys = symm_diff (x :: xs) (y :: ys) := by
  subst hxy
  rw [symm_diff, if_neg (lt_irrefl _), if_neg (lt_irrefl _)]

/-- A sparse column viewed as a GF(2) vector. -/
def colFun (c : Col) : Nat → ZMod 2 := fun r => if r ∈ c then 1 else 0

theorem colFun_symm_diff {xs ys : List Nat} (hx : SortedLt xs)
    (hy : SortedLt ys) : colFun (symm_diff xs ys) = colFun xs + colFun ys := by
  funext r
  simp only [colFun, Pi.add_apply]
  rcases Decidable.em (r ∈ xs) with hrx | hrx <;>
    rcases Decidable.em (r ∈ ys) with hry | hry
  · have : r ∉ symm_diff xs ys := by
      intro h
      rcases (mem_symm_diff hx hy).mp h with ⟨_, h2⟩ | ⟨_, h2⟩
      · exact h2 hry
      · exact h2 hrx
    simp [this, hrx, hry]
    decide
  · have : r ∈ symm_diff xs ys := (mem_symm_diff hx hy).mpr (Or.inl ⟨hrx, hry⟩)
    simp [this, hrx, hry]
  · have : r ∈ symm_diff xs ys := (mem_symm_diff hx hy).mpr (Or.inr ⟨hry, hrx⟩)
    simp [this, hrx, hry]
  · have : r ∉ symm_diff xs ys := by
      intro h
      rcases (mem_symm_diff hx hy).mp h with ⟨h1, _⟩ | ⟨h1, _⟩
      · exact hrx h1
      · exact hry h1
    simp [this, hrx, hry]

@[simp] theorem colFun_nil : colFun [] = 0 := by
  funext r; simp [colFun]

/-- Column `i` of a sparse matrix given as a list of columns
(missing columns read as empty). -/
def getCol (m : List Col) (i : Nat) : Col := m.getD i []

/-- Entry of the `pivots_lookup` array (`-1` modelled as `none`). -/
def getPiv (p : List (Option Nat)) (h : Nat) : Option Nat := p.getD h none

/-- `D · v` over GF(2): the sum of the columns of `D` selected by the
sparse vector `v`, as a function of the row index. -/
def applyD (D : List Col) (v : Col) : Nat → ZMod 2 :=
  fun r => ∑ i ∈ Finset.range D.length, colFun v i * colFun (getCol D i) r

theorem applyD_symm_diff {D : List Col} {a b : Col} (ha : SortedLt a)
    (hb : SortedLt b) :
    applyD D (symm_diff a b) = applyD D a + applyD D b := by
  funext r
  simp only [applyD, Pi.add_apply, colFun_symm_diff ha hb, Pi.add_apply,
    add_mul, Finset.sum_add_distrib]

theorem applyD_single {D : List Col} {j : Nat} (hj : j < D.length) :
    applyD D [j] = colFun (getCol D j) := by
  funext r
  simp only [applyD]
  rw [Finset.sum_eq_single j]
  · simp [colFun]
  · intro i _ hij
    simp [colFun, List.mem_singleton, hij]
  · intro h
    exact absurd (Finset.mem_range.mpr hj) h

/-! ### Filtration indexing (`sort_filtration_by_dim`) and the coboundary -/

/-- `_drop_elements` from the source: the faces of a simplex, obtained by
deleting one position at a time (in position order). -/
def drop_elements (tup : Simplex) : List Simplex :=
  (List.range tup.length).map (fun x => tup.eraseIdx x)

/-- Python's `sorted`, as an insertion sort. -/
def insertSorted (a : Nat) : List Nat → List Nat
  | [] => [a]
  | b :: l => if a ≤ b then a :: b :: l else b :: insertSorted a l

def pySorted (l : List Nat) : List Nat := l.foldr insertSorted []

theorem insertSorted_of_lb {a : Nat} {l : List Nat} (h : ∀ b ∈ l, a ≤ b) :
    insertSorted a l = a :: l := by
  cases l with
  | nil => rfl
  | cons b l => exact if_pos (h b (List.mem_cons_self _ _))

/-- Sorting a list that is already strictly sorted is the identity
(the filtrations considered below store canonical simplices). -/
theorem pySorted_of_sorted : ∀ {l : List Nat}, SortedLt l → pySorted l = l
  | [], _ => rfl
  | a :: l, h => by
    have hlb : ∀ b ∈ l, a < b := (List.sorted_cons.mp h).1
    have ih := pySorted_of_sorted h.of_cons
    show insertSorted a (pySorted l) = a :: l
    rw [ih, insertSorted_of_lb (fun b hb => le_of_lt (hlb b hb))]

/-- One slot of the by-dimension table: global filtration indices of the
`d`-simplices, aligned with their vertex tuples. -/
abbrev DimTable := List Nat × List Simplex

/-- The grouping loop of `sort_filtration_by_dim`: append each simplex
(with its global index) to the slot of its dimension, skipping simplices
above `maxdim`.  An empty slot is kept as `none`: the source represents it
by an empty list, which later fails to unpack into the two aligned arrays.
(The source computes `dim = len(spx_tup) - 1` on `int`; here `Nat`
subtraction is used, which agrees on the nonempty simplices required by
validity.) -/
def buildSlots (filtration : List (List Nat)) (maxdim : Nat) :
    List (Option DimTable) :=
  let slots := filtration.enum.foldl (fun slots p =>
      let spxTup := pySorted p.2
      let dim := spxTup.length - 1
      if dim ≤ maxdim then
        slots.set dim ((slots.getD dim []) ++ [(p.1, spxTup)])
      else slots)
    (List.replicate (maxdim + 1) [])
  slots.map (fun s =>
    match s with
    | [] => none
    | l => some (l.map Prod.fst, l.map Prod.snd))

/-- `sort_filtration_by_dim`.  With `maxdim = None` and an empty
filtration, Python's `max` of an empty sequence raises: modelled by
`none`. -/
def sort_filtration_by_dim (filtration : List (List Nat))
    (maxdim : Option Nat) : Option (List (Option DimTable)) :=
  match maxdim with
  | some m => some (buildSlots filtration m)
  | none =>
    match filtration with
    | [] => none
    | _ =>
      some (buildSlots filtration
        (((filtration.map List.length).foldl max 0) - 1))

/-- The `spx2idx_dim` dictionary: repeated insertion `spx2idx[spx] = i`,
so a later binding overwrites an earlier one (the tables considered below
are duplicate-free, making the lookup the unique index). -/
def spx2idxFun (tups : List Simplex) : Simplex → Option Nat :=
  fun s => tups.enum.foldl
    (fun acc p => if p.2 = s then some p.1 else acc) none

/-- `reduced_dim[spx2idx_dim[face]].append(j)`. -/
def addCofacet (cols : List Col) (i j : Nat) : List Col :=
  cols.set i (getCol cols i ++ [j])

/-- Process one next-dimension simplex `u` (at position `j`): append `j`
to the column of each face.  A missing face is a `KeyError` in the
source: modelled by `none`. -/
def cob_step (spx2idx : Simplex → Option Nat) (j : Nat) (u : Simplex)
    (cols : List Col) : Option (List Col) :=
  (drop_elements u).foldlM (fun cs face =>
    match spx2idx face with
    | none => none
    | some i => some (addCofacet cs i j)) cols

/-- The coboundary-population loop of `_inner_reduce_single_dim`:
`reduced_dim[i]` collects, in increasing order of `j`, the positions of
the next-dimension simplices having simplex `i` as a face. -/
def cobColumns (spx2idx : Simplex → Option Nat) (nDim : Nat)
    (tupsNext : List Simplex) : Option (List Col) :=
  tupsNext.enum.foldlM (fun cols p => cob_step spx2idx p.1 p.2 cols)
    (List.replicate nDim [])

/-- The clearing loop: `reduced_dim[rel_idx] = []`. -/
def applyClearing (cols : List Col) (clear : List Nat) : List Col :=
  clear.foldl (fun cs r => cs.set r []) cols

/-! ### `_twist_reduction` -/

/-- The state mutated by `_twist_reduction`: the reduced and triangular
matrices, the pivot lookup (`-1` as `none`) and the accumulated
`rel_idxs_to_clear`. -/
structure RState where
  red : List Col
  tri : List Col
  piv : List (Option Nat)
  clear : List Nat

/-- The inner `while` loop of `_twist_reduction`, carrying the current
column pair `(coboundary[j], triangular[j])`.  Fuel-indexed: on the runs
considered below the head of the column strictly increases at every
iteration and is bounded by the number of rows, so fuel `nNext + 1` is
never exhausted. -/
def reduce_col_loop (piv : List (Option Nat)) (redm trim : List Col) :
    Nat → Col × Col → Col × Col
  | 0, ct => ct
  | fuel + 1, (c, t) =>
    match c.head? with
    | none => (c, t)
    | some h =>
      match getPiv piv h with
      | none => (c, t)
      | some p =>
        reduce_col_loop piv redm trim fuel
          (symm_diff c.tail (getCol redm p).tail,
           symm_diff t (getCol trim p))

/-- The body of `_twist_reduction` for one column `j`: reduce it, then
record it as the pivot of its first entry (and record that row index in
`rel_idxs_to_clear`) if it remained nonempty. -/
def twist_step (nNext : Nat) (st : RState) (j : Nat) : RState :=
  let ct := reduce_col_loop st.piv st.red st.tri (nNext + 1)
    (getCol st.red j, getCol st.tri j)
  let red := st.red.set j ct.1
  let tri := st.tri.set j ct.2
  match ct.1.head? with
  | some h => ⟨red, tri, st.piv.set h (some j), st.clear ++ [h]⟩
  | none => ⟨red, tri, st.piv, st.clear⟩

/-- `_twist_reduction`: process columns from last to first. -/
def twist_reduction (nNext : Nat) (red tri : List Col)
    (piv : List (Option Nat)) : RState :=
  ((List.range red.length).reverse).foldl (twist_step nNext)
    ⟨red, tri, piv, []⟩

/-! ### `_inner_reduce_single_dim`, the clearing fix and
`get_reduced_triangular` -/

/-- What one call of `_inner_reduce_single_dim` returns. -/
structure SingleOut where
  spx2idx : Simplex → Option Nat
  red : List Col
  tri : List Col
  clear : List Nat
  piv : List (Option Nat)

/-- `_inner_reduce_single_dim`: build `spx2idx`, initialize
`triangular[i] = [i]`; with a next dimension, populate the coboundary,
clear the columns recorded by the previous dimension, and run the twist
reduction; without one (top dimension), the reduced columns all stay
empty and the input `rel_idxs_to_clear` is returned unchanged. -/
def inner_reduce_single_dim (idxsDim : List Nat) (tupsDim : List Simplex)
    (relClear : List Nat) (next? : Option DimTable) : Option SingleOut :=
  let spx2idx := spx2idxFun tupsDim
  let n := idxsDim.length
  let tri0 := (List.range n).map (fun i => [i])
  match next? with
  | some (idxsNext, tupsNext) => do
    let cob ← cobColumns spx2idx n tupsNext
    let cleared := applyClearing cob relClear
    let st := twist_reduction idxsNext.length cleared tri0
      (List.replicate idxsNext.length none)
    pure ⟨spx2idx, st.red, st.tri, st.clear, st.piv⟩
  | none =>
    pure ⟨spx2idx, List.replicate n [], tri0, relClear, []⟩

/-- `_fix_triangular_after_clearing`: for every cleared index, replace
its triangular column with the previous dimension's reduced column that
has it as pivot.  (On every run below `pivPrev` holds an entry for each
cleared index, so the `.getD 0` default is never taken.) -/
def fix_triangular_after_clearing (tri : List Col) (redPrev : List Col)
    (relClear : List Nat) (pivPrev : List (Option Nat)) : List Col :=
  relClear.foldl (fun t r =>
    t.set r (getCol redPrev ((getPiv pivPrev r).getD 0))) tri

/-- The per-dimension data returned by `get_reduced_triangular`. -/
structure DimOut where
  spx2idx : Simplex → Option Nat
  idxs : List Nat
  red : List Col
  tri : List Col

/-- The cross-dimension state threaded by `get_reduced_triangular`:
`rel_idxs_to_clear`, `reduced_prev_dim` and `pivots_lookup_prev_dim`. -/
structure Carry where
  clear : List Nat
  redPrev : List Col
  pivPrev : List (Option Nat)

/-- The dimension loop of `get_reduced_triangular`; the last table is the
top dimension (reduced without a next dimension).  Unpacking an empty
slot (`none`) fails, as in the source. -/
def grt_loop : List (Option DimTable) → Carry → Option (List DimOut)
  | [], _ => none
  | [cur?], carry => do
    let (idxsDim, tupsDim) ← cur?
    let out ← inner_reduce_single_dim idxsDim tupsDim carry.clear none
    let tri := fix_triangular_after_clearing out.tri carry.redPrev
      carry.clear carry.pivPrev
    pure [⟨out.spx2idx, idxsDim, out.red, tri⟩]
  | cur? :: next? :: rest, carry => do
    let (idxsDim, tupsDim) ← cur?
    let nextTab ← next?
    let out ← inner_reduce_single_dim idxsDim tupsDim carry.clear
      (some nextTab)
    let tri := fix_triangular_after_clearing out.tri carry.redPrev
      carry.clear carry.pivPrev
    let rest' ← grt_loop (next? :: rest) ⟨out.clear, out.red, out.piv⟩
    pure (⟨out.spx2idx, idxsDim, out.red, tri⟩ :: rest')

/-- `get_reduced_triangular`. -/
def get_reduced_triangular (fbd : List (Option DimTable)) :
    Option (List DimOut) :=
  grt_loop fbd ⟨[], [], []⟩

/-! ### `get_barcode_and_coho_reps` -/

/-- `_lexsort_barcode` (`np.argsort(arr[:, 1])[::-1]`) applied jointly to
the pairs and their representatives: sort by decreasing birth.  In every
run below the births within a dimension are pairwise distinct, so any
sort computes the source's permutation; ties never arise. -/
def insertByBirth (x : (Int × Int) × Col) :
    List ((Int × Int) × Col) → List ((Int × Int) × Col)
  | [] => [x]
  | y :: l => if y.1.2 ≤ x.1.2 then x :: y :: l else y :: insertByBirth x l

def sortByBirthDesc (l : List ((Int × Int) × Col)) :
    List ((Int × Int) × Col) :=
  l.foldr insertByBirth []

/-- The dimension-0 block: a class is essential iff its reduced column is
empty; pair `(-1, global index)`, representative its triangular column. -/
def pairs0 (idxs0 : List Nat) (red0 tri0 : List Col) :
    List ((Int × Int) × Col) :=
  (List.range idxs0.length).filterMap (fun i =>
    if getCol red0 i = [] then
      some ((-1, ((idxs0.getD i 0 : Nat) : Int)), getCol tri0 i)
    else none)

/-- The finite pairs of the block of dimension `dim`: every nonempty
column `i` of `reduced[dim-1]` pairs death `idxs[dim-1][i]` with birth
`idxs[dim][first entry]`; with filtration values, a pair whose endpoints
share a value is suppressed.  (The source writes the two branches as
separate loops; they differ only in this filter.) -/
def finitePairs (idxsPrev idxsDim : List Nat) (redPrev : List Col)
    (vals? : Option (List Int)) : List ((Int × Int) × Col) :=
  (List.range idxsPrev.length).filterMap (fun i =>
    match (getCol redPrev i).head? with
    | none => none
    | some hd =>
      let b := idxsDim.getD hd 0
      let d := idxsPrev.getD i 0
      match vals? with
      | none => some (((d : Int), (b : Int)), getCol redPrev i)
      | some vals =>
        if vals.getD b 0 ≠ vals.getD d 0 then
          some (((d : Int), (b : Int)), getCol redPrev i)
        else none)

/-- `all_birth_indices`: every birth index claimed by a nonempty column
of `reduced[dim-1]` (collected before the zero-persistence filter). -/
def birthIdxs (idxsPrev idxsDim : List Nat) (redPrev : List Col) :
    List Nat :=
  (List.range idxsPrev.length).filterMap (fun i =>
    (getCol redPrev i).head?.map (fun hd => idxsDim.getD hd 0))

/-- The essential pairs of the block of dimension `dim`: indices not
claimed as births whose reduced column is empty. -/
def essentialPairs (idxsDim : List Nat) (redDim triDim : List Col)
    (births : List Nat) : List ((Int × Int) × Col) :=
  (List.range idxsDim.length).filterMap (fun i =>
    if idxsDim.getD i 0 ∈ births then none
    else if getCol redDim i = [] then
      some ((-1, ((idxsDim.getD i 0 : Nat) : Int)), getCol triDim i)
    else none)

/-- `get_barcode_and_coho_reps` (both the `filtration_values is None`
branch and the other one, which differ only in the zero-persistence
filter inside `finitePairs`). -/
def get_barcode_and_coho_reps (idxs : List (List Nat))
    (reduced triangular : List (List Col)) (vals? : Option (List Int)) :
    List (List (Int × Int)) × List (List Col) :=
  let block0 := sortByBirthDesc
    (pairs0 (idxs.getD 0 []) (reduced.getD 0 []) (triangular.getD 0 []))
  let blocks := (List.range' 1 (idxs.length - 1)).map (fun dim =>
    let idxsPrev := idxs.getD (dim - 1) []
    let idxsDim := idxs.getD dim []
    let redPrev := reduced.getD (dim - 1) []
    let fp := finitePairs idxsPrev idxsDim redPrev vals?
    let births := birthIdxs idxsPrev idxsDim redPrev
    let ep := essentialPairs idxsDim (reduced.getD dim [])
      (triangular.getD dim []) births
    sortByBirthDesc (fp ++ ep))
  let allBlocks := block0 :: blocks
  (allBlocks.map (fun b => b.map Prod.fst),
   allBlocks.map (fun b => b.map Prod.snd))

/-! ### `get_steenrod_matrix` -/

/-- One unordered pair `{a, b}` of cocycle simplices in the `STSQ`
formula: returns the union tuple when the pair contributes to the
Steenrod square, `none` otherwise. -/
def stsqPair (length : Nat) (spx2idxNext : Simplex → Option Nat)
    (ci cj : Simplex) : Option Simplex :=
  let a : Finset Nat := ci.toFinset
  let b : Finset Nat := cj.toFinset
  let u := a ∪ b
  if u.card = length then
    let uTuple := u.sort (· ≤ ·)
    if (spx2idxNext uTuple).isSome then
      let aBar := a \ b
      let bBar := b \ a
      let uBar := (aBar ∪ bBar).sort (· ≤ ·)
      let index := fun v => (uTuple.indexOf v + uBar.indexOf v) % 2
      let indexA := aBar.image index
      let indexB := bBar.image index
      if (indexA = {0} ∧ indexB = {1}) ∨ (indexA = {1} ∧ indexB = {0})
      then some uTuple else none
    else none
  else none

/-- The Steenrod square of one representative: GF(2) sum (`cochain ^=
{u_tuple}`) of the contributing union tuples over all pairs `i < j`, read
back as the sorted list of their indices.  (On the duplicate-free tables
of the runs considered, every simplex in `cochain` has a unique defined
index, so the image matches the source's list comprehension.) -/
def stsqColumn (length : Nat) (spx2idxNext : Simplex → Option Nat)
    (tupsDim : List Simplex) (rep : Col) : Col :=
  let cocycle := rep.map (fun i => tupsDim.getD i [])
  let cochain : Finset Simplex :=
    (List.range cocycle.length).foldl (fun ch i =>
      (List.range' (i + 1) (cocycle.length - (i + 1))).foldl (fun ch j =>
        match stsqPair length spx2idxNext (cocycle.getD i [])
            (cocycle.getD j []) with
        | some u => symmDiff ch {u}
        | none => ch) ch) ∅
  (cochain.image (fun s => (spx2idxNext s).getD 0)).sort (· ≤ ·)

/-- Python's `range(start, stop, step)` for `step ≥ 1`. -/
def pyRange (start stop step : Nat) : List Nat :=
  (List.range ((stop - start + step - 1) / step)).map
    (fun t => start + step * t)

/-- `_populate_steenrod_matrix_single_dim`: each of the `n_jobs` threads
owns the stride-partition subset `range(job_idx, len, n_jobs)` of the
representatives and writes only its own columns (`n_jobs = -1` means all
physical cores). -/
def populate_steenrod_matrix_single_dim (length : Nat)
    (cohoRepsDim : List Col) (tupsDim : List Simplex)
    (spx2idxNext : Simplex → Option Nat) (nCores : Nat) (nJobs : Int) :
    List Col :=
  let n : Nat := if nJobs = -1 then nCores else nJobs.toNat
  (List.range n).foldl (fun acc jobIdx =>
    (pyRange jobIdx cohoRepsDim.length n).foldl (fun acc idx =>
      acc.set idx
        (stsqColumn length spx2idxNext tupsDim (cohoRepsDim.getD idx [])))
      acc)
    (List.replicate cohoRepsDim.length [])

/-- `get_steenrod_matrix`.  `_initialize_steenrod_matrix(k)` is the list
of `k` empty lists; the slice `coho_reps[:-k]` is empty when `k = 0`. -/
def get_steenrod_matrix (k : Nat) (cohoReps : List (List Col))
    (fbd : List (Option DimTable)) (spx2idx : List (Simplex → Option Nat))
    (nCores : Nat) (nJobs : Int) : List (List Col) :=
  let sliced := cohoReps.take (if k = 0 then 0 else cohoReps.length - k)
  (List.replicate k ([] : List Col)) ++ sliced.enum.map (fun p =>
    let tupsDim := match fbd.getD p.1 none with
      | some t => t.2
      | none => []
    let s2iNext := spx2idx.getD (p.1 + k) (fun _ => none)
    populate_steenrod_matrix_single_dim (p.1 + k + 1) p.2 tupsDim s2iNext
      nCores nJobs)

/-! ### `get_steenrod_barcode` -/

/-- State of the scan in `_steenrod_barcode_single_dim`. -/
structure SBState where
  aug : List Col
  piv : List (Option Nat)
  alive : List Bool
  j : Nat
  bars : List (Int × Int)

/-- The `while` loop reducing one Steenrod column of the augmented
matrix (same fuel convention as `reduce_col_loop`). -/
def sb_reduce_loop (piv : List (Option Nat)) (aug : List Col) :
    Nat → Col → Col
  | 0, c => c
  | fuel + 1, c =>
    match c.head? with
    | none => c
    | some h =>
      match getPiv piv h with
      | none => c
      | some p => sb_reduce_loop piv aug fuel
          (symm_diff c.tail (getCol aug p).tail)

/-- Process one exposed Steenrod column `ii`: reduce it; a surviving
column becomes a (temporary) pivot, a column that died while its class
was alive marks the class dead and records a bar only when the current
index is strictly below the class's birth. -/
def sb_process_col (nIdxsDim n : Nat) (births : List Int) (idx : Int)
    (stp : SBState × List Nat) (ii : Nat) : SBState × List Nat :=
  let st := stp.1
  let c := sb_reduce_loop st.piv st.aug (nIdxsDim + 1) (getCol st.aug ii)
  let aug := st.aug.set ii c
  match c.head? with
  | some h =>
    (⟨aug, st.piv.set h (some ii), st.alive, st.j, st.bars⟩, stp.2 ++ [h])
  | none =>
    if st.alive.getD (ii - n) false then
      let b := births.getD (ii - n) 0
      ⟨⟨aug, st.piv, st.alive.set (ii - n) false, st.j,
        st.bars ++ (if idx < b then [(idx, b)] else [])⟩, stp.2⟩
    else (⟨aug, st.piv, st.alive, st.j, st.bars⟩, stp.2)

/-- One step of the backwards scan over the previous dimension's
filtration indices: expose the ordinary column, advance `j` past a birth
equal to the current index (the source reads `births_dim[j]` without a
bounds check under numba once `j` reaches the end; the garbage read never
equals a filtration index, modelled by a default that differs from
`idx`), process the exposed Steenrod columns, then reset the pivots they
introduced. -/
def sb_step (nIdxsDim : Nat) (births : List Int) (idxsPrev : List Nat)
    (st : SBState) (i : Nat) : SBState :=
  let n := idxsPrev.length
  let idx : Int := ((idxsPrev.getD (n - 1 - i) 0 : Nat) : Int)
  let st1 : SBState :=
    match (getCol st.aug (n - 1 - i)).head? with
    | some h => ⟨st.aug, st.piv.set h (some (n - 1 - i)), st.alive, st.j,
        st.bars⟩
    | none => st
  let j1 := if births.getD st1.j (idx + 1) = idx then st1.j + 1 else st1.j
  let st2 : SBState := ⟨st1.aug, st1.piv, st1.alive, j1, st1.bars⟩
  let stp := (List.range' n j1).foldl
    (sb_process_col nIdxsDim n births idx) (st2, [])
  ⟨stp.1.aug, stp.2.foldl (fun pv h => pv.set h none) stp.1.piv,
    stp.1.alive, stp.1.j, stp.1.bars⟩

/-- `_steenrod_barcode_single_dim`. -/
def steenrod_barcode_single_dim (stMatDim : List Col) (nIdxsDim : Nat)
    (idxsPrev : List Nat) (redPrev : List Col) (births : List Int) :
    List (Int × Int) :=
  let augmented := redPrev ++ stMatDim
  let init : SBState := ⟨augmented, List.replicate nIdxsDim none,
    List.replicate births.length true, 0, []⟩
  let final := (List.range idxsPrev.length).foldl
    (sb_step nIdxsDim births idxsPrev) init
  final.bars ++ (List.range final.alive.length).filterMap (fun i =>
    if final.alive.getD i false then some (-1, births.getD i 0) else none)

/-- numpy indexing `filtration_values[i]` with a possibly negative
index. -/
def pyGetVal (vals : List Int) (i : Int) : Int :=
  if i < 0 then vals.getD (vals.length - i.natAbs) 0 else vals.getD i.toNat 0

/-- The `nontrivial_bars` mask of `get_steenrod_barcode`. -/
def nontrivialBar (vals : List Int) (p : Int × Int) : Bool :=
  p.1 = -1 || pyGetVal vals p.1 ≠ pyGetVal vals p.2

/-- `get_steenrod_barcode`. -/
def get_steenrod_barcode (k : Nat) (stMat : List (List Col))
    (idxs : List (List Nat)) (reduced : List (List Col))
    (barcode : List (List (Int × Int))) (vals? : Option (List Int)) :
    List (List (Int × Int)) :=
  (List.replicate k ([] : List (Int × Int))) ++
    (List.range' k (stMat.length - k)).map (fun dim =>
      let births := (barcode.getD (dim - k) []).map Prod.snd
      let raw := steenrod_barcode_single_dim (stMat.getD dim [])
        (idxs.getD dim []).length (idxs.getD (dim - 1) [])
        (reduced.getD (dim - 1) []) births
      match vals? with
      | none => raw
      | some vals => raw.filter (nontrivialBar vals))

/-! ### Barcode post-processors and `barcodes` -/

/-- A filtration value as produced by the post-processors: either an
actual value or one of the `±numpy.inf` sentinels the source writes for
the open ends of essential bars. -/
inductive FVal where
  | fin : Int → FVal
  | pinf : FVal
  | ninf : FVal
deriving DecidableEq

/-- `_to_values_barcode`: the death entry of an essential bar becomes
`-numpy.inf`. -/
def to_values_barcode (barcode : List (List (Int × Int)))
    (vals : List Int) : List (List (FVal × FVal)) :=
  barcode.map (fun dimList => dimList.map (fun p =>
    if p.1 = -1 then (FVal.ninf, FVal.fin (pyGetVal vals p.2))
    else (FVal.fin (pyGetVal vals p.1), FVal.fin (pyGetVal vals p.2))))

/-- `abs_barcode[dim - 1].append(...)`: appending to the last completed
dimension; on an empty list this is Python's `IndexError`, modelled by
`none`. -/
def appendToLast (acc : List (List α)) (x : α) : Option (List (List α)) :=
  match acc with
  | [] => none
  | l => some (l.dropLast ++ [l.getLastD [] ++ [x]])

/-- `_to_absolute_barcode` without filtration values: an essential
relative bar `(-1, b)` becomes `(b, -1)` in its own dimension; a finite
relative bar of dimension `dim` is appended, birth and death swapped into
`(death, birth)` order read as `(birth, death)`, to dimension
`dim - 1`. -/
def to_absolute_barcode_idx (rel : List (List (Int × Int))) :
    Option (List (List (Int × Int))) :=
  rel.foldlM (fun acc dimList => do
    let st ← dimList.foldlM
      (fun (st : List (List (Int × Int)) × List (Int × Int)) p =>
        if p.1 = -1 then pure (st.1, st.2 ++ [(p.2, -1)])
        else do
          let acc' ← appendToLast st.1 (p.1, p.2)
          pure (acc', st.2))
      (acc, ([] : List (Int × Int)))
    pure (st.1 ++ [st.2])) []

/-- `_to_absolute_barcode` with filtration values: essential bars get
death `+numpy.inf`. -/
def to_absolute_barcode_vals (rel : List (List (Int × Int)))
    (vals : List Int) : Option (List (List (FVal × FVal))) :=
  rel.foldlM (fun acc dimList => do
    let st ← dimList.foldlM
      (fun (st : List (List (FVal × FVal)) × List (FVal × FVal)) p =>
        if p.1 = -1 then
          pure (st.1, st.2 ++ [(FVal.fin (pyGetVal vals p.2), FVal.pinf)])
        else do
          let acc' ← appendToLast st.1
            (FVal.fin (pyGetVal vals p.1), FVal.fin (pyGetVal vals p.2))
          pure (acc', st.2))
      (acc, ([] : List (FVal × FVal)))
    pure (st.1 ++ [st.2])) []

/-- A barcode as returned by `barcodes`: filtration indices or
filtration values, depending on the options. -/
inductive BOut where
  | idx : List (List (Int × Int)) → BOut
  | val : List (List (FVal × FVal)) → BOut
deriving DecidableEq

/-- `barcodes`, the package entry point (`verbose` only prints timings
and is omitted).  `nCores` models `N_PHYSICAL_CORES`. -/
def barcodes (k : Nat) (filtration : List (List Nat)) (absolute : Bool)
    (vals? : Option (List Int)) (returnValues : Bool)
    (maxdim : Option Nat) (nCores : Nat) (nJobs : Int) :
    Option (BOut × BOut) := do
  let fbd ← sort_filtration_by_dim filtration maxdim
  let outs ← get_reduced_triangular fbd
  let spx2idx := outs.map (fun o => o.spx2idx)
  let idxs := outs.map (fun o => o.idxs)
  let reduced := outs.map (fun o => o.red)
  let triangular := outs.map (fun o => o.tri)
  let bc := get_barcode_and_coho_reps idxs reduced triangular vals?
  let stMat := get_steenrod_matrix k bc.2 fbd spx2idx nCores nJobs
  let stBarcode := get_steenrod_barcode k stMat idxs reduced bc.1 vals?
  if absolute then
    match vals?, returnValues with
    | some vals, true => do
      let b ← to_absolute_barcode_vals bc.1 vals
      let s ← to_absolute_barcode_vals stBarcode vals
      pure (BOut.val b, BOut.val s)
    | _, _ => do
      let b ← to_absolute_barcode_idx bc.1
      let s ← to_absolute_barcode_idx stBarcode
      pure (BOut.idx b, BOut.idx s)
  else
    match vals?, returnValues with
    | some vals, true =>
      pure (BOut.val (to_values_barcode bc.1 vals),
        BOut.val (to_values_barcode stBarcode vals))
    | _, _ => pure (BOut.idx bc.1, BOut.idx stBarcode)

/-! ### Utility lemmas on `getCol`, `getPiv` and `List.set` -/

theorem getCol_set_self {m : List Col} {i : Nat} (h : i < m.length)
    (c : Col) : getCol (m.set i c) i = c := by
  simp [getCol, List.getD_eq_getElem?_getD, List.getElem?_set_self', h,
    List.getElem?_eq_getElem]

theorem getCol_set_ne {m : List Col} {i j : Nat} (h : i ≠ j) (c : Col) :
    getCol (m.set i c) j = getCol m j := by
  simp [getCol, List.getD_eq_getElem?_getD, List.getElem?_set_ne h]

theorem getCol_oob {m : List Col} {i : Nat} (h : m.length ≤ i) :
    getCol m i = [] := by
  simp only [getCol, List.getD_eq_getElem?_getD]
  rw [List.getElem?_eq_none h]
  rfl

@[simp] theorem getCol_replicate {n i : Nat} :
    getCol (List.replicate n ([] : Col)) i = [] := by
  rcases Nat.lt_or_ge i n with h | h
  · simp [getCol, List.getD_eq_getElem?_getD, List.getElem?_replicate, h]
  · exact getCol_oob (by simpa using h)

@[simp] theorem getCol_nil {i : Nat} : getCol [] i = [] := rfl

theorem getPiv_set_self {m : List (Option Nat)} {i : Nat}
    (h : i < m.length) (c : Option Nat) : getPiv (m.set i c) i = c := by
  simp [getPiv, List.getD_eq_getElem?_getD, List.getElem?_set_self', h,
    List.getElem?_eq_getElem]

theorem getPiv_set_ne {m : List (Option Nat)} {i j : Nat} (h : i ≠ j)
    (c : Option Nat) : getPiv (m.set i c) j = getPiv m j := by
  simp [getPiv, List.getD_eq_getElem?_getD, List.getElem?_set_ne h]

theorem getPiv_oob {m : List (Option Nat)} {i : Nat} (h : m.length ≤ i) :
    getPiv m i = none := by
  simp only [getPiv, List.getD_eq_getElem?_getD]
  rw [List.getElem?_eq_none h]
  rfl

@[simp] theorem getPiv_replicate {n i : Nat} :
    getPiv (List.replicate n (none : Option Nat)) i = none := by
  rcases Nat.lt_or_ge i n with h | h
  · simp [getPiv, List.getD_eq_getElem?_getD, List.getElem?_replicate, h]
  · exact getPiv_oob (by simpa using h)

@[simp] theorem getPiv_nil {i : Nat} : getPiv [] i = none := rfl

theorem getCol_mem {m : List Col} {i : Nat} (h : i < m.length) :
    getCol m i ∈ m := by
  rw [getCol, List.getD_eq_getElem _ _ h]
  exact List.getElem_mem h

/-! ### The `spx2idx` dictionary -/

theorem spx2idx_foldl_aux {s : Simplex} {i : Nat} :
    ∀ (l : List (Nat × Simplex)) (acc : Option Nat),
      l.foldl (fun acc p => if p.2 = s then some p.1 else acc) acc = some i →
      (i, s) ∈ l ∨ acc = some i
  | [], acc, h => Or.inr h
  | p :: l, acc, h => by
    rcases spx2idx_foldl_aux l _ h with h' | h'
    · exact Or.inl (List.mem_cons_of_mem _ h')
    · change (if p.2 = s then some p.1 else acc) = some i at h'
      by_cases hp : p.2 = s
      · rw [if_pos hp] at h'
        obtain rfl : p.1 = i := by injection h'
        exact Or.inl (by
          rcases p with ⟨p1, p2⟩
          cases hp
          exact List.mem_cons_self _ _)
      · rw [if_neg hp] at h'
        exact Or.inr h'

theorem spx2idx_foldl_isSome {s : Simplex} :
    ∀ (l : List (Nat × Simplex)) (acc : Option Nat),
      ((∃ p ∈ l, p.2 = s) ∨ acc.isSome) →
      (l.foldl (fun acc p => if p.2 = s then some p.1 else acc) acc).isSome
  | [], acc, h => by
    rcases h with ⟨p, hp, _⟩ | h
    · exact absurd hp (List.not_mem_nil _)
    · exact h
  | p :: l, acc, h => by
    apply spx2idx_foldl_isSome l
    show (∃ q ∈ l, q.2 = s) ∨ (if p.2 = s then some p.1 else acc).isSome = true
    by_cases hp : p.2 = s
    · rw [if_pos hp]
      exact Or.inr rfl
    · rw [if_neg hp]
      rcases h with ⟨q, hq, hq2⟩ | h
      · rcases List.mem_cons.mp hq with rfl | hq
        · exact absurd hq2 hp
        · exact Or.inl ⟨q, hq, hq2⟩
      · exact Or.inr h

theorem mem_enum_iff {l : List Simplex} {i : Nat} {s : Simplex} :
    (i, s) ∈ l.enum ↔ l[i]? = some s := by
  simp [List.mk_mem_enum_iff_getElem?]

/-- A successful dictionary lookup returns a valid index holding the
key. -/
theorem spx2idxFun_some {tups : List Simplex} {s : Simplex} {i : Nat}
    (h : spx2idxFun tups s = some i) :
    i < tups.length ∧ tups.getD i [] = s := by
  rcases spx2idx_foldl_aux tups.enum none h with h' | h'
  · have := mem_enum_iff.mp h'
    have hi : i < tups.length := by
      by_contra hge
      rw [List.getElem?_eq_none (by omega)] at this
      exact Option.noConfusion this
    refine ⟨hi, ?_⟩
    rw [List.getD_eq_getElem _ _ hi]
    have := this
    rw [List.getElem?_eq_getElem hi] at this
    injection this
  · exact Option.noConfusion h'

/-- The lookup succeeds exactly on the members of the table. -/
theorem spx2idxFun_isSome_iff {tups : List Simplex} {s : Simplex} :
    (spx2idxFun tups s).isSome ↔ s ∈ tups := by
  constructor
  · intro h
    obtain ⟨i, hi⟩ := Option.isSome_iff_exists.mp h
    obtain ⟨hlt, hget⟩ := spx2idxFun_some hi
    rw [← hget]
    exact getD_mem_of_lt hlt
  · intro h
    obtain ⟨i, hi, hval⟩ := List.getElem_of_mem h
    apply spx2idx_foldl_isSome
    refine Or.inl ⟨(i, s), ?_, rfl⟩
    rw [mem_enum_iff, List.getElem?_eq_getElem hi, hval]
where
  getD_mem_of_lt {l : List Simplex} {i : Nat} (h : i < l.length) :
      l.getD i [] ∈ l := by
    rw [List.getD_eq_getElem _ _ h]
    exact List.getElem_mem h

/-- On a duplicate-free table the lookup inverts indexing. -/
theorem spx2idxFun_getD {tups : List Simplex} (hnd : tups.Nodup) {i : Nat}
    (hi : i < tups.length) : spx2idxFun tups (tups.getD i []) = some i := by
  have hsome : (spx2idxFun tups (tups.getD i [])).isSome := by
    rw [spx2idxFun_isSome_iff, List.getD_eq_getElem _ _ hi]
    exact List.getElem_mem hi
  obtain ⟨i', hi'⟩ := Option.isSome_iff_exists.mp hsome
  obtain ⟨hlt', hget'⟩ := spx2idxFun_some hi'
  have : i' = i := by
    rw [List.getD_eq_getElem _ _ hlt', List.getD_eq_getElem _ _ hi] at hget'
    exact (List.Nodup.getElem_inj_iff hnd).mp hget'
  rw [hi', this]

/-! ### Faces of a simplex -/

theorem mem_drop_elements {u s : Simplex} :
    s ∈ drop_elements u ↔ ∃ x, x < u.length ∧ u.eraseIdx x = s := by
  simp [drop_elements, List.mem_map, List.mem_range]

theorem sortedLt_eq_of_toFinset_eq {a b : List Nat} (ha : SortedLt a)
    (hb : SortedLt b) (h : a.toFinset = b.toFinset) : a = b := by
  haveI : IsAntisymm Nat (· < ·) :=
    ⟨fun a b h1 h2 => absurd h1 (Nat.lt_asymm h2)⟩
  exact List.eq_of_perm_of_sorted
    (List.perm_of_nodup_nodup_toFinset_eq ha.nodup hb.nodup h) ha hb

theorem sortedLt_of_mem_drop {u s : Simplex} (hu : SortedLt u)
    (hs : s ∈ drop_elements u) : SortedLt s := by
  obtain ⟨x, _, rfl⟩ := mem_drop_elements.mp hs
  exact hu.sublist (List.eraseIdx_sublist _ _)

theorem toFinset_eraseIdx {u : Simplex} (hnd : u.Nodup) {x : Nat}
    (hx : x < u.length) :
    (u.eraseIdx x).toFinset = u.toFinset.erase u[x] := by
  rw [← List.Nodup.erase_getElem hnd x hx]
  ext a
  rw [List.mem_toFinset, List.Nodup.mem_erase_iff hnd, Finset.mem_erase,
    List.mem_toFinset]

/-- A sorted simplex is a face of a sorted simplex exactly when its
vertex set is contained in the other's and it has one vertex fewer. -/
theorem mem_drop_elements_iff_finset {u s : Simplex} (hu : SortedLt u)
    (hs : SortedLt s) :
    s ∈ drop_elements u ↔
      (s.toFinset ⊆ u.toFinset ∧ s.length + 1 = u.length) := by
  constructor
  · intro h
    obtain ⟨x, hx, rfl⟩ := mem_drop_elements.mp h
    constructor
    · intro a ha
      rw [List.mem_toFinset] at ha ⊢
      exact (List.eraseIdx_sublist _ _).subset ha
    · exact List.length_eraseIdx_add_one hx
  · rintro ⟨hsub, hlen⟩
    have hcard_u : u.toFinset.card = u.length :=
      List.toFinset_card_of_nodup hu.nodup
    have hcard_s : s.toFinset.card = s.length :=
      List.toFinset_card_of_nodup hs.nodup
    have hdiff : (u.toFinset \ s.toFinset).card = 1 := by
      rw [Finset.card_sdiff hsub]
      omega
    obtain ⟨v, hv⟩ := Finset.card_eq_one.mp hdiff
    have hvu : v ∈ u.toFinset := by
      have : v ∈ u.toFinset \ s.toFinset := hv ▸ Finset.mem_singleton_self v
      exact (Finset.mem_sdiff.mp this).1
    have hvs : v ∉ s.toFinset := by
      have : v ∈ u.toFinset \ s.toFinset := hv ▸ Finset.mem_singleton_self v
      exact (Finset.mem_sdiff.mp this).2
    have hvmem : v ∈ u := List.mem_toFinset.mp hvu
    have hx : u.indexOf v < u.length := List.indexOf_lt_length.mpr hvmem
    have hgot : u[u.indexOf v] = v := List.getElem_indexOf hx
    rw [mem_drop_elements]
    refine ⟨u.indexOf v, hx, ?_⟩
    apply sortedLt_eq_of_toFinset_eq
      (hu.sublist (List.eraseIdx_sublist _ _)) hs
    rw [toFinset_eraseIdx hu.nodup hx, hgot]
    ext a
    rw [Finset.mem_erase]
    constructor
    · rintro ⟨hne, hau⟩
      by_contra has
      have : a ∈ u.toFinset \ s.toFinset := Finset.mem_sdiff.mpr ⟨hau, has⟩
      rw [hv, Finset.mem_singleton] at this
      exact hne this
    · intro has
      refine ⟨fun hav => hvs (hav ▸ has), hsub has⟩

theorem drop_elements_nodup {u : Simplex} (hu : u.Nodup) :
    (drop_elements u).Nodup := by
  apply List.Nodup.map_on
  · intro x hx y hy hxy
    rw [List.mem_range] at hx hy
    by_contra hne
    have h1 : u[x] ∉ u.eraseIdx x := by
      rw [← List.Nodup.erase_getElem hu x hx]
      intro hmem
      exact ((List.Nodup.mem_erase_iff hu).mp hmem).1 rfl
    have h2 : u[x] ∈ u.eraseIdx y := by
      rw [← List.Nodup.erase_getElem hu y hy]
      rw [List.Nodup.mem_erase_iff hu]
      exact ⟨fun h => hne ((List.Nodup.getElem_inj_iff hu).mp h),
        List.getElem_mem hx⟩
    rw [hxy] at h1
    exact h1 h2
  · exact List.nodup_range _

/-! ### Characterization of the coboundary construction -/

theorem length_addCofacet {cols : List Col} {i j : Nat} :
    (addCofacet cols i j).length = cols.length := by
  simp [addCofacet]

theorem cob_faces_fold {tups : List Simplex} (hnd : tups.Nodup) (j : Nat) :
    ∀ (fs : List Simplex) (cols cols' : List Col), fs.Nodup →
      tups.length ≤ cols.length →
      fs.foldlM (fun cs face =>
        match spx2idxFun tups face with
        | none => none
        | some i => some (addCofacet cs i j)) cols = some cols' →
      cols'.length = cols.length ∧ (∀ f ∈ fs, f ∈ tups) ∧
      ∀ i, getCol cols' i = getCol cols i ++
        (if i < tups.length ∧ tups.getD i [] ∈ fs then [j] else [])
  | [], cols, cols', _, _, h => by
    rw [List.foldlM_nil] at h
    obtain rfl : cols = cols' := by injection h
    refine ⟨rfl, by simp, fun i => by simp⟩
  | f :: fs, cols, cols', hfnd, hlen, h => by
    rw [List.foldlM_cons] at h
    rcases hlook : spx2idxFun tups f with _ | i0
    · rw [hlook] at h
      exact Option.noConfusion h
    · rw [hlook] at h
      have h' : fs.foldlM (fun cs face =>
          match spx2idxFun tups face with
          | none => none
          | some i => some (addCofacet cs i j)) (addCofacet cols i0 j)
          = some cols' := h
      obtain ⟨hi0lt, hi0get⟩ := spx2idxFun_some hlook
      have hlen1 : tups.length ≤ (addCofacet cols i0 j).length := by
        rw [length_addCofacet]; exact hlen
      obtain ⟨hL, hPres, hCols⟩ :=
        cob_faces_fold hnd j fs (addCofacet cols i0 j) cols'
          hfnd.of_cons hlen1 h'
      have hfnotin : f ∉ fs := (List.nodup_cons.mp hfnd).1
      refine ⟨by rw [hL, length_addCofacet], ?_, ?_⟩
      · intro g hg
        rcases List.mem_cons.mp hg with rfl | hg
        · exact spx2idxFun_isSome_iff.mp (by rw [hlook]; rfl)
        · exact hPres g hg
      · intro i
        rw [hCols i]
        simp only [addCofacet]
        by_cases hii : i = i0
        · subst hii
          rw [getCol_set_self (by omega) _]
          have hcondT : i < tups.length ∧ tups.getD i [] ∈ f :: fs :=
            ⟨hi0lt, by rw [hi0get]; exact List.mem_cons_self _ _⟩
          rw [if_pos hcondT]
          have hcondF : ¬(i < tups.length ∧ tups.getD i [] ∈ fs) := by
            rintro ⟨_, hmem⟩
            rw [hi0get] at hmem
            exact hfnotin hmem
          rw [if_neg hcondF]
          simp
        · rw [getCol_set_ne (fun he => hii he.symm) _]
          congr 1
          by_cases hcond : i < tups.length ∧ tups.getD i [] ∈ fs
          · rw [if_pos hcond,
              if_pos ⟨hcond.1, List.mem_cons_of_mem _ hcond.2⟩]
          · rw [if_neg hcond]
            rw [if_neg ?_]
            rintro ⟨hilt, hmem⟩
            rcases List.mem_cons.mp hmem with heq | hmem
            · have := spx2idxFun_getD hnd hilt
              rw [heq, hlook] at this
              refine hii ?_
              injection this with hv
              exact hv.symm
            · exact hcond ⟨hilt, hmem⟩

theorem cob_step_spec {tups : List Simplex} (hnd : tups.Nodup) {j : Nat}
    {u : Simplex} (hu : u.Nodup) {cols cols' : List Col}
    (hlen : tups.length ≤ cols.length)
    (h : cob_step (spx2idxFun tups) j u cols = some cols') :
    cols'.length = cols.length ∧ (∀ f ∈ drop_elements u, f ∈ tups) ∧
    ∀ i, getCol cols' i = getCol cols i ++
      (if i < tups.length ∧ tups.getD i [] ∈ drop_elements u then [j]
       else []) :=
  cob_faces_fold hnd j (drop_elements u) cols cols'
    (drop_elements_nodup hu) hlen h

theorem sortedLt_append_singleton {l : List Nat} {n : Nat}
    (hl : SortedLt l) (hb : ∀ x ∈ l, x < n) : SortedLt (l ++ [n]) := by
  refine List.pairwise_append.mpr ⟨hl, List.pairwise_singleton _ _, ?_⟩
  intro a ha b hb'
  rw [List.mem_singleton] at hb'
  subst hb'
  exact hb a ha

theorem cob_enum_fold {tups : List Simplex} (hnd : tups.Nodup) :
    ∀ (us : List Simplex) (n : Nat) (cols cols' : List Col),
      (∀ u ∈ us, u.Nodup) →
      tups.length ≤ cols.length →
      (us.enumFrom n).foldlM
        (fun cs p => cob_step (spx2idxFun tups) p.1 p.2 cs) cols
        = some cols' →
      cols'.length = cols.length ∧
      (∀ u ∈ us, ∀ f ∈ drop_elements u, f ∈ tups) ∧
      (∀ i, tups.length ≤ i → getCol cols' i = getCol cols i) ∧
      (∀ i, i < tups.length →
        (∀ x ∈ getCol cols i, x < n) → SortedLt (getCol cols i) →
        SortedLt (getCol cols' i) ∧
        (∀ x ∈ getCol cols' i, x < n + us.length) ∧
        ∀ m, m ∈ getCol cols' i ↔ (m ∈ getCol cols i ∨
          (n ≤ m ∧ m < n + us.length ∧
            tups.getD i [] ∈ drop_elements (us.getD (m - n) []))))
  | [], n, cols, cols', _, _, h => by
    rw [List.enumFrom_nil, List.foldlM_nil] at h
    obtain rfl : cols = cols' := by injection h
    exact ⟨rfl, by simp, fun i _ => rfl, fun i _ hb hs =>
      ⟨hs, fun x hx => by have := hb x hx; omega,
       fun m => by
        constructor
        · exact fun hm => Or.inl hm
        · rintro (hm | ⟨hge, hlt, _⟩)
          · exact hm
          · simp only [List.length_nil] at hlt
            omega⟩⟩
  | u :: us, n, cols, cols', hund, hlen, h => by
    rw [List.enumFrom_cons, List.foldlM_cons] at h
    rcases hstep : cob_step (spx2idxFun tups) n u cols with _ | cols1
    · rw [hstep] at h
      exact Option.noConfusion h
    · rw [hstep] at h
      obtain ⟨hL1, hPres1, hChar1⟩ :=
        cob_step_spec hnd (hund u (List.mem_cons_self _ _)) hlen hstep
      obtain ⟨hL, hPres, hHi, hLo⟩ :=
        cob_enum_fold hnd us (n + 1) cols1 cols'
          (fun v hv => hund v (List.mem_cons_of_mem _ hv))
          (by omega) h
      refine ⟨by omega, ?_, ?_, ?_⟩
      · intro v hv
        rcases List.mem_cons.mp hv with rfl | hv
        · exact hPres1
        · exact hPres v hv
      · intro i hi
        rw [hHi i hi, hChar1 i, if_neg (by omega)]
        simp
      · intro i hi hb hs
        have hcols1 : getCol cols1 i = getCol cols i ++
            (if i < tups.length ∧ tups.getD i [] ∈ drop_elements u
             then [n] else []) := hChar1 i
        have hb1 : ∀ x ∈ getCol cols1 i, x < n + 1 := by
          intro x hx
          rw [hcols1, List.mem_append] at hx
          rcases hx with hx | hx
          · have := hb x hx; omega
          · rcases Decidable.em (i < tups.length ∧
              tups.getD i [] ∈ drop_elements u) with hc | hc
            · rw [if_pos hc, List.mem_singleton] at hx
              omega
            · rw [if_neg hc] at hx
              exact absurd hx (List.not_mem_nil _)
        have hs1 : SortedLt (getCol cols1 i) := by
          rw [hcols1]
          rcases Decidable.em (i < tups.length ∧
              tups.getD i [] ∈ drop_elements u) with hc | hc
          · rw [if_pos hc]
            exact sortedLt_append_singleton hs hb
          · rw [if_neg hc]
            simpa using hs
        obtain ⟨hs', hb', hm'⟩ := hLo i hi hb1 hs1
        refine ⟨hs', fun x hx => by have := hb' x hx; simp; omega, ?_⟩
        intro m
        rw [hm' m]
        have hmem1 : m ∈ getCol cols1 i ↔ (m ∈ getCol cols i ∨
            (m = n ∧ i < tups.length ∧
              tups.getD i [] ∈ drop_elements u)) := by
          rw [hcols1, List.mem_append]
          rcases Decidable.em (i < tups.length ∧
              tups.getD i [] ∈ drop_elements u) with hc | hc
          · rw [if_pos hc]
            simp only [List.mem_singleton]
            constructor
            · rintro (hm | rfl)
              · exact Or.inl hm
              · exact Or.inr ⟨rfl, hc⟩
            · rintro (hm | ⟨rfl, _⟩)
              · exact Or.inl hm
              · exact Or.inr rfl
          · rw [if_neg hc]
            simp only [List.not_mem_nil, or_false]
            constructor
            · exact Or.inl
            · rintro (hm | ⟨_, hc'⟩)
              · exact hm
              · exact absurd hc' hc
        rw [hmem1]
        constructor
        · rintro ((hm | ⟨rfl, _, hface⟩) | ⟨hge, hlt, hface⟩)
          · exact Or.inl hm
          · refine Or.inr ⟨le_refl _, by simp, ?_⟩
            simpa using hface
          · refine Or.inr ⟨by omega, by simp; omega, ?_⟩
            have : (u :: us).getD (m - n) [] = us.getD (m - (n + 1)) [] := by
              have hmn : m - n = (m - (n + 1)) + 1 := by omega
              rw [hmn, List.getD_cons_succ]
            rw [this]
            exact hface
        · rintro (hm | ⟨hge, hlt, hface⟩)
          · exact Or.inl (Or.inl hm)
          · rcases Nat.eq_or_lt_of_le hge with rfl | hgt
            · refine Or.inl (Or.inr ⟨rfl, hi, ?_⟩)
              simpa using hface
            · refine Or.inr ⟨by omega, by simp at hlt; omega, ?_⟩
              have : (u :: us).getD (m - n) [] =
                  us.getD (m - (n + 1)) [] := by
                have hmn : m - n = (m - (n + 1)) + 1 := by omega
                rw [hmn, List.getD_cons_succ]
              rw [← this]
              exact hface

/-- Full characterization of the initial coboundary matrix built by
`_inner_reduce_single_dim`: membership of `j` in column `i` says exactly
that simplex `i` is a face of the next-dimension simplex `j`. -/
theorem cobColumns_spec {tups tupsNext : List Simplex} {nDim : Nat}
    {cols : List Col} (hnd : tups.Nodup)
    (hus : ∀ u ∈ tupsNext, u.Nodup) (hlen : tups.length ≤ nDim)
    (h : cobColumns (spx2idxFun tups) nDim tupsNext = some cols) :
    cols.length = nDim ∧
    (∀ u ∈ tupsNext, ∀ f ∈ drop_elements u, f ∈ tups) ∧
    (∀ i, SortedLt (getCol cols i)) ∧
    (∀ i, ∀ x ∈ getCol cols i, x < tupsNext.length) ∧
    (∀ i m, m ∈ getCol cols i ↔ (i < tups.length ∧ m < tupsNext.length ∧
      tups.getD i [] ∈ drop_elements (tupsNext.getD m []))) := by
  have h' : (tupsNext.enumFrom 0).foldlM
      (fun cs p => cob_step (spx2idxFun tups) p.1 p.2 cs)
      (List.replicate nDim ([] : Col)) = some cols := by
    simpa [cobColumns, List.enum] using h
  obtain ⟨hL, hPres, hHi, hLo⟩ := cob_enum_fold hnd tupsNext 0
    (List.replicate nDim []) cols hus (by simpa using hlen) h'
  have hLrep : (List.replicate nDim ([] : Col)).length = nDim := by simp
  refine ⟨by rw [hL, hLrep], hPres, ?_, ?_, ?_⟩
  · intro i
    rcases Nat.lt_or_ge i tups.length with hi | hi
    · exact (hLo i hi (by simp) (by simp [List.Sorted])).1
    · rw [hHi i hi, getCol_replicate]
      simp [List.Sorted]
  · intro i x hx
    rcases Nat.lt_or_ge i tups.length with hi | hi
    · have := (hLo i hi (by simp) (by simp [List.Sorted])).2.1 x hx
      omega
    · rw [hHi i hi, getCol_replicate] at hx
      exact absurd hx (List.not_mem_nil _)
  · intro i m
    rcases Nat.lt_or_ge i tups.length with hi | hi
    · have := (hLo i hi (by simp) (by simp [List.Sorted])).2.2 m
      rw [this]
      simp only [getCol_replicate, List.not_mem_nil, false_or]
      constructor
      · rintro ⟨_, hlt, hface⟩
        exact ⟨hi, by omega, by simpa using hface⟩
      · rintro ⟨_, hlt, hface⟩
        exact ⟨by omega, by omega, by simpa using hface⟩
    · rw [hHi i hi, getCol_replicate]
      simp only [List.not_mem_nil, false_iff]
      rintro ⟨hilt, _, _⟩
      omega

/-! ### The inner reduction loop -/

@[simp] theorem applyD_nil {D : List Col} : applyD D [] = 0 := by
  funext r
  simp [applyD, colFun]

/-- Full specification of the inner `while` loop of `_twist_reduction`:
under the pivot-table invariants the loop terminates within its fuel,
preserves sortedness, bounds and the `R = D·V` relation of the current
column pair, and exits with a column whose head owns no pivot. -/
theorem reduce_col_loop_spec {D : List Col} {nNext : Nat}
    {piv : List (Option Nat)} {redm trim : List Col} {j : Nat}
    (HPIV : ∀ h p, getPiv piv h = some p →
      (getCol redm p).head? = some h ∧ SortedLt (getCol redm p) ∧
      (∀ x ∈ getCol redm p, x < nNext) ∧ SortedLt (getCol trim p) ∧
      (∀ x ∈ getCol trim p, j < x) ∧ (∀ x ∈ getCol trim p, x < D.length) ∧
      colFun (getCol redm p) = applyD D (getCol trim p)) :
    ∀ (fuel lb : Nat) (c t : Col),
      SortedLt c → (∀ x ∈ c, x < nNext) → (∀ x ∈ c, lb ≤ x) →
      SortedLt t → j ∈ t → (∀ x ∈ t, j ≤ x) → (∀ x ∈ t, x < D.length) →
      colFun c = applyD D t → nNext + 1 ≤ fuel + lb →
      SortedLt (reduce_col_loop piv redm trim fuel (c, t)).1 ∧
      (∀ x ∈ (reduce_col_loop piv redm trim fuel (c, t)).1, x < nNext) ∧
      SortedLt (reduce_col_loop piv redm trim fuel (c, t)).2 ∧
      j ∈ (reduce_col_loop piv redm trim fuel (c, t)).2 ∧
      (∀ x ∈ (reduce_col_loop piv redm trim fuel (c, t)).2, j ≤ x) ∧
      (∀ x ∈ (reduce_col_loop piv redm trim fuel (c, t)).2, x < D.length) ∧
      colFun (reduce_col_loop piv redm trim fuel (c, t)).1 =
        applyD D (reduce_col_loop piv redm trim fuel (c, t)).2 ∧
      (∀ h, (reduce_col_loop piv redm trim fuel (c, t)).1.head? = some h →
        getPiv piv h = none)
  | 0, lb, c, t, hcs, hcb, hclb, hts, htj, htlb, htb, hrv, hfuel => by
    have hc : c = [] := by
      cases c with
      | nil => rfl
      | cons x ctail =>
        have h1 := hcb x (List.mem_cons_self _ _)
        have h2 := hclb x (List.mem_cons_self _ _)
        omega
    subst hc
    rw [reduce_col_loop]
    exact ⟨by simp [List.Sorted], by simp, hts, htj, htlb, htb, hrv,
      fun h hh => by simp at hh⟩
  | fuel + 1, lb, c, t, hcs, hcb, hclb, hts, htj, htlb, htb, hrv, hfuel => by
    cases c with
    | nil =>
      rw [reduce_col_loop]
      exact ⟨by simp [List.Sorted], by simp, hts, htj, htlb, htb, hrv,
        fun h hh => by simp at hh⟩
    | cons h0 ctail =>
      rw [reduce_col_loop]
      simp only [List.head?_cons]
      rcases hpv : getPiv piv h0 with _ | p
      · exact ⟨hcs, hcb, hts, htj, htlb, htb, hrv, fun h hh => by
          rw [List.head?_cons] at hh
          obtain rfl : h0 = h := by injection hh
          exact hpv⟩
      · obtain ⟨hredh, hreds, hredb, htrims, htrimj, htrimb, hrvp⟩ :=
          HPIV h0 p hpv
        rcases hcolp : getCol redm p with _ | ⟨h0', rtail⟩
        · rw [hcolp] at hredh
          simp at hredh
        · rw [hcolp] at hredh hreds hredb hrvp
          rw [List.head?_cons] at hredh
          have heq : h0 = h0' := by
            injection hredh with hv
            exact hv.symm
          subst heq
          simp only [hcolp, List.tail_cons]
          have hctails : SortedLt ctail := hcs.of_cons
          have hrtails : SortedLt rtail := hreds.of_cons
          have hctail_gt : ∀ x ∈ ctail, h0 < x :=
            (List.sorted_cons.mp hcs).1
          have hrtail_gt : ∀ x ∈ rtail, h0 < x :=
            (List.sorted_cons.mp hreds).1
          have hc1s : SortedLt (symm_diff ctail rtail) :=
            sorted_symm_diff hctails hrtails
          have hc1b : ∀ x ∈ symm_diff ctail rtail, x < nNext := by
            intro x hx
            rcases (mem_symm_diff hctails hrtails).mp hx with ⟨h1, _⟩ | ⟨h1, _⟩
            · exact hcb x (List.mem_cons_of_mem _ h1)
            · exact hredb x (List.mem_cons_of_mem _ h1)
          have hc1lb : ∀ x ∈ symm_diff ctail rtail, h0 + 1 ≤ x := by
            intro x hx
            rcases (mem_symm_diff hctails hrtails).mp hx with ⟨h1, _⟩ | ⟨h1, _⟩
            · exact hctail_gt x h1
            · exact hrtail_gt x h1
          have ht1s : SortedLt (symm_diff t (getCol trim p)) :=
            sorted_symm_diff hts htrims
          have ht1j : j ∈ symm_diff t (getCol trim p) := by
            refine (mem_symm_diff hts htrims).mpr (Or.inl ⟨htj, ?_⟩)
            intro hmem
            exact absurd (htrimj j hmem) (lt_irrefl _)
          have ht1lb : ∀ x ∈ symm_diff t (getCol trim p), j ≤ x := by
            intro x hx
            rcases (mem_symm_diff hts htrims).mp hx with ⟨h1, _⟩ | ⟨h1, _⟩
            · exact htlb x h1
            · exact le_of_lt (htrimj x h1)
          have ht1b : ∀ x ∈ symm_diff t (getCol trim p), x < D.length := by
            intro x hx
            rcases (mem_symm_diff hts htrims).mp hx with ⟨h1, _⟩ | ⟨h1, _⟩
            · exact htb x h1
            · exact htrimb x h1
          have hrv1 : colFun (symm_diff ctail rtail) =
              applyD D (symm_diff t (getCol trim p)) := by
            rw [symm_diff_tail_eq rfl, colFun_symm_diff hcs hreds,
              applyD_symm_diff hts htrims, hrv, hrvp]
          have hfuel1 : nNext + 1 ≤ fuel + (h0 + 1) := by
            have := hclb h0 (List.mem_cons_self _ _)
            omega
          exact reduce_col_loop_spec HPIV fuel (h0 + 1)
            (symm_diff ctail rtail) (symm_diff t (getCol trim p))
            hc1s hc1b hc1lb ht1s ht1j ht1lb ht1b hrv1 hfuel1

/-! ### The `_twist_reduction` invariant -/

/-- The invariant of `_twist_reduction` when the columns `≥ m` have been
processed (`D` is the original coboundary matrix, `cleared` the indices
reset by the clearing step before the reduction started). -/
structure TwistInv (D : List Col) (nNext : Nat) (cleared : List Nat)
    (m : Nat) (st : RState) : Prop where
  lenRed : st.red.length = D.length
  lenTri : st.tri.length = D.length
  lenPiv : st.piv.length = nNext
  redSorted : ∀ j, SortedLt (getCol st.red j)
  redBound : ∀ j, ∀ x ∈ getCol st.red j, x < nNext
  triSorted : ∀ j, SortedLt (getCol st.tri j)
  triSelf : ∀ j, j < D.length → j ∈ getCol st.tri j
  triLb : ∀ j, ∀ x ∈ getCol st.tri j, j ≤ x
  triBound : ∀ j, ∀ x ∈ getCol st.tri j, x < D.length
  rdv : ∀ j, j ∉ cleared →
    colFun (getCol st.red j) = applyD D (getCol st.tri j)
  clearedRed : ∀ j ∈ cleared, getCol st.red j = []
  clearedTri : ∀ j ∈ cleared, getCol st.tri j = [j]
  pivSome : ∀ h p, getPiv st.piv h = some p →
    m ≤ p ∧ p < D.length ∧ (getCol st.red p).head? = some h
  pivComplete : ∀ p, m ≤ p → p < D.length → getCol st.red p ≠ [] →
    ∃ h, (getCol st.red p).head? = some h ∧ getPiv st.piv h = some p
  clearIff : ∀ h, h ∈ st.clear ↔ (getPiv st.piv h).isSome
  clearNodup : st.clear.Nodup

theorem reduce_col_loop_nil {piv : List (Option Nat)} {redm trim : List Col}
    {t : Col} : ∀ fuel, reduce_col_loop piv redm trim fuel ([], t) = ([], t)
  | 0 => rfl
  | fuel + 1 => by rw [reduce_col_loop]; rfl

theorem twist_step_inv {D : List Col} {nNext : Nat} {cleared : List Nat}
    {m : Nat} {st : RState} (inv : TwistInv D nNext cleared (m + 1) st)
    (hm : m < D.length) :
    TwistInv D nNext cleared m (twist_step nNext st m) := by
  have HPIV : ∀ h p, getPiv st.piv h = some p →
      (getCol st.red p).head? = some h ∧ SortedLt (getCol st.red p) ∧
      (∀ x ∈ getCol st.red p, x < nNext) ∧ SortedLt (getCol st.tri p) ∧
      (∀ x ∈ getCol st.tri p, m < x) ∧
      (∀ x ∈ getCol st.tri p, x < D.length) ∧
      colFun (getCol st.red p) = applyD D (getCol st.tri p) := by
    intro h p hp
    obtain ⟨hple, hplt, hphead⟩ := inv.pivSome h p hp
    have hpnotcl : p ∉ cleared := by
      intro hmem
      rw [inv.clearedRed p hmem] at hphead
      simp at hphead
    refine ⟨hphead, inv.redSorted p, inv.redBound p, inv.triSorted p,
      ?_, inv.triBound p, inv.rdv p hpnotcl⟩
    intro x hx
    have := inv.triLb p x hx
    omega
  by_cases hmc : m ∈ cleared
  · -- cleared column: empty, the loop does nothing
    have hredm : getCol st.red m = [] := inv.clearedRed m hmc
    rw [twist_step, hredm, reduce_col_loop_nil]
    simp only [List.head?_nil]
    have hred' : ∀ j, getCol (st.red.set m []) j = getCol st.red j := by
      intro j
      by_cases hj : j = m
      · subst hj
        rcases Nat.lt_or_ge j st.red.length with hl | hl
        · rw [getCol_set_self hl, hredm]
        · rw [List.set_eq_of_length_le hl]
      · rw [getCol_set_ne (fun he => hj he.symm)]
    have htri' : ∀ j, getCol (st.tri.set m (getCol st.tri m)) j =
        getCol st.tri j := by
      intro j
      by_cases hj : j = m
      · subst hj
        rcases Nat.lt_or_ge j st.tri.length with hl | hl
        · rw [getCol_set_self hl]
        · rw [List.set_eq_of_length_le hl]
      · rw [getCol_set_ne (fun he => hj he.symm)]
    refine ⟨by simp [inv.lenRed], by simp [inv.lenTri], inv.lenPiv,
      fun j => by rw [hred']; exact inv.redSorted j,
      fun j => by rw [hred']; exact inv.redBound j,
      fun j => by rw [htri']; exact inv.triSorted j,
      fun j hj => by rw [htri']; exact inv.triSelf j hj,
      fun j => by rw [htri']; exact inv.triLb j,
      fun j => by rw [htri']; exact inv.triBound j,
      fun j hj => by rw [hred', htri']; exact inv.rdv j hj,
      fun j hj => by rw [hred']; exact inv.clearedRed j hj,
      fun j hj => by rw [htri']; exact inv.clearedTri j hj,
      ?_, ?_, inv.clearIff, inv.clearNodup⟩
    · intro h p hp
      obtain ⟨hple, hplt, hphead⟩ := inv.pivSome h p hp
      exact ⟨by omega, hplt, by rw [hred']; exact hphead⟩
    · intro p hple hplt hpne
      rw [hred'] at hpne
      rcases Nat.eq_or_lt_of_le hple with rfl | hgt
      · exact absurd hredm hpne
      · obtain ⟨h, hh, hpv⟩ := inv.pivComplete p hgt hplt hpne
        exact ⟨h, by rw [hred']; exact hh, hpv⟩
  · -- live column: run the loop
    have hloop := reduce_col_loop_spec HPIV (nNext + 1) 0
      (getCol st.red m) (getCol st.tri m) (inv.redSorted m)
      (inv.redBound m) (fun x _ => Nat.zero_le x) (inv.triSorted m)
      (inv.triSelf m hm) (inv.triLb m) (inv.triBound m) (inv.rdv m hmc)
      (by omega)
    obtain ⟨hc's, hc'b, ht's, ht'j, ht'lb, ht'b, h'rv, h'exit⟩ := hloop
    set ct := reduce_col_loop st.piv st.red st.tri (nNext + 1)
      (getCol st.red m, getCol st.tri m) with hct
    have hred' : ∀ j, j ≠ m → getCol (st.red.set m ct.1) j =
        getCol st.red j := fun j hj => getCol_set_ne (fun he => hj he.symm) _
    have hredm' : getCol (st.red.set m ct.1) m = ct.1 :=
      getCol_set_self (by rw [inv.lenRed]; exact hm) _
    have htri' : ∀ j, j ≠ m → getCol (st.tri.set m ct.2) j =
        getCol st.tri j := fun j hj => getCol_set_ne (fun he => hj he.symm) _
    have htrim' : getCol (st.tri.set m ct.2) m = ct.2 :=
      getCol_set_self (by rw [inv.lenTri]; exact hm) _
    rw [twist_step, ← hct]
    rcases hh : ct.1.head? with _ | h
    · have hct1 : ct.1 = [] := List.head?_eq_none_iff.mp hh
      refine ⟨by simp [inv.lenRed], by simp [inv.lenTri], inv.lenPiv,
        ?_, ?_, ?_, ?_, ?_, ?_, ?_, ?_, ?_, ?_, ?_, inv.clearIff,
        inv.clearNodup⟩
      · intro j
        by_cases hj : j = m
        · subst hj; rw [hredm']; exact hc's
        · rw [hred' j hj]; exact inv.redSorted j
      · intro j
        by_cases hj : j = m
        · subst hj; rw [hredm']; exact hc'b
        · rw [hred' j hj]; exact inv.redBound j
      · intro j
        by_cases hj : j = m
        · subst hj; rw [htrim']; exact ht's
        · rw [htri' j hj]; exact inv.triSorted j
      · intro j hjlt
        by_cases hj : j = m
        · subst hj; rw [htrim']; exact ht'j
        · rw [htri' j hj]; exact inv.triSelf j hjlt
      · intro j
        by_cases hj : j = m
        · subst hj; rw [htrim']; exact ht'lb
        · rw [htri' j hj]; exact inv.triLb j
      · intro j
        by_cases hj : j = m
        · subst hj; rw [htrim']; exact ht'b
        · rw [htri' j hj]; exact inv.triBound j
      · intro j hj
        by_cases hjm : j = m
        · subst hjm; rw [hredm', htrim']; exact h'rv
        · rw [hred' j hjm, htri' j hjm]; exact inv.rdv j hj
      · intro j hj
        have hjm : j ≠ m := fun he => hmc (he ▸ hj)
        rw [hred' j hjm]; exact inv.clearedRed j hj
      · intro j hj
        have hjm : j ≠ m := fun he => hmc (he ▸ hj)
        rw [htri' j hjm]; exact inv.clearedTri j hj
      · intro h p hp
        obtain ⟨hple, hplt, hphead⟩ := inv.pivSome h p hp
        refine ⟨by omega, hplt, ?_⟩
        rw [hred' p (by omega)]
        exact hphead
      · intro p hple hplt hpne
        rcases Nat.eq_or_lt_of_le hple with rfl | hgt
        · rw [hredm', hct1] at hpne
          exact absurd rfl hpne
        · rw [hred' p (by omega)] at hpne
          obtain ⟨h, hhead, hpv⟩ := inv.pivComplete p hgt hplt hpne
          refine ⟨h, ?_, hpv⟩
          rw [hred' p (by omega)]
          exact hhead
    · -- the reduced column survives: register it as a pivot
      have hmemh : h ∈ ct.1 := by
        rcases hc : ct.1 with _ | ⟨x, xs⟩
        · rw [hc] at hh; simp at hh
        · rw [hc] at hh
          rw [List.head?_cons] at hh
          obtain rfl : x = h := by injection hh
          exact List.mem_cons_self _ _
      have hhlt : h < nNext := hc'b h hmemh
      have hpivh : getPiv st.piv h = none := h'exit h hh
      have hpiv' : ∀ h', h' ≠ h →
          getPiv (st.piv.set h (some m)) h' = getPiv st.piv h' :=
        fun h' hne => getPiv_set_ne (fun he => hne he.symm) _
      have hpivh' : getPiv (st.piv.set h (some m)) h = some m :=
        getPiv_set_self (by rw [inv.lenPiv]; exact hhlt) _
      have hnotincl : h ∉ st.clear := by
        rw [inv.clearIff h, hpivh]
        simp
      refine ⟨by simp [inv.lenRed], by simp [inv.lenTri],
        by simp [inv.lenPiv], ?_, ?_, ?_, ?_, ?_, ?_, ?_, ?_, ?_, ?_, ?_,
        ?_, ?_⟩
      · intro j
        by_cases hj : j = m
        · subst hj; rw [hredm']; exact hc's
        · rw [hred' j hj]; exact inv.redSorted j
      · intro j
        by_cases hj : j = m
        · subst hj; rw [hredm']; exact hc'b
        · rw [hred' j hj]; exact inv.redBound j
      · intro j
        by_cases hj : j = m
        · subst hj; rw [htrim']; exact ht's
        · rw [htri' j hj]; exact inv.triSorted j
      · intro j hjlt
        by_cases hj : j = m
        · subst hj; rw [htrim']; exact ht'j
        · rw [htri' j hj]; exact inv.triSelf j hjlt
      · intro j
        by_cases hj : j = m
        · subst hj; rw [htrim']; exact ht'lb
        · rw [htri' j hj]; exact inv.triLb j
      · intro j
        by_cases hj : j = m
        · subst hj; rw [htrim']; exact ht'b
        · rw [htri' j hj]; exact inv.triBound j
      · intro j hj
        by_cases hjm : j = m
        · subst hjm; rw [hredm', htrim']; exact h'rv
        · rw [hred' j hjm, htri' j hjm]; exact inv.rdv j hj
      · intro j hj
        have hjm : j ≠ m := fun he => hmc (he ▸ hj)
        rw [hred' j hjm]; exact inv.clearedRed j hj
      · intro j hj
        have hjm : j ≠ m := fun he => hmc (he ▸ hj)
        rw [htri' j hjm]; exact inv.clearedTri j hj
      · intro h' p hp
        by_cases hne : h' = h
        · subst hne
          rw [hpivh'] at hp
          obtain rfl : m = p := by injection hp
          exact ⟨le_refl _, hm, by rw [hredm']; exact hh⟩
        · rw [hpiv' h' hne] at hp
          obtain ⟨hple, hplt, hphead⟩ := inv.pivSome h' p hp
          refine ⟨by omega, hplt, ?_⟩
          rw [hred' p (by omega)]
          exact hphead
      · intro p hple hplt hpne
        rcases Nat.eq_or_lt_of_le hple with rfl | hgt
        · refine ⟨h, by rw [hredm']; exact hh, hpivh'⟩
        · rw [hred' p (by omega)] at hpne
          obtain ⟨h', hhead, hpv⟩ := inv.pivComplete p hgt hplt hpne
          have hne : h' ≠ h := by
            intro he
            rw [he, hpivh] at hpv
            exact Option.noConfusion hpv
          refine ⟨h', ?_, ?_⟩
          · rw [hred' p (by omega)]
            exact hhead
          · rw [hpiv' h' hne]
            exact hpv
      · intro h'
        rw [List.mem_append, List.mem_singleton]
        by_cases hne : h' = h
        · subst hne
          rw [hpivh']
          simp
        · rw [hpiv' h' hne, inv.clearIff h']
          simp [hne]
      · rw [List.nodup_append]
        refine ⟨inv.clearNodup, List.nodup_singleton _, ?_⟩
        intro a ha hamem
        rw [List.mem_singleton] at hamem
        subst hamem
        exact hnotincl ha

theorem twist_fold_inv {D : List Col} {nNext : Nat} {cleared : List Nat} :
    ∀ (m : Nat) (st : RState), m ≤ D.length →
      TwistInv D nNext cleared m st →
      TwistInv D nNext cleared 0
        (((List.range m).reverse).foldl (twist_step nNext) st)
  | 0, st, _, inv => by simpa using inv
  | m + 1, st, hm, inv => by
    rw [List.range_succ, List.reverse_append, List.reverse_singleton,
      List.singleton_append, List.foldl_cons]
    exact twist_fold_inv m _ (by omega) (twist_step_inv inv (by omega))

theorem length_applyClearing {cols : List Col} {clear : List Nat} :
    (applyClearing cols clear).length = cols.length := by
  induction clear generalizing cols with
  | nil => rfl
  | cons r rest ih =>
    show (applyClearing (cols.set r []) rest).length = cols.length
    rw [ih]
    simp

theorem getCol_set_nil_self {cols : List Col} {r : Nat} :
    getCol (cols.set r []) r = [] := by
  rcases Nat.lt_or_ge r cols.length with hl | hl
  · rw [getCol_set_self hl]
  · rw [List.set_eq_of_length_le hl]
    exact getCol_oob hl

theorem getCol_applyClearing_not_mem {cols : List Col} {clear : List Nat} :
    ∀ {r : Nat}, r ∉ clear →
      getCol (applyClearing cols clear) r = getCol cols r := by
  induction clear generalizing cols with
  | nil => intro r _; rfl
  | cons c rest ih =>
    intro r hr
    have hrc : r ≠ c := fun he => hr (he ▸ List.mem_cons_self _ _)
    have hrrest : r ∉ rest := fun hm => hr (List.mem_cons_of_mem _ hm)
    show getCol (applyClearing (cols.set c []) rest) r = getCol cols r
    rw [ih hrrest, getCol_set_ne (fun he => hrc he.symm)]

theorem getCol_applyClearing_mem {cols : List Col} {clear : List Nat} :
    ∀ {r : Nat}, r ∈ clear → getCol (applyClearing cols clear) r = [] := by
  induction clear generalizing cols with
  | nil => intro r hr; exact absurd hr (List.not_mem_nil _)
  | cons c rest ih =>
    intro r hr
    show getCol (applyClearing (cols.set c []) rest) r = []
    rcases List.mem_cons.mp hr with rfl | hr
    · by_cases hmem : r ∈ rest
      · exact ih hmem
      · rw [getCol_applyClearing_not_mem hmem]
        exact getCol_set_nil_self
    · exact ih hr

/-- `triangular[i] = [i]` as built by `_inner_reduce_single_dim`. -/
def initTri (n : Nat) : List Col := (List.range n).map (fun i => [i])

theorem getCol_initTri_lt {n i : Nat} (h : i < n) :
    getCol (initTri n) i = [i] := by
  rw [getCol, initTri, List.getD_eq_getElem _ _ (by simpa using h)]
  simp

theorem getCol_initTri_ge {n i : Nat} (h : n ≤ i) :
    getCol (initTri n) i = [] := by
  apply getCol_oob
  simpa [initTri] using h

theorem twist_init_inv {D : List Col} {nNext : Nat} {cleared : List Nat}
    (hDsorted : ∀ j, SortedLt (getCol D j))
    (hDbound : ∀ j, ∀ x ∈ getCol D j, x < nNext)
    (hclb : ∀ r ∈ cleared, r < D.length) :
    TwistInv D nNext cleared D.length
      ⟨applyClearing D cleared, initTri D.length,
        List.replicate nNext none, []⟩ := by
  constructor
  · exact length_applyClearing
  · simp [initTri]
  · simp
  · intro j
    by_cases hj : j ∈ cleared
    · rw [getCol_applyClearing_mem hj]
      simp [List.Sorted]
    · rw [getCol_applyClearing_not_mem hj]
      exact hDsorted j
  · intro j x hx
    by_cases hj : j ∈ cleared
    · rw [getCol_applyClearing_mem hj] at hx
      exact absurd hx (List.not_mem_nil _)
    · rw [getCol_applyClearing_not_mem hj] at hx
      exact hDbound j x hx
  · intro j
    rcases Nat.lt_or_ge j D.length with hl | hl
    · rw [getCol_initTri_lt hl]
      simp [List.Sorted]
    · rw [getCol_initTri_ge hl]
      simp [List.Sorted]
  · intro j hj
    rw [getCol_initTri_lt hj]
    exact List.mem_singleton_self _
  · intro j x hx
    rcases Nat.lt_or_ge j D.length with hl | hl
    · rw [getCol_initTri_lt hl, List.mem_singleton] at hx
      omega
    · rw [getCol_initTri_ge hl] at hx
      exact absurd hx (List.not_mem_nil _)
  · intro j x hx
    rcases Nat.lt_or_ge j D.length with hl | hl
    · rw [getCol_initTri_lt hl, List.mem_singleton] at hx
      omega
    · rw [getCol_initTri_ge hl] at hx
      exact absurd hx (List.not_mem_nil _)
  · intro j hj
    rw [getCol_applyClearing_not_mem hj]
    rcases Nat.lt_or_ge j D.length with hl | hl
    · rw [getCol_initTri_lt hl, applyD_single hl]
    · rw [getCol_initTri_ge hl, getCol_oob hl]
      simp
  · intro j hj
    exact getCol_applyClearing_mem hj
  · intro j hj
    exact getCol_initTri_lt (hclb j hj)
  · intro h p hp
    rw [getPiv_replicate] at hp
    exact Option.noConfusion hp
  · intro p hple hplt _
    omega
  · intro h
    simp
  · exact List.nodup_nil

/-- The full specification of `_twist_reduction` as run by
`_inner_reduce_single_dim` on the cleared coboundary matrix. -/
theorem twist_reduction_spec {D : List Col} {nNext : Nat}
    {cleared : List Nat} (hDsorted : ∀ j, SortedLt (getCol D j))
    (hDbound : ∀ j, ∀ x ∈ getCol D j, x < nNext)
    (hclb : ∀ r ∈ cleared, r < D.length) :
    TwistInv D nNext cleared 0
      (twist_reduction nNext (applyClearing D cleared) (initTri D.length)
        (List.replicate nNext none)) := by
  rw [twist_reduction]
  have hlen : (applyClearing D cleared).length = D.length :=
    length_applyClearing
  rw [hlen]
  exact twist_fold_inv D.length _ (le_refl _)
    (twist_init_inv hDsorted hDbound hclb)

/-! ### The composite of two coboundary operators vanishes over GF(2) -/

/-- Given a (d-1)-simplex `s` and a (d+1)-simplex `u`, the d-simplices
strictly between them number exactly 0 or 2, so the GF(2) sum of the
double-incidence indicators vanishes.  `T0, T1, T2` are the three
consecutive simplex tables and `D1, D2` the coboundary matrices built on
them. -/
theorem D_comp_zero {T0 T1 T2 : List Simplex} {n0 n1 : Nat}
    {D1 D2 : List Col}
    (hT0s : ∀ s ∈ T0, SortedLt s) (hT1s : ∀ t ∈ T1, SortedLt t)
    (hT2s : ∀ u ∈ T2, SortedLt u)
    (hT0nd : T0.Nodup) (hT1nd : T1.Nodup)
    (hlen0 : T0.length ≤ n0) (hlen1 : T1.length ≤ n1)
    (h1 : cobColumns (spx2idxFun T0) n0 T1 = some D1)
    (h2 : cobColumns (spx2idxFun T1) n1 T2 = some D2) :
    ∀ i r, (∑ m ∈ Finset.range D2.length,
      colFun (getCol D1 i) m * colFun (getCol D2 m) r) = 0 := by
  intro i r
  obtain ⟨hL1, _, _, _, hChar1⟩ :=
    cobColumns_spec hT0nd (fun t ht => (hT1s t ht).nodup) hlen0 h1
  obtain ⟨hL2, hPres2, _, _, hChar2⟩ :=
    cobColumns_spec hT1nd (fun u hu => (hT2s u hu).nodup) hlen1 h2
  set s := T0.getD i [] with hs
  set u := T2.getD r [] with hu
  have hterm : ∀ m ∈ Finset.range D2.length,
      colFun (getCol D1 i) m * colFun (getCol D2 m) r =
      if (i < T0.length ∧ r < T2.length ∧ m < T1.length ∧
          s ∈ drop_elements (T1.getD m []) ∧
          T1.getD m [] ∈ drop_elements u) then (1 : ZMod 2) else 0 := by
    intro m _
    simp only [colFun]
    by_cases h1m : m ∈ getCol D1 i <;> by_cases h2m : r ∈ getCol D2 m
    · rw [if_pos h1m, if_pos h2m, one_mul]
      obtain ⟨hi0, hm1, hface1⟩ := (hChar1 i m).mp h1m
      obtain ⟨_, hr2, hface2⟩ := (hChar2 m r).mp h2m
      rw [if_pos ⟨hi0, hr2, hm1, hface1, hface2⟩]
    · rw [if_pos h1m, if_neg h2m, mul_zero, if_neg]
      rintro ⟨_, hr2, hm1, _, hface2⟩
      exact h2m ((hChar2 m r).mpr ⟨hm1, hr2, hface2⟩)
    · rw [if_neg h1m, if_pos h2m, zero_mul, if_neg]
      rintro ⟨hi0, _, hm1, hface1, _⟩
      exact h1m ((hChar1 i m).mpr ⟨hi0, hm1, hface1⟩)
    · rw [if_neg h1m, zero_mul, if_neg]
      rintro ⟨hi0, _, hm1, hface1, _⟩
      exact h1m ((hChar1 i m).mpr ⟨hi0, hm1, hface1⟩)
  rw [Finset.sum_congr rfl hterm, Finset.sum_boole]
  by_cases hir : i < T0.length ∧ r < T2.length
  · obtain ⟨hi0, hr2⟩ := hir
    have hss : SortedLt s := hT0s s (by
      rw [hs, List.getD_eq_getElem _ _ hi0]
      exact List.getElem_mem hi0)
    have hus : SortedLt u := hT2s u (by
      rw [hu, List.getD_eq_getElem _ _ hr2]
      exact List.getElem_mem hr2)
    by_cases hbetween : s.toFinset ⊆ u.toFinset ∧ s.length + 2 = u.length
    · -- exactly two intermediate simplices
      obtain ⟨hsub, hlen⟩ := hbetween
      have hcard : (u.toFinset \ s.toFinset).card = 2 := by
        rw [Finset.card_sdiff hsub, List.toFinset_card_of_nodup hus.nodup,
          List.toFinset_card_of_nodup hss.nodup]
        omega
      obtain ⟨v, w, hvw, hdiff⟩ := Finset.card_eq_two.mp hcard
      have hv : v ∈ u.toFinset ∧ v ∉ s.toFinset := by
        have : v ∈ u.toFinset \ s.toFinset := by
          rw [hdiff]; exact Finset.mem_insert_self _ _
        exact Finset.mem_sdiff.mp this
      have hw : w ∈ u.toFinset ∧ w ∉ s.toFinset := by
        have : w ∈ u.toFinset \ s.toFinset := by
          rw [hdiff]
          exact Finset.mem_insert_of_mem (Finset.mem_singleton_self _)
        exact Finset.mem_sdiff.mp this
      -- the two intermediate simplices
      have key : ∀ x, x ∈ u.toFinset → x ∉ s.toFinset →
          ∃ mx, mx < T1.length ∧
            T1.getD mx [] = Finset.sort (· ≤ ·) (insert x s.toFinset) ∧
            s ∈ drop_elements (T1.getD mx []) ∧
            T1.getD mx [] ∈ drop_elements u := by
        intro x hxu hxs
        set tx := Finset.sort (· ≤ ·) (insert x s.toFinset) with htx
        have htxs : SortedLt tx := Finset.sort_sorted_lt _
        have htxf : tx.toFinset = insert x s.toFinset :=
          Finset.sort_toFinset _ _
        have htxlen : tx.length = s.length + 1 := by
          have := Finset.length_sort (α := Nat) (· ≤ ·)
            (s := insert x s.toFinset)
          rw [htx, this, Finset.card_insert_of_not_mem hxs,
            List.toFinset_card_of_nodup hss.nodup]
        have htxu : tx ∈ drop_elements u := by
          rw [mem_drop_elements_iff_finset hus htxs]
          constructor
          · rw [htxf]
            intro a ha
            rcases Finset.mem_insert.mp ha with rfl | ha
            · exact hxu
            · exact hsub ha
          · omega
        have htxT1 : tx ∈ T1 := hPres2 u (by
            rw [hu, List.getD_eq_getElem _ _ hr2]
            exact List.getElem_mem hr2) tx htxu
        obtain ⟨mx, hmx, hmxval⟩ := List.getElem_of_mem htxT1
        refine ⟨mx, hmx, ?_, ?_, ?_⟩
        · rw [List.getD_eq_getElem _ _ hmx, hmxval]
        · rw [List.getD_eq_getElem _ _ hmx, hmxval,
            mem_drop_elements_iff_finset htxs hss, htxf]
          exact ⟨Finset.subset_insert _ _, by omega⟩
        · rw [List.getD_eq_getElem _ _ hmx, hmxval]
          exact htxu
      obtain ⟨mv, hmv, hmvval, hmv1, hmv2⟩ := key v hv.1 hv.2
      obtain ⟨mw, hmw, hmwval, hmw1, hmw2⟩ := key w hw.1 hw.2
      have hmvw : mv ≠ mw := by
        intro he
        rw [he, hmwval] at hmvval
        have : insert v s.toFinset = insert w s.toFinset := by
          have h1f := congrArg List.toFinset hmvval
          rw [Finset.sort_toFinset, Finset.sort_toFinset] at h1f
          exact h1f.symm
        have hvin : v ∈ insert w s.toFinset := by
          rw [← this]
          exact Finset.mem_insert_self _ _
        rcases Finset.mem_insert.mp hvin with he' | he'
        · exact hvw he'
        · exact hv.2 he'
      -- the filter is exactly {mv, mw}
      have hfilter : Finset.filter (fun m => i < T0.length ∧
          r < T2.length ∧ m < T1.length ∧
          s ∈ drop_elements (T1.getD m []) ∧
          T1.getD m [] ∈ drop_elements u) (Finset.range D2.length) =
          {mv, mw} := by
        ext m
        rw [Finset.mem_filter, Finset.mem_range, Finset.mem_insert,
          Finset.mem_singleton]
        constructor
        · rintro ⟨_, _, _, hm1, hface1, hface2⟩
          set t := T1.getD m [] with ht
          have hts : SortedLt t := hT1s t (by
            rw [ht, List.getD_eq_getElem _ _ hm1]
            exact List.getElem_mem hm1)
          obtain ⟨hsubst, hlent⟩ :=
            (mem_drop_elements_iff_finset hts hss).mp hface1
          obtain ⟨hsubtu, hlentu⟩ :=
            (mem_drop_elements_iff_finset hus hts).mp hface2
          have hcardt : (t.toFinset \ s.toFinset).card = 1 := by
            rw [Finset.card_sdiff hsubst,
              List.toFinset_card_of_nodup hts.nodup,
              List.toFinset_card_of_nodup hss.nodup]
            omega
          obtain ⟨x, hx⟩ := Finset.card_eq_one.mp hcardt
          have hxt : x ∈ t.toFinset ∧ x ∉ s.toFinset := by
            have : x ∈ t.toFinset \ s.toFinset := by
              rw [hx]; exact Finset.mem_singleton_self _
            exact Finset.mem_sdiff.mp this
          have htf : t.toFinset = insert x s.toFinset := by
            ext a
            rw [Finset.mem_insert]
            constructor
            · intro ha
              by_cases has : a ∈ s.toFinset
              · exact Or.inr has
              · have : a ∈ t.toFinset \ s.toFinset :=
                  Finset.mem_sdiff.mpr ⟨ha, has⟩
                rw [hx, Finset.mem_singleton] at this
                exact Or.inl this
            · rintro (rfl | ha)
              · exact hxt.1
              · exact hsubst ha
          have hxdiff : x ∈ u.toFinset \ s.toFinset :=
            Finset.mem_sdiff.mpr ⟨hsubtu (htf ▸ Finset.mem_insert_self _ _),
              hxt.2⟩
          rw [hdiff] at hxdiff
          rcases Finset.mem_insert.mp hxdiff with rfl | hxw
          · -- t = tv, hence m = mv
            left
            have : t = T1.getD mv [] := by
              rw [hmvval]
              apply sortedLt_eq_of_toFinset_eq hts
                (Finset.sort_sorted_lt _)
              rw [Finset.sort_toFinset, htf]
            have hmeq : T1.getD m [] = T1.getD mv [] := by
              rw [← ht, this]
            rw [List.getD_eq_getElem _ _ hm1,
              List.getD_eq_getElem _ _ hmv] at hmeq
            exact (List.Nodup.getElem_inj_iff hT1nd).mp hmeq
          · rw [Finset.mem_singleton] at hxw
            subst hxw
            right
            have : t = T1.getD mw [] := by
              rw [hmwval]
              apply sortedLt_eq_of_toFinset_eq hts
                (Finset.sort_sorted_lt _)
              rw [Finset.sort_toFinset, htf]
            have hmeq : T1.getD m [] = T1.getD mw [] := by
              rw [← ht, this]
            rw [List.getD_eq_getElem _ _ hm1,
              List.getD_eq_getElem _ _ hmw] at hmeq
            exact (List.Nodup.getElem_inj_iff hT1nd).mp hmeq
        · rintro (rfl | rfl)
          · exact ⟨by omega, hi0, hr2, hmv, hmv1, hmv2⟩
          · exact ⟨by omega, hi0, hr2, hmw, hmw1, hmw2⟩
      rw [hfilter]
      rw [Finset.card_insert_of_not_mem (by
        rw [Finset.mem_singleton]; exact hmvw), Finset.card_singleton]
      decide
    · -- no intermediate simplex at all
      have hfilter : Finset.filter (fun m => i < T0.length ∧
          r < T2.length ∧ m < T1.length ∧
          s ∈ drop_elements (T1.getD m []) ∧
          T1.getD m [] ∈ drop_elements u) (Finset.range D2.length) =
          ∅ := by
        ext m
        rw [Finset.mem_filter]
        simp only [Finset.not_mem_empty, iff_false]
        rintro ⟨_, ⟨_, _, hm1, hface1, hface2⟩⟩
        set t := T1.getD m [] with ht
        have hts : SortedLt t := hT1s t (by
          rw [ht, List.getD_eq_getElem _ _ hm1]
          exact List.getElem_mem hm1)
        obtain ⟨hsubst, hlent⟩ :=
          (mem_drop_elements_iff_finset hts hss).mp hface1
        obtain ⟨hsubtu, hlentu⟩ :=
          (mem_drop_elements_iff_finset hus hts).mp hface2
        exact hbetween ⟨hsubst.trans hsubtu, by omega⟩
      rw [hfilter, Finset.card_empty]
      decide
  · have hfilter : Finset.filter (fun m => i < T0.length ∧
        r < T2.length ∧ m < T1.length ∧
        s ∈ drop_elements (T1.getD m []) ∧
        T1.getD m [] ∈ drop_elements u) (Finset.range D2.length) = ∅ := by
      ext m
      rw [Finset.mem_filter]
      simp only [Finset.not_mem_empty, iff_false]
      rintro ⟨_, ⟨hi0, hr2, _⟩⟩
      exact hir ⟨hi0, hr2⟩
    rw [hfilter, Finset.card_empty]
    decide

/-- A GF(2) vector in the image of `D1` is sent to zero by `D2` whenever
the composite of the two coboundary blocks vanishes. -/
theorem applyD_comp_zero {D1 D2 : List Col} {c w : Col}
    (hcw : colFun c = applyD D1 w)
    (hzero : ∀ i r, (∑ m ∈ Finset.range D2.length,
      colFun (getCol D1 i) m * colFun (getCol D2 m) r) = 0) :
    applyD D2 c = 0 := by
  funext r
  show (∑ m ∈ Finset.range D2.length,
    colFun c m * colFun (getCol D2 m) r) = 0
  have hstep : ∀ m ∈ Finset.range D2.length,
      colFun c m * colFun (getCol D2 m) r =
      ∑ i ∈ Finset.range D1.length,
        colFun w i * (colFun (getCol D1 i) m * colFun (getCol D2 m) r) := by
    intro m _
    rw [hcw]
    show (∑ i ∈ Finset.range D1.length,
        colFun w i * colFun (getCol D1 i) m) * colFun (getCol D2 m) r = _
    rw [Finset.sum_mul]
    refine Finset.sum_congr rfl fun i _ => ?_
    ring
  rw [Finset.sum_congr rfl hstep, Finset.sum_comm]
  refine Finset.sum_eq_zero fun i _ => ?_
  rw [← Finset.mul_sum, hzero i r, mul_zero]

/-! ### The clearing fix -/

theorem length_fix_triangular {tri redPrev : List Col} {clear : List Nat}
    {pivPrev : List (Option Nat)} :
    (fix_triangular_after_clearing tri redPrev clear pivPrev).length =
      tri.length := by
  induction clear generalizing tri with
  | nil => rfl
  | cons c rest ih =>
    show (fix_triangular_after_clearing (tri.set c _) redPrev rest
      pivPrev).length = tri.length
    rw [ih]
    simp

theorem getCol_fix_not_mem {tri redPrev : List Col} {clear : List Nat}
    {pivPrev : List (Option Nat)} :
    ∀ {r : Nat}, r ∉ clear →
      getCol (fix_triangular_after_clearing tri redPrev clear pivPrev) r =
        getCol tri r := by
  induction clear generalizing tri with
  | nil => intro r _; rfl
  | cons c rest ih =>
    intro r hr
    have hrc : r ≠ c := fun he => hr (he ▸ List.mem_cons_self _ _)
    have hrrest : r ∉ rest := fun hm => hr (List.mem_cons_of_mem _ hm)
    show getCol (fix_triangular_after_clearing (tri.set c _) redPrev rest
      pivPrev) r = getCol tri r
    rw [ih hrrest, getCol_set_ne (fun he => hrc he.symm)]

theorem getCol_fix_mem {tri redPrev : List Col} {clear : List Nat}
    {pivPrev : List (Option Nat)} :
    ∀ {r : Nat}, r ∈ clear → r < tri.length →
      getCol (fix_triangular_after_clearing tri redPrev clear pivPrev) r =
        getCol redPrev ((getPiv pivPrev r).getD 0) := by
  induction clear generalizing tri with
  | nil => intro r hr _; exact absurd hr (List.not_mem_nil _)
  | cons c rest ih =>
    intro r hr hlen
    show getCol (fix_triangular_after_clearing (tri.set c _) redPrev rest
      pivPrev) r = _
    rcases List.mem_cons.mp hr with rfl | hr
    · by_cases hmem : r ∈ rest
      · exact ih hmem (by simpa using hlen)
      · rw [getCol_fix_not_mem hmem, getCol_set_self hlen]
    · exact ih hr (by simpa using hlen)

theorem sortedLt_head_le {l : List Nat} {h : Nat} (hs : SortedLt l)
    (hh : l.head? = some h) : ∀ x ∈ l, h ≤ x := by
  cases l with
  | nil => simp at hh
  | cons a tl =>
    rw [List.head?_cons] at hh
    obtain rfl : a = h := by injection hh
    intro x hx
    rcases List.mem_cons.mp hx with rfl | hx
    · exact le_refl _
    · exact le_of_lt ((List.sorted_cons.mp hs).1 x hx)

theorem head_mem {l : List Nat} {h : Nat} (hh : l.head? = some h) : h ∈ l := by
  cases l with
  | nil => simp at hh
  | cons a tl =>
    rw [List.head?_cons] at hh
    obtain rfl : a = h := by injection hh
    exact List.mem_cons_self _ _

/-! ### Per-dimension conclusions of `get_reduced_triangular` -/

instance : Inhabited DimOut := ⟨⟨fun _ => none, [], [], []⟩⟩

/-- Facts holding for each dimension of the output of
`get_reduced_triangular` (`R` sorted; `V` upper triangular w.r.t. the
antitransposed order, with unit diagonal; pivots of nonempty reduced
columns pairwise distinct). -/
structure DimOK (idxsD : List Nat) (tupsD : List Simplex) (o : DimOut) :
    Prop where
  lenRed : o.red.length = idxsD.length
  lenTri : o.tri.length = idxsD.length
  redSorted : ∀ i, SortedLt (getCol o.red i)
  triSorted : ∀ i, SortedLt (getCol o.tri i)
  triSelf : ∀ i, i < idxsD.length → i ∈ getCol o.tri i
  triLb : ∀ i, ∀ x ∈ getCol o.tri i, i ≤ x
  triBound : ∀ i, ∀ x ∈ getCol o.tri i, x < idxsD.length
  pivUnique : ∀ i1 i2 h, i1 ≠ i2 → (getCol o.red i1).head? = some h →
    (getCol o.red i2).head? ≠ some h
  oidxs : o.idxs = idxsD

/-- The facts relating one dimension of the output to the next one:
the coboundary matrix exists and is characterized by the face relation,
`R = D·V` holds, and the pivot rows of this dimension are empty columns
one dimension up (they were cleared). -/
structure DimNext (idxsD : List Nat) (tupsD : List Simplex)
    (idxsN : List Nat) (tupsN : List Simplex) (o : DimOut)
    (redNext : List Col) where
  D : List Col
  hD : cobColumns (spx2idxFun tupsD) idxsD.length tupsN = some D
  lenD : D.length = idxsD.length
  charD : ∀ i m, m ∈ getCol D i ↔ (i < tupsD.length ∧ m < tupsN.length ∧
    tupsD.getD i [] ∈ drop_elements (tupsN.getD m []))
  redBound : ∀ i, ∀ x ∈ getCol o.red i, x < idxsN.length
  rdv : ∀ i, colFun (getCol o.red i) = applyD D (getCol o.tri i)
  clearedNext : ∀ i h, (getCol o.red i).head? = some h →
    getCol redNext h = []

/-- The joint conclusions of `get_reduced_triangular` over the list of
dimensions. -/
def OutsOK : List (Option DimTable) → List DimOut → Prop
  | [], outs => outs = []
  | tab :: rest, outs =>
    match outs with
    | [] => False
    | o :: outs' =>
      (∃ idxsD tupsD, tab = some (idxsD, tupsD) ∧ DimOK idxsD tupsD o ∧
        (match rest, outs' with
         | [], _ => ∀ i, getCol o.red i = []
         | next? :: _, outs' => ∃ idxsN tupsN,
             next? = some (idxsN, tupsN) ∧
             Nonempty (DimNext idxsD tupsD idxsN tupsN o
               ((outs'.getD 0 default).red)))) ∧
      OutsOK rest outs'

/-- Well-formedness of the by-dimension tables: canonical simplices,
no duplicates, aligned index arrays. -/
def TabWF (tabs : List (Option DimTable)) : Prop :=
  ∀ tab ∈ tabs, ∀ idxsD tupsD, tab = some (idxsD, tupsD) →
    (∀ t ∈ tupsD, SortedLt t) ∧ tupsD.Nodup ∧ idxsD.length = tupsD.length

/-- The invariant carried from one dimension's reduction to the next by
`get_reduced_triangular`: every recorded index to clear is a pivot row of
the previous dimension, whose owning column is sorted, bounded by the
current dimension's size, and lies in the image of the previous
coboundary. -/
structure CarryInv (carry : Carry) (nCur : Nat) (Dprev : List Col) :
    Prop where
  clb : ∀ r ∈ carry.clear, r < nCur
  cfix : ∀ r ∈ carry.clear, ∃ p, getPiv carry.pivPrev r = some p ∧
    (getCol carry.redPrev p).head? = some r ∧
    SortedLt (getCol carry.redPrev p) ∧
    (∀ x ∈ getCol carry.redPrev p, x < nCur) ∧
    ∃ w, colFun (getCol carry.redPrev p) = applyD Dprev w

theorem grt_loop_spec :
    ∀ (rest : List (Option DimTable)) (idxsC : List Nat)
      (tupsC : List Simplex) (carry : Carry) (prevTups : List Simplex)
      (nPrev : Nat) (Dprev : List Col) (outs : List DimOut),
      TabWF (some (idxsC, tupsC) :: rest) →
      CarryInv carry idxsC.length Dprev →
      (cobColumns (spx2idxFun prevTups) nPrev tupsC = some Dprev ∨
        carry.clear = []) →
      (∀ t ∈ prevTups, SortedLt t) → prevTups.Nodup →
      prevTups.length ≤ nPrev →
      grt_loop (some (idxsC, tupsC) :: rest) carry = some outs →
      OutsOK (some (idxsC, tupsC) :: rest) outs ∧
      (∀ r ∈ carry.clear, getCol ((outs.getD 0 default).red) r = [])
  | [], idxsC, tupsC, carry, prevTups, nPrev, Dprev, outs, htw, hcinv,
      hDprev, hpwf, hpnd, hplen, h => by
    simp only [grt_loop, inner_reduce_single_dim, Option.bind_eq_bind,
      Option.some_bind, Option.pure_def] at h
    injection h with h'
    subst h'
    obtain ⟨htupsS, htupsND, hlenCT⟩ :=
      htw _ (List.mem_cons_self _ _) idxsC tupsC rfl
    set n := idxsC.length with hn
    have htri0 : List.map (fun i => [i]) (List.range n) = initTri n := rfl
    set tri' := fix_triangular_after_clearing
      (List.map (fun i => [i]) (List.range n))
      carry.redPrev carry.clear carry.pivPrev with htri'
    have hlentri' : tri'.length = n := by
      rw [htri', length_fix_triangular]
      simp
    have htri'mem : ∀ r ∈ carry.clear, ∃ p,
        getPiv carry.pivPrev r = some p ∧
        getCol tri' r = getCol carry.redPrev p ∧
        (getCol carry.redPrev p).head? = some r ∧
        SortedLt (getCol carry.redPrev p) ∧
        (∀ x ∈ getCol carry.redPrev p, x < n) := by
      intro r hr
      obtain ⟨p, hpv, hhead, hsort, hbound, _⟩ := hcinv.cfix r hr
      refine ⟨p, hpv, ?_, hhead, hsort, hbound⟩
      rw [htri', getCol_fix_mem hr (by
        rw [htri0]
        simpa [initTri] using hcinv.clb r hr), hpv]
      rfl
    have htri'not : ∀ r, r ∉ carry.clear →
        getCol tri' r = getCol (initTri n) r := by
      intro r hr
      rw [htri', getCol_fix_not_mem hr, htri0]
    refine ⟨⟨⟨idxsC, tupsC, rfl, ?_, ?_⟩, rfl⟩, ?_⟩
    · -- DimOK
      refine ⟨by simp, hlentri', fun i => by simp [List.Sorted],
        ?_, ?_, ?_, ?_, ?_, rfl⟩
      · intro i
        by_cases hic : i ∈ carry.clear
        · obtain ⟨p, _, heq, _, hsort, _⟩ := htri'mem i hic
          rw [heq]; exact hsort
        · rw [htri'not i hic]
          rcases Nat.lt_or_ge i n with hl | hl
          · rw [getCol_initTri_lt hl]; simp [List.Sorted]
          · rw [getCol_initTri_ge hl]; simp [List.Sorted]
      · intro i hi
        by_cases hic : i ∈ carry.clear
        · obtain ⟨p, _, heq, hhead, _, _⟩ := htri'mem i hic
          rw [heq]; exact head_mem hhead
        · rw [htri'not i hic, getCol_initTri_lt hi]
          exact List.mem_singleton_self _
      · intro i x hx
        by_cases hic : i ∈ carry.clear
        · obtain ⟨p, _, heq, hhead, hsort, _⟩ := htri'mem i hic
          rw [heq] at hx
          exact sortedLt_head_le hsort hhead x hx
        · rw [htri'not i hic] at hx
          rcases Nat.lt_or_ge i n with hl | hl
          · rw [getCol_initTri_lt hl, List.mem_singleton] at hx
            omega
          · rw [getCol_initTri_ge hl] at hx
            exact absurd hx (List.not_mem_nil _)
      · intro i x hx
        by_cases hic : i ∈ carry.clear
        · obtain ⟨p, _, heq, _, _, hbound⟩ := htri'mem i hic
          rw [heq] at hx
          exact hbound x hx
        · rw [htri'not i hic] at hx
          rcases Nat.lt_or_ge i n with hl | hl
          · rw [getCol_initTri_lt hl, List.mem_singleton] at hx
            omega
          · rw [getCol_initTri_ge hl] at hx
            exact absurd hx (List.not_mem_nil _)
      · intro i1 i2 hh hne h1
        rw [show getCol (List.replicate n ([] : Col)) i1 = [] from
          getCol_replicate] at h1
        simp at h1
    · -- top dimension: all reduced columns empty
      intro i
      exact getCol_replicate
    · -- carried clear indices are empty columns here as well
      intro r _
      exact getCol_replicate
  | next? :: rest', idxsC, tupsC, carry, prevTups, nPrev, Dprev, outs, htw,
      hcinv, hDprev, hpwf, hpnd, hplen, h => by
    obtain ⟨htupsS, htupsND, hlenCT⟩ :=
      htw _ (List.mem_cons_self _ _) idxsC tupsC rfl
    rcases next? with _ | nt
    · simp only [grt_loop, inner_reduce_single_dim, Option.bind_eq_bind,
        Option.none_bind, Option.some_bind, Option.pure_def] at h
      exact absurd h (fun x => Option.noConfusion x)
    · rcases nt with ⟨idxsN, tupsN⟩
      obtain ⟨htupsNS, htupsNND, hlenNT⟩ :=
        htw _ (List.mem_cons_of_mem _ (List.mem_cons_self _ _)) idxsN
          tupsN rfl
      simp only [grt_loop, inner_reduce_single_dim, Option.bind_eq_bind,
        Option.some_bind, Option.pure_def] at h
      rcases hcob : cobColumns (spx2idxFun tupsC) idxsC.length tupsN
        with _ | D
      · rw [hcob] at h
        simp only [Option.none_bind] at h
        exact absurd h (fun x => Option.noConfusion x)
      rw [hcob] at h
      simp only [Option.some_bind] at h
      set T := twist_reduction idxsN.length (applyClearing D carry.clear)
        (List.map (fun i => [i]) (List.range idxsC.length))
        (List.replicate idxsN.length none) with hT
      rcases hrec : grt_loop (some (idxsN, tupsN) :: rest')
          ⟨T.clear, T.red, T.piv⟩ with _ | outs'
      · rw [hrec] at h
        simp only [Option.none_bind] at h
        exact absurd h (fun x => Option.noConfusion x)
      rw [hrec] at h
      simp only [Option.some_bind] at h
      injection h with h'
      subst h'
      -- characterize the coboundary matrix
      obtain ⟨hLD, hPres, hDs, hDb, hDchar⟩ := cobColumns_spec htupsND
        (fun u hu => (htupsNS u hu).nodup) (le_of_eq hlenCT.symm) hcob
      have hDb' : ∀ j, ∀ x ∈ getCol D j, x < idxsN.length := by
        intro j x hx
        have := hDb j x hx
        omega
      -- the twist reduction invariant at the end of this dimension
      have htw0 : TwistInv D idxsN.length carry.clear 0 T := by
        have hclb' : ∀ r ∈ carry.clear, r < D.length := by
          intro r hr
          rw [hLD]
          exact hcinv.clb r hr
        have := twist_reduction_spec hDs hDb' hclb'
        rw [hT]
        have htri0 : initTri D.length =
            List.map (fun i => [i]) (List.range idxsC.length) := by
          rw [hLD, initTri]
        rw [← htri0]
        exact this
      have hlenred : T.red.length = idxsC.length := by
        rw [htw0.lenRed, hLD]
      have hlentri : T.tri.length = idxsC.length := by
        rw [htw0.lenTri, hLD]
      -- head of a nonempty final column is in the clear set
      have hheadclear : ∀ i r, (getCol T.red i).head? = some r →
          r ∈ T.clear ∧ getPiv T.piv r = some i := by
        intro i r hhead
        have hne : getCol T.red i ≠ [] := by
          intro he
          rw [he] at hhead
          simp at hhead
        have hilt : i < D.length := by
          by_contra hge
          rw [getCol_oob (by rw [htw0.lenRed]; omega)] at hne
          exact hne rfl
        obtain ⟨r', hr'head, hr'piv⟩ :=
          htw0.pivComplete i (Nat.zero_le _) hilt hne
        have hrr : r = r' := by
          rw [hhead] at hr'head
          injection hr'head
        subst hrr
        exact ⟨(htw0.clearIff r).mpr (by rw [hr'piv]; rfl), hr'piv⟩
      -- the carry invariant for the next dimension
      have hcinv' : CarryInv ⟨T.clear, T.red, T.piv⟩ idxsN.length D := by
        constructor
        · intro r hr
          have := (htw0.clearIff r).mp hr
          by_contra hge
          rw [getPiv_oob (by rw [htw0.lenPiv]; omega)] at this
          simp at this
        · intro r hr
          obtain ⟨p, hp⟩ := Option.isSome_iff_exists.mp
            ((htw0.clearIff r).mp hr)
          obtain ⟨_, hplt, hphead⟩ := htw0.pivSome r p hp
          have hpnotcl : p ∉ carry.clear := by
            intro hmem
            rw [htw0.clearedRed p hmem] at hphead
            simp at hphead
          exact ⟨p, hp, hphead, htw0.redSorted p, htw0.redBound p,
            getCol T.tri p, htw0.rdv p hpnotcl⟩
      obtain ⟨hOuts', hCC'⟩ := grt_loop_spec rest' idxsN tupsN
        ⟨T.clear, T.red, T.piv⟩ tupsC idxsC.length D outs'
        (fun tab htab => htw tab (List.mem_cons_of_mem _ htab))
        hcinv' (Or.inl hcob) htupsS htupsND (le_of_eq hlenCT.symm) hrec
      -- the fixed triangular matrix of this dimension
      set tri' := fix_triangular_after_clearing T.tri carry.redPrev
        carry.clear carry.pivPrev with htri'
      have hlentri' : tri'.length = idxsC.length := by
        rw [htri', length_fix_triangular, hlentri]
      have htri'mem : ∀ r ∈ carry.clear, ∃ p,
          getPiv carry.pivPrev r = some p ∧
          getCol tri' r = getCol carry.redPrev p ∧
          (getCol carry.redPrev p).head? = some r ∧
          SortedLt (getCol carry.redPrev p) ∧
          (∀ x ∈ getCol carry.redPrev p, x < idxsC.length) ∧
          ∃ w, colFun (getCol carry.redPrev p) = applyD Dprev w := by
        intro r hr
        obtain ⟨p, hpv, hhead, hsort, hbound, hw⟩ := hcinv.cfix r hr
        refine ⟨p, hpv, ?_, hhead, hsort, hbound, hw⟩
        rw [htri', getCol_fix_mem hr (by
          rw [hlentri]
          exact hcinv.clb r hr), hpv]
        rfl
      have htri'not : ∀ r, r ∉ carry.clear →
          getCol tri' r = getCol T.tri r := by
        intro r hr
        rw [htri', getCol_fix_not_mem hr]
      refine ⟨⟨⟨idxsC, tupsC, rfl, ?_, ?_⟩, hOuts'⟩, ?_⟩
      · -- DimOK for this dimension
        refine ⟨hlenred, hlentri', htw0.redSorted, ?_, ?_, ?_, ?_, ?_, rfl⟩
        · intro i
          by_cases hic : i ∈ carry.clear
          · obtain ⟨p, _, heq, _, hsort, _⟩ := htri'mem i hic
            rw [heq]; exact hsort
          · rw [htri'not i hic]
            exact htw0.triSorted i
        · intro i hi
          by_cases hic : i ∈ carry.clear
          · obtain ⟨p, _, heq, hhead, _, _⟩ := htri'mem i hic
            rw [heq]; exact head_mem hhead
          · rw [htri'not i hic]
            exact htw0.triSelf i (by omega)
        · intro i x hx
          by_cases hic : i ∈ carry.clear
          · obtain ⟨p, _, heq, hhead, hsort, _⟩ := htri'mem i hic
            rw [heq] at hx
            exact sortedLt_head_le hsort hhead x hx
          · rw [htri'not i hic] at hx
            exact htw0.triLb i x hx
        · intro i x hx
          by_cases hic : i ∈ carry.clear
          · obtain ⟨p, _, heq, _, _, hbound, _⟩ := htri'mem i hic
            rw [heq] at hx
            exact hbound x hx
          · rw [htri'not i hic] at hx
            have := htw0.triBound i x hx
            omega
        · intro i1 i2 r hne h1 h2
          obtain ⟨_, hpiv1⟩ := hheadclear i1 r h1
          obtain ⟨_, hpiv2⟩ := hheadclear i2 r h2
          rw [hpiv1] at hpiv2
          exact hne (by injection hpiv2)
      · -- DimNext for this dimension
        refine ⟨idxsN, tupsN, rfl, ⟨⟨D, hcob, by omega, hDchar,
          htw0.redBound, ?_, ?_⟩⟩⟩
        · -- R = D · V, including the columns rewritten by the fix
          intro i
          by_cases hic : i ∈ carry.clear
          · obtain ⟨p, _, heq, _, _, _, w, hw⟩ := htri'mem i hic
            show colFun (getCol T.red i) = applyD D (getCol tri' i)
            rw [htw0.clearedRed i hic, heq, colFun_nil]
            symm
            rcases hDprev with hDprev | hempty
            · refine applyD_comp_zero hw ?_
              exact D_comp_zero hpwf htupsS htupsNS hpnd htupsND hplen
                (le_of_eq hlenCT.symm) hDprev hcob
            · rw [hempty] at hic
              exact absurd hic (List.not_mem_nil _)
          · show colFun (getCol T.red i) = applyD D (getCol tri' i)
            rw [htri'not i hic]
            exact htw0.rdv i hic
        · -- pivot rows are cleared (empty) one dimension up
          intro i r hhead
          obtain ⟨hclear, _⟩ := hheadclear i r hhead
          exact hCC' r hclear
      · -- the input clear set names empty columns of this dimension
        intro r hr
        exact htw0.clearedRed r hr

/-- The main specification of `get_reduced_triangular`: on any run that
returns a result, the per-dimension outputs satisfy `OutsOK`. -/
theorem get_reduced_triangular_spec {fbd : List (Option DimTable)}
    {outs : List DimOut} (htw : TabWF fbd)
    (h : get_reduced_triangular fbd = some outs) : OutsOK fbd outs := by
  rcases fbd with _ | ⟨cur?, rest⟩
  · rw [get_reduced_triangular, grt_loop] at h
    exact absurd h (fun x => Option.noConfusion x)
  · rcases cur? with _ | ⟨idxsC, tupsC⟩
    · rw [get_reduced_triangular] at h
      rcases rest with _ | ⟨next?, rest'⟩ <;>
        · simp only [grt_loop, Option.bind_eq_bind, Option.none_bind] at h
          exact absurd h (fun x => Option.noConfusion x)
    · have hcinv : CarryInv ⟨[], [], []⟩ idxsC.length [] := by
        constructor
        · intro r hr
          exact absurd hr (List.not_mem_nil _)
        · intro r hr
          exact absurd hr (List.not_mem_nil _)
      exact (grt_loop_spec rest idxsC tupsC ⟨[], [], []⟩ [] 0 [] outs htw
        hcinv (Or.inr rfl) (fun t ht => absurd ht (List.not_mem_nil _))
        List.nodup_nil (le_refl _) h).1

theorem outsOK_length : ∀ {tabs : List (Option DimTable)}
    {outs : List DimOut}, OutsOK tabs outs → outs.length = tabs.length
  | [], outs, h => by
    rw [show outs = [] from h]
    rfl
  | tab :: rest, outs, h => by
    rcases outs with _ | ⟨o, outs'⟩
    · exact absurd h (fun x => x.elim)
    · show outs'.length + 1 = rest.length + 1
      rw [outsOK_length h.2]

theorem outsOK_dim : ∀ {tabs : List (Option DimTable)}
    {outs : List DimOut}, OutsOK tabs outs → ∀ d, d < tabs.length →
    ∃ idxsD tupsD, tabs.getD d none = some (idxsD, tupsD) ∧
      DimOK idxsD tupsD (outs.getD d default)
  | [], _, _, d, hd => by simp at hd
  | tab :: rest, outs, h, d, hd => by
    rcases outs with _ | ⟨o, outs'⟩
    · exact absurd h (fun x => x.elim)
    · obtain ⟨⟨idxsD, tupsD, htab, hok, _⟩, hrest⟩ := h
      cases d with
      | zero => exact ⟨idxsD, tupsD, htab, hok⟩
      | succ d =>
        have := outsOK_dim hrest d (by simpa using hd)
        simpa using this

theorem outsOK_next : ∀ {tabs : List (Option DimTable)}
    {outs : List DimOut}, OutsOK tabs outs → ∀ d, d + 1 < tabs.length →
    ∃ idxsD tupsD idxsN tupsN,
      tabs.getD d none = some (idxsD, tupsD) ∧
      tabs.getD (d + 1) none = some (idxsN, tupsN) ∧
      Nonempty (DimNext idxsD tupsD idxsN tupsN (outs.getD d default)
        ((outs.getD (d + 1) default).red))
  | [], _, _, d, hd => by simp at hd
  | tab :: rest, outs, h, d, hd => by
    rcases outs with _ | ⟨o, outs'⟩
    · exact absurd h (fun x => x.elim)
    · obtain ⟨⟨idxsD, tupsD, htab, hok, hnext⟩, hrest⟩ := h
      cases d with
      | zero =>
        rcases rest with _ | ⟨next?, rest'⟩
        · simp at hd
        · obtain ⟨idxsN, tupsN, hntab, hdn⟩ := hnext
          refine ⟨idxsD, tupsD, idxsN, tupsN, htab, ?_, ?_⟩
          · simpa using hntab
          · simpa using hdn
      | succ d =>
        have := outsOK_next hrest d (by simpa using hd)
        simpa using this

theorem outsOK_top : ∀ {tabs : List (Option DimTable)}
    {outs : List DimOut}, OutsOK tabs outs → ∀ d, tabs.length = d + 1 →
    ∀ i, getCol ((outs.getD d default).red) i = []
  | [], _, _, d, hd => by simp at hd
  | tab :: rest, outs, h, d, hd => by
    rcases outs with _ | ⟨o, outs'⟩
    · exact absurd h (fun x => x.elim)
    · obtain ⟨⟨idxsD, tupsD, htab, hok, hnext⟩, hrest⟩ := h
      cases d with
      | zero =>
        rcases rest with _ | ⟨next?, rest'⟩
        · exact fun i => hnext i
        · simp at hd
      | succ d =>
        have := outsOK_top hrest d (by simpa using hd)
        simpa using this

/-! ### Valid filtrations -/

/-- Executable check that a list is strictly ascending. -/
def sortedLtB : List Nat → Bool
  | [] => true
  | [_] => true
  | a :: b :: t => decide (a < b) && sortedLtB (b :: t)

theorem sortedLtB_iff : ∀ {l : List Nat}, sortedLtB l = true ↔ SortedLt l
  | [] => by simp [sortedLtB, List.Sorted]
  | [a] => by simp [sortedLtB, List.Sorted]
  | a :: b :: t => by
    rw [sortedLtB, Bool.and_eq_true, decide_eq_true_iff, sortedLtB_iff]
    constructor
    · rintro ⟨hab, hs⟩
      refine List.sorted_cons.mpr ⟨?_, hs⟩
      intro x hx
      rcases List.mem_cons.mp hx with rfl | hx
      · exact hab
      · exact lt_trans hab ((List.sorted_cons.mp hs).1 x hx)
    · intro hs
      obtain ⟨hlb, hs'⟩ := List.sorted_cons.mp hs
      exact ⟨hlb b (List.mem_cons_self _ _), hs'⟩

/-- Executable well-formedness of a simplex-wise filtration, with
simplices in canonical (strictly sorted) form: nonempty, canonical,
pairwise-distinct simplices, and every (nonempty) face of a simplex
present at a strictly earlier filtration index. -/
def validFiltrationB (filtration : List (List Nat)) : Bool :=
  decide (filtration ≠ []) &&
  filtration.all (fun s => sortedLtB s && decide (s ≠ [])) &&
  decide filtration.Nodup &&
  (List.range filtration.length).all (fun j =>
    (drop_elements (filtration.getD j [])).all (fun f =>
      decide (f = []) ||
        (List.range j).any (fun i => decide (filtration.getD i [] = f))))

theorem validB_facts {f : List (List Nat)}
    (h : validFiltrationB f = true) :
    f ≠ [] ∧ (∀ s ∈ f, SortedLt s ∧ s ≠ []) ∧ f.Nodup := by
  rw [validFiltrationB, Bool.and_eq_true, Bool.and_eq_true,
    Bool.and_eq_true] at h
  obtain ⟨⟨⟨h1, h2⟩, h3⟩, _⟩ := h
  refine ⟨by simpa using h1, ?_, by simpa using h3⟩
  intro s hs
  have := List.all_eq_true.mp h2 s hs
  rw [Bool.and_eq_true, sortedLtB_iff, decide_eq_true_iff] at this
  exact this

/-! ### Characterization of `sort_filtration_by_dim` -/

theorem getD_set_self {α : Type _} {l : List α} {i : Nat}
    (h : i < l.length) (d a : α) : (l.set i a).getD i d = a := by
  simp [List.getD_eq_getElem?_getD, List.getElem?_set_self', h,
    List.getElem?_eq_getElem]

theorem getD_set_ne {α : Type _} {l : List α} {i j : Nat} (h : i ≠ j)
    (d a : α) : (l.set i a).getD j d = l.getD j d := by
  simp [List.getD_eq_getElem?_getD, List.getElem?_set_ne h]

theorem getD_oob {α : Type _} {l : List α} {i : Nat} (h : l.length ≤ i)
    (d : α) : l.getD i d = d := by
  simp only [List.getD_eq_getElem?_getD]
  rw [List.getElem?_eq_none h]
  rfl

/-- The slot-appending step of `buildSlots`, as a named function. -/
def slotStep (maxdim : Nat) (slots : List (List (Nat × Simplex)))
    (p : Nat × List Nat) : List (List (Nat × Simplex)) :=
  if (pySorted p.2).length - 1 ≤ maxdim then
    slots.set ((pySorted p.2).length - 1)
      ((slots.getD ((pySorted p.2).length - 1) []) ++
        [(p.1, pySorted p.2)])
  else slots

/-- The filter selecting, for the slot of dimension `d`, the filtration
entries whose canonical form has dimension `d`. -/
def slotCond (maxdim d : Nat) (p : Nat × List Nat) :
    Option (Nat × Simplex) :=
  if (pySorted p.2).length - 1 = d ∧ d ≤ maxdim
  then some (p.1, pySorted p.2) else none

/-- The contents of one raw slot of `buildSlots`. -/
def slotRaw (filtration : List (List Nat)) (maxdim d : Nat) :
    List (Nat × Simplex) :=
  filtration.enum.filterMap (slotCond maxdim d)

/-- The final per-slot conversion of `buildSlots` (unpacking an empty
slot later fails). -/
def slotConv (s : List (Nat × Simplex)) : Option DimTable :=
  match s with
  | [] => none
  | l => some (l.map Prod.fst, l.map Prod.snd)

theorem buildSlots_eq {f : List (List Nat)} {maxdim : Nat} :
    buildSlots f maxdim =
      (f.enum.foldl (slotStep maxdim)
        (List.replicate (maxdim + 1) [])).map slotConv := rfl

theorem buildSlots_fold {maxdim : Nat} :
    ∀ (l : List (Nat × List Nat)) (slots0 : List (List (Nat × Simplex))),
      slots0.length = maxdim + 1 →
      (l.foldl (slotStep maxdim) slots0).length = maxdim + 1 ∧
      ∀ d, (l.foldl (slotStep maxdim) slots0).getD d [] =
        slots0.getD d [] ++ l.filterMap (slotCond maxdim d)
  | [], slots0, hlen => ⟨hlen, fun d => by simp⟩
  | p :: l, slots0, hlen => by
    rw [List.foldl_cons]
    by_cases hle : (pySorted p.2).length - 1 ≤ maxdim
    · have hstep : slotStep maxdim slots0 p =
          slots0.set ((pySorted p.2).length - 1)
            ((slots0.getD ((pySorted p.2).length - 1) []) ++
              [(p.1, pySorted p.2)]) := by
        rw [slotStep, if_pos hle]
      rw [hstep]
      have hlen1 : (slots0.set ((pySorted p.2).length - 1)
          ((slots0.getD ((pySorted p.2).length - 1) []) ++
            [(p.1, pySorted p.2)])).length = maxdim + 1 := by
        rw [List.length_set, hlen]
      obtain ⟨hL, hD⟩ := buildSlots_fold l _ hlen1
      refine ⟨hL, fun d => ?_⟩
      rw [hD d, List.filterMap_cons]
      by_cases hd : (pySorted p.2).length - 1 = d
      · rw [show slotCond maxdim d p = some (p.1, pySorted p.2) from by
          rw [slotCond, if_pos ⟨hd, hd ▸ hle⟩]]
        rw [hd, getD_set_self (by omega) _ _, List.append_assoc,
          List.singleton_append]
      · rw [show slotCond maxdim d p = none from by
          rw [slotCond, if_neg (by
            rintro ⟨h1, _⟩
            exact hd h1)]]
        rw [getD_set_ne hd _ _]
    · have hstep : slotStep maxdim slots0 p = slots0 := by
        rw [slotStep, if_neg hle]
      rw [hstep]
      obtain ⟨hL, hD⟩ := buildSlots_fold l slots0 hlen
      refine ⟨hL, fun d => ?_⟩
      rw [hD d, List.filterMap_cons]
      rw [show slotCond maxdim d p = none from by
        rw [slotCond, if_neg (by
          rintro ⟨h1, h2⟩
          exact hle (by omega))]]

theorem buildSlots_length {f : List (List Nat)} {maxdim : Nat} :
    (buildSlots f maxdim).length = maxdim + 1 := by
  rw [buildSlots_eq, List.length_map]
  exact (buildSlots_fold f.enum _ (by simp)).1

theorem buildSlots_getD {f : List (List Nat)} {maxdim d : Nat} :
    (buildSlots f maxdim).getD d none = slotConv (slotRaw f maxdim d) := by
  obtain ⟨hL, hD⟩ := @buildSlots_fold maxdim f.enum
    (List.replicate (maxdim + 1) []) (by simp)
  rcases Nat.lt_or_ge d (maxdim + 1) with hl | hl
  · rw [buildSlots_eq,
      List.getD_eq_getElem _ _ (by
        rw [List.length_map, hL]
        exact hl),
      List.getElem_map]
    congr 1
    rw [← List.getD_eq_getElem _ ([] : List (Nat × Simplex)) (by
        rw [hL]; exact hl),
      hD d, slotRaw]
    simp
  · rw [getD_oob (by rw [buildSlots_length]; exact hl) _]
    have : slotRaw f maxdim d = [] := by
      rw [slotRaw, List.filterMap_eq_nil_iff]
      intro p _
      rw [slotCond, if_neg]
      rintro ⟨_, h2⟩
      omega
    rw [this]
    rfl

theorem mem_enum_iff' {α : Type _} {l : List α} {i : Nat} {s : α} :
    (i, s) ∈ l.enum ↔ l[i]? = some s := by
  simp [List.mk_mem_enum_iff_getElem?]

theorem mem_slotRaw {f : List (List Nat)} {maxdim d : Nat}
    {i : Nat} {t : Simplex} :
    (i, t) ∈ slotRaw f maxdim d ↔
      (i < f.length ∧ t = pySorted (f.getD i []) ∧
        t.length - 1 = d ∧ d ≤ maxdim) := by
  rw [slotRaw, List.mem_filterMap]
  constructor
  · rintro ⟨⟨i', s⟩, hmem, hval⟩
    rw [slotCond] at hval
    split at hval
    · rename_i hcond
      injection hval with hval
      have h1 : i' = i := congrArg Prod.fst hval
      have h2 : pySorted s = t := congrArg Prod.snd hval
      have hget := mem_enum_iff'.mp hmem
      have hi : i' < f.length := by
        by_contra hge
        rw [List.getElem?_eq_none (by omega)] at hget
        exact Option.noConfusion hget
      rw [List.getElem?_eq_getElem hi] at hget
      have hs : f.getD i' [] = s := by
        rw [List.getD_eq_getElem _ _ hi]
        injection hget
      subst h1
      refine ⟨hi, by rw [hs, h2], ?_, hcond.2⟩
      rw [← h2]
      exact hcond.1
    · exact Option.noConfusion hval
  · rintro ⟨hi, ht, hd, hle⟩
    refine ⟨(i, f.getD i []), ?_, ?_⟩
    · rw [mem_enum_iff', List.getElem?_eq_getElem hi,
        List.getD_eq_getElem _ _ hi]
    · rw [slotCond, if_pos ⟨by rw [← ht]; exact hd, hle⟩, ← ht]

/-- The global indices in one slot form a sublist of the enumeration
indices, hence of `range N`. -/
theorem slotRaw_fst_sublist {f : List (List Nat)} {maxdim d : Nat} :
    ((slotRaw f maxdim d).map Prod.fst).Sublist (List.range f.length) := by
  rw [← List.enum_map_fst f, slotRaw]
  induction f.enum with
  | nil => simp
  | cons p l ih =>
    rw [List.filterMap_cons, List.map_cons]
    rcases hc : slotCond maxdim d p with _ | q
    · exact List.Sublist.cons _ ih
    · have hq : q.1 = p.1 := by
        rw [slotCond] at hc
        split at hc
        · injection hc with hc
          rw [← hc]
        · exact Option.noConfusion hc
      rw [List.map_cons, hq]
      exact List.Sublist.cons₂ _ ih

theorem slotRaw_fst_sorted {f : List (List Nat)} {maxdim d : Nat} :
    SortedLt ((slotRaw f maxdim d).map Prod.fst) :=
  List.Pairwise.sublist slotRaw_fst_sublist (List.pairwise_lt_range _)

theorem slotConv_some {s : List (Nat × Simplex)} {idxsD : List Nat}
    {tupsD : List Simplex} (h : slotConv s = some (idxsD, tupsD)) :
    s ≠ [] ∧ idxsD = s.map Prod.fst ∧ tupsD = s.map Prod.snd := by
  rcases s with _ | ⟨q, s'⟩
  · exact absurd h (fun x => Option.noConfusion x)
  · have h' : some ((q :: s').map Prod.fst, (q :: s').map Prod.snd) =
        some (idxsD, tupsD) := h
    injection h' with h'
    have h1 := congrArg Prod.fst h'
    have h2 := congrArg Prod.snd h'
    exact ⟨fun hcon => List.noConfusion hcon, h1.symm, h2.symm⟩

/-- The by-dimension tables built from a valid filtration are
well-formed. -/
theorem tabWF_of_valid {f : List (List Nat)} {maxdim : Nat}
    (hval : validFiltrationB f = true) : TabWF (buildSlots f maxdim) := by
  obtain ⟨_, hsimp, hnd⟩ := validB_facts hval
  intro tab htab idxsD tupsD htabeq
  subst htabeq
  obtain ⟨d, hd, hget⟩ := List.mem_iff_getElem.mp htab
  have htabD : (buildSlots f maxdim).getD d none = some (idxsD, tupsD) := by
    rw [List.getD_eq_getElem _ _ hd, hget]
  rw [buildSlots_getD] at htabD
  obtain ⟨hne, hidxs, htups⟩ := slotConv_some htabD
  have hmemfact : ∀ pr ∈ slotRaw f maxdim d,
      pr.1 < f.length ∧ pr.2 = f.getD pr.1 [] := by
    rintro ⟨i, t⟩ hpr
    obtain ⟨hi, ht, _, _⟩ := mem_slotRaw.mp hpr
    have hsor : SortedLt (f.getD i []) := (hsimp _ (by
      rw [List.getD_eq_getElem _ _ hi]
      exact List.getElem_mem hi)).1
    exact ⟨hi, by rw [ht, pySorted_of_sorted hsor]⟩
  refine ⟨?_, ?_, ?_⟩
  · intro t ht
    rw [htups] at ht
    obtain ⟨pr, hpr, hpr2⟩ := List.mem_map.mp ht
    obtain ⟨hi, hteq⟩ := hmemfact pr hpr
    rw [← hpr2, hteq]
    exact (hsimp _ (by
      rw [List.getD_eq_getElem _ _ hi]
      exact List.getElem_mem hi)).1
  · rw [htups]
    have hfst : ((slotRaw f maxdim d).map Prod.fst).Nodup :=
      slotRaw_fst_sorted.nodup
    have hpw1 : (slotRaw f maxdim d).Pairwise
        (fun a b => a.1 ≠ b.1) := List.pairwise_map.mp hfst
    have hpw2 : (slotRaw f maxdim d).Pairwise
        (fun a b => a.2 ≠ b.2) := by
      refine List.Pairwise.imp_of_mem ?_ hpw1
      intro a b ha hb hne heq
      obtain ⟨hia, ha2⟩ := hmemfact a ha
      obtain ⟨hib, hb2⟩ := hmemfact b hb
      apply hne
      rw [ha2, hb2] at heq
      rw [List.getD_eq_getElem _ _ hia, List.getD_eq_getElem _ _ hib]
        at heq
      exact (List.Nodup.getElem_inj_iff hnd).mp heq
    exact List.pairwise_map.mpr hpw2
  · rw [hidxs, htups]
    simp

/-- The tables returned by `sort_filtration_by_dim` come from
`buildSlots`. -/
theorem sort_filtration_eq {f : List (List Nat)} {maxdim? : Option Nat}
    {tabs : List (Option DimTable)}
    (h : sort_filtration_by_dim f maxdim? = some tabs) :
    ∃ m, tabs = buildSlots f m := by
  rcases maxdim? with _ | m
  · rcases f with _ | ⟨s, f'⟩
    · exact absurd h (fun x => Option.noConfusion x)
    · have h' : some (buildSlots (s :: f')
          ((((s :: f').map List.length).foldl max 0) - 1)) = some tabs := h
      exact ⟨_, by injection h' with h'; exact h'.symm⟩
  · have h' : some (buildSlots f m) = some tabs := h
    exact ⟨m, by injection h' with h'; exact h'.symm⟩

/-! ### The matrices of the claims -/

/-- Number of simplices of dimension `d` in the by-dimension tables. -/
def nDimAt (tabs : List (Option DimTable)) (d : Nat) : Nat :=
  match tabs.getD d none with
  | some (idxs, _) => idxs.length
  | none => 0

/-- The vertex tuples of dimension `d`. -/
def tupsAt (tabs : List (Option DimTable)) (d : Nat) : List Simplex :=
  match tabs.getD d none with
  | some (_, tups) => tups
  | none => []

/-- The global filtration indices of dimension `d`. -/
def idxsAt (tabs : List (Option DimTable)) (d : Nat) : List Nat :=
  match tabs.getD d none with
  | some (idxs, _) => idxs
  | none => []

/-- The dimension-`d` block of the antitransposed-boundary (coboundary)
operator of the filtration, as a GF(2) matrix: entry `(r, c)` is `1`
exactly when the `c`-th `d`-simplex is a face of the `r`-th
`(d+1)`-simplex. -/
def coboundaryMatrix (tabs : List (Option DimTable)) (d : Nat) :
    Matrix (Fin (nDimAt tabs (d + 1))) (Fin (nDimAt tabs d)) (ZMod 2) :=
  fun r c =>
    if (tupsAt tabs d).getD c.val [] ∈
        drop_elements ((tupsAt tabs (d + 1)).getD r.val []) then 1 else 0

/-- The dimension-`d` block of the reduced matrix `R`, as a GF(2)
matrix. -/
def redMatrix (outs : List DimOut) (tabs : List (Option DimTable))
    (d : Nat) :
    Matrix (Fin (nDimAt tabs (d + 1))) (Fin (nDimAt tabs d)) (ZMod 2) :=
  fun r c => if r.val ∈ getCol ((outs.getD d default).red) c.val
    then 1 else 0

/-- The dimension-`d` block of the triangular matrix `V`, as a GF(2)
matrix. -/
def triMatrix (outs : List DimOut) (tabs : List (Option DimTable))
    (d : Nat) :
    Matrix (Fin (nDimAt tabs d)) (Fin (nDimAt tabs d)) (ZMod 2) :=
  fun r c => if r.val ∈ getCol ((outs.getD d default).tri) c.val
    then 1 else 0

theorem atDims_eq {tabs : List (Option DimTable)} {d : Nat}
    {idxsD : List Nat} {tupsD : List Simplex}
    (h : tabs.getD d none = some (idxsD, tupsD)) :
    nDimAt tabs d = idxsD.length ∧ tupsAt tabs d = tupsD ∧
      idxsAt tabs d = idxsD := by
  rw [nDimAt, tupsAt, idxsAt, h]
  exact ⟨rfl, rfl, rfl⟩

theorem nDimAt_oob {tabs : List (Option DimTable)} {d : Nat}
    (h : tabs.length ≤ d) : nDimAt tabs d = 0 := by
  rw [nDimAt, getD_oob h]

theorem tabWF_at {tabs : List (Option DimTable)} (htw : TabWF tabs)
    {d : Nat} {idxsD : List Nat} {tupsD : List Simplex}
    (hd : d < tabs.length) (h : tabs.getD d none = some (idxsD, tupsD)) :
    (∀ t ∈ tupsD, SortedLt t) ∧ tupsD.Nodup ∧
      idxsD.length = tupsD.length := by
  refine htw (tabs.getD d none) ?_ idxsD tupsD h
  rw [List.getD_eq_getElem _ _ hd]
  exact List.getElem_mem hd

/-- The combination of hypotheses shared by the main claims: a valid
filtration, indexed by dimension, on which the reduction ran to
completion. -/
theorem run_outsOK {filtration : List (List Nat)} {maxdim? : Option Nat}
    {tabs : List (Option DimTable)} {outs : List DimOut}
    (hval : validFiltrationB filtration = true)
    (hsort : sort_filtration_by_dim filtration maxdim? = some tabs)
    (hrun : get_reduced_triangular tabs = some outs) :
    OutsOK tabs outs ∧ TabWF tabs := by
  obtain ⟨m, rfl⟩ := sort_filtration_eq hsort
  exact ⟨get_reduced_triangular_spec (tabWF_of_valid hval) hrun,
    tabWF_of_valid hval⟩

/-- **C1**.  For every valid simplex-wise filtration and every dimension
`d`, the reduced matrix `R` and triangular matrix `V` returned by
`get_reduced_triangular` (after the clearing correction applied by
`_fix_triangular_after_clearing`) satisfy `R = D·V` exactly over GF(2),
where `D` is the dimension-`d` block of the antitransposed boundary
(coboundary) operator of the filtration. -/
theorem C1_reduction_identity (filtration : List (List Nat))
    (maxdim? : Option Nat) (tabs : List (Option DimTable))
    (outs : List DimOut) (hval : validFiltrationB filtration = true)
    (hsort : sort_filtration_by_dim filtration maxdim? = some tabs)
    (hrun : get_reduced_triangular tabs = some outs) :
    ∀ d, d < tabs.length →
      redMatrix outs tabs d =
        coboundaryMatrix tabs d * triMatrix outs tabs d := by
  obtain ⟨hOK, htw⟩ := run_outsOK hval hsort hrun
  intro d hd
  rcases Nat.lt_or_ge (d + 1) tabs.length with hnext | htop
  · obtain ⟨idxsD, tupsD, idxsN, tupsN, htabD, htabN, ⟨dn⟩⟩ :=
      outsOK_next hOK d hnext
    obtain ⟨hnD, htD, _⟩ := atDims_eq htabD
    obtain ⟨hnN, htN, _⟩ := atDims_eq htabN
    obtain ⟨_, _, halD⟩ := tabWF_at htw hd htabD
    obtain ⟨_, _, halN⟩ := tabWF_at htw hnext htabN
    apply Matrix.ext
    intro r c
    rw [Matrix.mul_apply]
    have hred : redMatrix outs tabs d r c =
        colFun (getCol ((outs.getD d default).red) c.val) r.val := rfl
    rw [hred, dn.rdv c.val]
    show (∑ i ∈ Finset.range dn.D.length,
        colFun (getCol ((outs.getD d default).tri) c.val) i *
          colFun (getCol dn.D i) r.val) = _
    have hsum : ∑ j : Fin (nDimAt tabs d),
        coboundaryMatrix tabs d r j * triMatrix outs tabs d j c =
        ∑ j ∈ Finset.range (nDimAt tabs d),
          (if (tupsAt tabs d).getD j [] ∈
              drop_elements ((tupsAt tabs (d + 1)).getD r.val []) then
            (1 : ZMod 2) else 0) *
          (if j ∈ getCol ((outs.getD d default).tri) c.val then 1
            else 0) := by
      rw [← Fin.sum_univ_eq_sum_range]
      rfl
    rw [hsum]
    have hlen : dn.D.length = nDimAt tabs d := by
      rw [dn.lenD, hnD]
    rw [hlen]
    refine Finset.sum_congr rfl fun j hj => ?_
    rw [Finset.mem_range] at hj
    have hDcol : colFun (getCol dn.D j) r.val =
        (if (tupsAt tabs d).getD j [] ∈
            drop_elements ((tupsAt tabs (d + 1)).getD r.val [])
          then (1 : ZMod 2) else 0) := by
      rw [colFun]
      by_cases hmem : r.val ∈ getCol dn.D j
      · rw [if_pos hmem]
        obtain ⟨_, _, hface⟩ := (dn.charD j r.val).mp hmem
        rw [if_pos (by rw [htD, htN]; exact hface)]
      · rw [if_neg hmem, eq_comm, if_neg]
        intro hface
        refine hmem ((dn.charD j r.val).mpr ⟨by omega, ?_, ?_⟩)
        · exact Nat.lt_of_lt_of_eq r.isLt (by rw [hnN, halN])
        · rw [htD, htN] at hface
          exact hface
    rw [hDcol]
    have htric : colFun (getCol ((outs.getD d default).tri) c.val) j =
        (if j ∈ getCol ((outs.getD d default).tri) c.val
          then (1 : ZMod 2) else 0) := rfl
    rw [htric, mul_comm]
  · apply Matrix.ext
    intro r c
    have h0 : nDimAt tabs (d + 1) = 0 := nDimAt_oob (by omega)
    exact absurd (Nat.lt_of_lt_of_eq r.isLt h0) (Nat.not_lt_zero _)

def exampleFiltration : List (List Nat) := [[0], [1], [0, 1]]

def exampleTabs : List (Option DimTable) :=
  (sort_filtration_by_dim exampleFiltration none).getD []

def exampleOuts : List DimOut :=
  (get_reduced_triangular exampleTabs).getD []

theorem C1_reduction_identity_witness :
    validFiltrationB exampleFiltration = true ∧
    sort_filtration_by_dim exampleFiltration none = some exampleTabs ∧
    get_reduced_triangular exampleTabs = some exampleOuts ∧
    ∀ d, d < exampleTabs.length →
      redMatrix exampleOuts exampleTabs d =
        coboundaryMatrix exampleTabs d * triMatrix exampleOuts exampleTabs d :=
  ⟨by decide, by rfl, by rfl,
    C1_reduction_identity exampleFiltration none exampleTabs exampleOuts
      (by decide) (by rfl) (by rfl)⟩

/-- **C2**.  For every valid filtration and every dimension, in the
final reduced matrix returned by `get_reduced_triangular`, the columns
are sorted ascending (so the first entry is the first nonzero row index)
and no two nonempty columns have the same first entry. -/
theorem C2_pivot_uniqueness (filtration : List (List Nat))
    (maxdim? : Option Nat) (tabs : List (Option DimTable))
    (outs : List DimOut) (hval : validFiltrationB filtration = true)
    (hsort : sort_filtration_by_dim filtration maxdim? = some tabs)
    (hrun : get_reduced_triangular tabs = some outs) :
    ∀ d, d < tabs.length →
      (∀ i, SortedLt (getCol ((outs.getD d default).red) i)) ∧
      (∀ i1 i2 h, i1 ≠ i2 →
        (getCol ((outs.getD d default).red) i1).head? = some h →
        (getCol ((outs.getD d default).red) i2).head? ≠ some h) := by
  obtain ⟨hOK, _⟩ := run_outsOK hval hsort hrun
  intro d hd
  obtain ⟨idxsD, tupsD, _, hok⟩ := outsOK_dim hOK d hd
  exact ⟨hok.redSorted, hok.pivUnique⟩

theorem C2_pivot_uniqueness_witness :
    validFiltrationB exampleFiltration = true ∧
    (∀ d, d < exampleTabs.length →
      (∀ i, SortedLt (getCol ((exampleOuts.getD d default).red) i)) ∧
      (∀ i1 i2 h, i1 ≠ i2 →
        (getCol ((exampleOuts.getD d default).red) i1).head? = some h →
        (getCol ((exampleOuts.getD d default).red) i2).head? ≠ some h)) :=
  ⟨by decide, C2_pivot_uniqueness exampleFiltration none exampleTabs
    exampleOuts (by decide) (by rfl) (by rfl)⟩

/-- **C3**.  For every valid filtration, every dimension `d` and every
in-dimension column index `i`, the triangular column `triangular[d][i]`
returned by `get_reduced_triangular` is nonempty and contains `i`
itself, all its entries are `≥ i` and in range (`V` is triangular with
unit diagonal w.r.t. the antitransposed order), and the matrix `V` has
determinant 1 over GF(2), hence is invertible.  This includes the
columns rewritten by the clearing-correction step. -/
theorem C3_triangular_invertibility (filtration : List (List Nat))
    (maxdim? : Option Nat) (tabs : List (Option DimTable))
    (outs : List DimOut) (hval : validFiltrationB filtration = true)
    (hsort : sort_filtration_by_dim filtration maxdim? = some tabs)
    (hrun : get_reduced_triangular tabs = some outs) :
    ∀ d, d < tabs.length →
      (∀ i, i < nDimAt tabs d →
        getCol ((outs.getD d default).tri) i ≠ [] ∧
        i ∈ getCol ((outs.getD d default).tri) i ∧
        (∀ x ∈ getCol ((outs.getD d default).tri) i,
          i ≤ x ∧ x < nDimAt tabs d)) ∧
      (triMatrix outs tabs d).det = 1 := by
  obtain ⟨hOK, _⟩ := run_outsOK hval hsort hrun
  intro d hd
  obtain ⟨idxsD, tupsD, htabD, hok⟩ := outsOK_dim hOK d hd
  obtain ⟨hnD, _, _⟩ := atDims_eq htabD
  constructor
  · intro i hi
    rw [hnD] at hi
    have hself := hok.triSelf i hi
    refine ⟨fun he => List.not_mem_nil i (he ▸ hself), hself, ?_⟩
    intro x hx
    refine ⟨hok.triLb i x hx, ?_⟩
    rw [hnD]
    exact hok.triBound i x hx
  · have hlow : (triMatrix outs tabs d).BlockTriangular
        OrderDual.toDual := by
      intro a b hab
      have hab' : a.val < b.val := by
        have := OrderDual.toDual_lt_toDual.mp hab
        exact this
      show (if a.val ∈ getCol ((outs.getD d default).tri) b.val
        then (1 : ZMod 2) else 0) = 0
      rw [if_neg]
      intro hmem
      have := hok.triLb b.val a.val hmem
      omega
    rw [Matrix.det_of_lowerTriangular _ hlow]
    refine Finset.prod_eq_one fun i _ => ?_
    show (if i.val ∈ getCol ((outs.getD d default).tri) i.val
      then (1 : ZMod 2) else 0) = 1
    rw [if_pos]
    exact hok.triSelf i.val (Nat.lt_of_lt_of_eq i.isLt hnD)

theorem C3_triangular_invertibility_witness :
    validFiltrationB exampleFiltration = true ∧
    (∀ d, d < exampleTabs.length →
      (∀ i, i < nDimAt exampleTabs d →
        getCol ((exampleOuts.getD d default).tri) i ≠ [] ∧
        i ∈ getCol ((exampleOuts.getD d default).tri) i ∧
        (∀ x ∈ getCol ((exampleOuts.getD d default).tri) i,
          i ≤ x ∧ x < nDimAt exampleTabs d)) ∧
      (triMatrix exampleOuts exampleTabs d).det = 1) :=
  ⟨by decide, C3_triangular_invertibility exampleFiltration none
    exampleTabs exampleOuts (by decide) (by rfl) (by rfl)⟩

/-! ### C4: the barcode partitions the filtration indices -/

/-- The multiset of filtration indices contributed by one (death, birth)
pair of the barcode: an essential pair (death `-1`) contributes only its
birth, a finite pair contributes both endpoints. -/
def pairContrib (p : Int × Int) : Multiset Int :=
  if p.1 = -1 then {p.2} else {p.1, p.2}

/-- All filtration indices appearing across a barcode, with
multiplicity. -/
def barcodeIdxMultiset (bc : List (List (Int × Int))) : Multiset Int :=
  (bc.map (fun b => (b.map pairContrib).sum)).sum

/-- The index contributions of one block of pairs (before dropping the
representatives). -/
def blockM (l : List ((Int × Int) × Col)) : Multiset Int :=
  (l.map (fun x => pairContrib x.1)).sum

/-- The death indices claimed by the nonempty columns of one dimension's
reduced matrix. -/
def deathsM (idxsX : List Nat) (redX : List Col) : Multiset Int :=
  ((((List.range idxsX.length).filter
      (fun i => !(getCol redX i).isEmpty)).map
    (fun i => ((idxsX.getD i 0 : Nat) : Int))) : Multiset Int)

/-- All global indices of one dimension. -/
def allIdxsM (idxsX : List Nat) : Multiset Int :=
  ((idxsX.map (fun a => ((a : Nat) : Int))) : Multiset Int)

/-- The pivot rows (birth indices in the next dimension, as in-dimension
positions) of one dimension's reduced matrix. -/
def headsList (idxsP : List Nat) (redP : List Col) : List Nat :=
  ((List.range idxsP.length).filter
    (fun i => !(getCol redP i).isEmpty)).map
    (fun i => (getCol redP i).head?.getD 0)

/-- The block of dimension `dim ≥ 1` of `get_barcode_and_coho_reps`
(no filtration values). -/
def blockAt (idxs : List (List Nat)) (reduced triangular : List (List Col))
    (dim : Nat) : List ((Int × Int) × Col) :=
  sortByBirthDesc
    (finitePairs (idxs.getD (dim - 1) []) (idxs.getD dim [])
      (reduced.getD (dim - 1) []) none ++
     essentialPairs (idxs.getD dim []) (reduced.getD dim [])
      (triangular.getD dim [])
      (birthIdxs (idxs.getD (dim - 1) []) (idxs.getD dim [])
        (reduced.getD (dim - 1) [])))

theorem filterMap_eq_filter_map {α β : Type _} {g : α → Option β}
    {p : α → Bool} {F : α → β}
    (hg : ∀ a, g a = if p a then some (F a) else none) :
    ∀ l : List α, l.filterMap g = (l.filter p).map F
  | [] => rfl
  | a :: l => by
    rw [List.filterMap_cons, List.filter_cons, hg a]
    by_cases hp : p a
    · rw [if_pos hp, if_pos hp, List.map_cons,
        filterMap_eq_filter_map hg l]
    · rw [if_neg hp, if_neg hp, filterMap_eq_filter_map hg l]

theorem insertByBirth_perm (x : (Int × Int) × Col) :
    ∀ l, List.Perm (insertByBirth x l) (x :: l)
  | [] => List.Perm.refl _
  | y :: l => by
    rw [insertByBirth]
    by_cases h : y.1.2 ≤ x.1.2
    · rw [if_pos h]
    · rw [if_neg h]
      exact ((insertByBirth_perm x l).cons y).trans
        (List.Perm.swap x y l)

theorem sortByBirthDesc_perm :
    ∀ l, List.Perm (sortByBirthDesc l) l
  | [] => List.Perm.refl _
  | x :: l => by
    rw [sortByBirthDesc, List.foldr_cons]
    exact (insertByBirth_perm x _).trans
      ((sortByBirthDesc_perm l).cons x)

theorem blockM_perm {l l' : List ((Int × Int) × Col)}
    (h : List.Perm l l') : blockM l = blockM l' :=
  (h.map _).sum_eq

theorem blockM_append (a b : List ((Int × Int) × Col)) :
    blockM (a ++ b) = blockM a + blockM b := by
  rw [blockM, blockM, blockM, List.map_append, List.sum_append]

theorem sum_map_singleton {α : Type _} (g : α → Int) :
    ∀ l : List α, (l.map (fun i => ({g i} : Multiset Int))).sum
      = ((l.map g : List Int) : Multiset Int)
  | [] => rfl
  | a :: l => by
    rw [List.map_cons, List.sum_cons, sum_map_singleton g l,
      List.map_cons, ← Multiset.cons_coe, Multiset.singleton_add]

theorem sum_map_add {α M : Type _} [AddCommMonoid M] (f g : α → M) :
    ∀ l : List α,
      (l.map (fun i => f i + g i)).sum = (l.map f).sum + (l.map g).sum
  | [] => by simp
  | a :: l => by
    simp only [List.map_cons, List.sum_cons, sum_map_add f g l]
    exact add_add_add_comm _ _ _ _

theorem sum_map_pair {α : Type _} (g h : α → Int) (l : List α) :
    (l.map (fun i => ({g i, h i} : Multiset Int))).sum
      = ((l.map g : List Int) : Multiset Int) +
        ((l.map h : List Int) : Multiset Int) := by
  have hfun : (fun i => ({g i, h i} : Multiset Int)) =
      fun i => ({g i} : Multiset Int) + {h i} := funext fun i => by
    rw [Multiset.insert_eq_cons, ← Multiset.singleton_add]
  rw [hfun, sum_map_add, sum_map_singleton, sum_map_singleton]

theorem range_map_getD (l : List Nat) :
    (List.range l.length).map (fun i => l.getD i 0) = l := by
  apply List.ext_getElem (by simp)
  intro i h1 h2
  simp only [List.getElem_map, List.getElem_range]
  exact List.getD_eq_getElem _ _ h2

theorem pairs0_eq (idxs0 : List Nat) (red0 tri0 : List Col) :
    pairs0 idxs0 red0 tri0 =
      ((List.range idxs0.length).filter
          (fun i => (getCol red0 i).isEmpty)).map
        (fun i => ((-1, ((idxs0.getD i 0 : Nat) : Int)),
          getCol tri0 i)) := by
  rw [pairs0]
  refine filterMap_eq_filter_map (fun i => ?_) _
  by_cases h : getCol red0 i = []
  · rw [if_pos h, if_pos (by rw [h]; rfl)]
  · rw [if_neg h, if_neg (by
      rw [List.isEmpty_iff]
      exact h)]

theorem finitePairs_none_eq (idxsP idxsC : List Nat) (redP : List Col) :
    finitePairs idxsP idxsC redP none =
      ((List.range idxsP.length).filter
          (fun i => !(getCol redP i).isEmpty)).map
        (fun i => (((((idxsP.getD i 0 : Nat)) : Int),
            (((idxsC.getD ((getCol redP i).head?.getD 0) 0 : Nat)) : Int)),
          getCol redP i)) := by
  rw [finitePairs]
  refine filterMap_eq_filter_map (fun i => ?_) _
  rcases hcol : getCol redP i with _ | ⟨hd, tl⟩
  · simp [hcol]
  · simp [hcol]

theorem birthIdxs_eq (idxsP idxsC : List Nat) (redP : List Col) :
    birthIdxs idxsP idxsC redP =
      ((List.range idxsP.length).filter
          (fun i => !(getCol redP i).isEmpty)).map
        (fun i => idxsC.getD ((getCol redP i).head?.getD 0) 0) := by
  rw [birthIdxs]
  refine filterMap_eq_filter_map (fun i => ?_) _
  rcases hcol : getCol redP i with _ | ⟨hd, tl⟩
  · simp [hcol]
  · simp [hcol]

theorem essentialPairs_eq (idxsC : List Nat) (redC triC : List Col)
    (births : List Nat) :
    essentialPairs idxsC redC triC births =
      ((List.range idxsC.length).filter
          (fun i => !(decide (idxsC.getD i 0 ∈ births)) &&
            (getCol redC i).isEmpty)).map
        (fun i => ((-1, ((idxsC.getD i 0 : Nat) : Int)),
          getCol triC i)) := by
  rw [essentialPairs]
  refine filterMap_eq_filter_map (fun i => ?_) _
  by_cases hb : idxsC.getD i 0 ∈ births
  · rw [if_pos hb, if_neg (by
      simp only [Bool.and_eq_true, Bool.not_eq_true',
        decide_eq_false_iff_not]
      rintro ⟨h1, _⟩
      exact h1 hb)]
  · rw [if_neg hb]
    by_cases he : getCol redC i = []
    · rw [if_pos he, if_pos (by
        simp only [Bool.and_eq_true, Bool.not_eq_true',
          decide_eq_false_iff_not, List.isEmpty_iff]
        exact ⟨hb, he⟩)]
    · rw [if_neg he, if_neg (by
        simp only [Bool.and_eq_true, Bool.not_eq_true',
          decide_eq_false_iff_not, List.isEmpty_iff]
        rintro ⟨_, h2⟩
        exact he h2)]

theorem blockM_pairs0 (idxs0 : List Nat) (red0 tri0 : List Col) :
    blockM (pairs0 idxs0 red0 tri0) =
      ((((List.range idxs0.length).filter
          (fun i => (getCol red0 i).isEmpty)).map
        (fun i => ((idxs0.getD i 0 : Nat) : Int))) : Multiset Int) := by
  rw [pairs0_eq, blockM, List.map_map]
  have hcomp : ((fun x : (Int × Int) × Col => pairContrib x.1) ∘
      (fun i => ((-1, ((idxs0.getD i 0 : Nat) : Int)), getCol tri0 i))) =
      fun i : Nat => ({((idxs0.getD i 0 : Nat) : Int)} : Multiset Int) := by
    funext i
    show pairContrib (-1, ((idxs0.getD i 0 : Nat) : Int)) = _
    rw [pairContrib, if_pos rfl]
  rw [hcomp, sum_map_singleton]

theorem blockM_finite (idxsP idxsC : List Nat) (redP : List Col) :
    blockM (finitePairs idxsP idxsC redP none) =
      deathsM idxsP redP +
      ((((List.range idxsP.length).filter
          (fun i => !(getCol redP i).isEmpty)).map
        (fun i =>
          ((idxsC.getD ((getCol redP i).head?.getD 0) 0 : Nat) : Int)))
        : Multiset Int) := by
  rw [finitePairs_none_eq, blockM, List.map_map]
  have hcomp : ((fun x : (Int × Int) × Col => pairContrib x.1) ∘
      (fun i => (((((idxsP.getD i 0 : Nat)) : Int),
          (((idxsC.getD ((getCol redP i).head?.getD 0) 0 : Nat)) : Int)),
        getCol redP i))) =
      fun i : Nat => ({((idxsP.getD i 0 : Nat) : Int),
        ((idxsC.getD ((getCol redP i).head?.getD 0) 0 : Nat) : Int)} :
          Multiset Int) := by
    funext i
    show pairContrib (((idxsP.getD i 0 : Nat) : Int), _) = _
    rw [pairContrib, if_neg (by omega)]
  rw [hcomp, sum_map_pair]
  rfl

theorem blockM_essential (idxsC : List Nat) (redC triC : List Col)
    (births : List Nat) :
    blockM (essentialPairs idxsC redC triC births) =
      ((((List.range idxsC.length).filter
          (fun i => !(decide (idxsC.getD i 0 ∈ births)) &&
            (getCol redC i).isEmpty)).map
        (fun i => ((idxsC.getD i 0 : Nat) : Int))) : Multiset Int) := by
  rw [essentialPairs_eq, blockM, List.map_map]
  have hcomp : ((fun x : (Int × Int) × Col => pairContrib x.1) ∘
      (fun i => ((-1, ((idxsC.getD i 0 : Nat) : Int)), getCol triC i))) =
      fun i : Nat => ({((idxsC.getD i 0 : Nat) : Int)} : Multiset Int) := by
    funext i
    show pairContrib (-1, ((idxsC.getD i 0 : Nat) : Int)) = _
    rw [pairContrib, if_pos rfl]
  rw [hcomp, sum_map_singleton]

theorem not_isEmpty_iff {l : List Nat} :
    (!l.isEmpty) = true ↔ l ≠ [] := by
  cases l <;> simp

theorem mem_headsList {idxsP : List Nat} {redP : List Col} {h : Nat} :
    h ∈ headsList idxsP redP ↔
      ∃ i, i < idxsP.length ∧ (getCol redP i).head? = some h := by
  rw [headsList]
  constructor
  · intro hmem
    obtain ⟨i, hi, hieq⟩ := List.mem_map.mp hmem
    have hir := List.mem_filter.mp hi
    have hrange : i < idxsP.length := List.mem_range.mp hir.1
    have hne : getCol redP i ≠ [] := not_isEmpty_iff.mp hir.2
    rcases hcol : getCol redP i with _ | ⟨hd, tl⟩
    · exact absurd hcol hne
    · refine ⟨i, hrange, ?_⟩
      rw [hcol]
      rw [hcol] at hieq
      simp only [List.head?_cons, Option.getD_some] at hieq
      rw [hieq]
      rfl
  · rintro ⟨i, hi, hhd⟩
    refine List.mem_map.mpr ⟨i, List.mem_filter.mpr
      ⟨List.mem_range.mpr hi, not_isEmpty_iff.mpr ?_⟩, ?_⟩
    · intro hnil
      rw [hnil] at hhd
      exact Option.noConfusion hhd
    · rw [hhd]
      rfl

theorem headsList_nodup {idxsP : List Nat} {redP : List Col}
    (h2 : ∀ i1 i2 h, i1 ≠ i2 → (getCol redP i1).head? = some h →
      ¬((getCol redP i2).head? = some h)) :
    (headsList idxsP redP).Nodup := by
  rw [headsList]
  refine List.Nodup.map_on ?_ (List.Nodup.filter _ (List.nodup_range _))
  intro i1 h1mem i2 h2mem heq
  by_contra hne
  have hne1 : getCol redP i1 ≠ [] :=
    not_isEmpty_iff.mp (List.mem_filter.mp h1mem).2
  have hne2 : getCol redP i2 ≠ [] :=
    not_isEmpty_iff.mp (List.mem_filter.mp h2mem).2
  rcases hc1 : getCol redP i1 with _ | ⟨hd1, tl1⟩
  · exact hne1 hc1
  rcases hc2 : getCol redP i2 with _ | ⟨hd2, tl2⟩
  · exact hne2 hc2
  rw [hc1, hc2] at heq
  simp only [List.head?_cons, Option.getD_some] at heq
  refine h2 i1 i2 hd1 hne ?_ ?_
  · rw [hc1]
    rfl
  · rw [hc2, heq]
    rfl

theorem headsList_facts {idxsP idxsC : List Nat} {redP redC : List Col}
    (h1 : ∀ i, ∀ x ∈ getCol redP i, x < idxsC.length)
    (h3 : ∀ i h, (getCol redP i).head? = some h → getCol redC h = []) :
    ∀ h ∈ headsList idxsP redP,
      h < idxsC.length ∧ getCol redC h = [] := by
  intro h hmem
  obtain ⟨i, _, hhd⟩ := mem_headsList.mp hmem
  exact ⟨h1 i h (head_mem hhd), h3 i h hhd⟩

theorem sorted_getD_inj {l : List Nat} (hs : SortedLt l) {i j : Nat}
    (hi : i < l.length) (hj : j < l.length)
    (heq : l.getD i 0 = l.getD j 0) : i = j := by
  rw [List.getD_eq_getElem _ _ hi, List.getD_eq_getElem _ _ hj] at heq
  by_contra hne
  rcases Nat.lt_or_ge i j with h | h
  · have := List.pairwise_iff_getElem.mp hs i j hi hj h
    omega
  · have hlt : j < i := by omega
    have := List.pairwise_iff_getElem.mp hs j i hj hi hlt
    omega

theorem dim_index_perm (idxsP idxsC : List Nat) (redP redC : List Col)
    (h1 : ∀ i, ∀ x ∈ getCol redP i, x < idxsC.length)
    (h2 : ∀ i1 i2 h, i1 ≠ i2 → (getCol redP i1).head? = some h →
      ¬((getCol redP i2).head? = some h))
    (h3 : ∀ i h, (getCol redP i).head? = some h → getCol redC h = [])
    (h4 : SortedLt idxsC) :
    List.Perm
      (headsList idxsP redP ++
       (List.range idxsC.length).filter
         (fun i => !(decide (idxsC.getD i 0 ∈ birthIdxs idxsP idxsC redP))
           && (getCol redC i).isEmpty) ++
       (List.range idxsC.length).filter
         (fun i => !(getCol redC i).isEmpty))
      (List.range idxsC.length) := by
  have hbirths : birthIdxs idxsP idxsC redP =
      (headsList idxsP redP).map (fun h => idxsC.getD h 0) := by
    rw [birthIdxs_eq, headsList, List.map_map]
    rfl
  have hmemiff : ∀ i, i < idxsC.length →
      ((idxsC.getD i 0 ∈ birthIdxs idxsP idxsC redP) ↔
        i ∈ headsList idxsP redP) := by
    intro i hi
    rw [hbirths]
    constructor
    · intro hmem
      obtain ⟨h, hh, heq⟩ := List.mem_map.mp hmem
      have hhlt : h < idxsC.length := (headsList_facts h1 h3 h hh).1
      have heqi := sorted_getD_inj h4 hhlt hi heq
      rw [← heqi]
      exact hh
    · intro hmem
      exact List.mem_map.mpr ⟨i, hmem, rfl⟩
  have hessc : (List.range idxsC.length).filter
        (fun i => !(decide (idxsC.getD i 0 ∈ birthIdxs idxsP idxsC redP))
          && (getCol redC i).isEmpty) =
      (List.range idxsC.length).filter
        (fun i => !(decide (i ∈ headsList idxsP redP))
          && (getCol redC i).isEmpty) := by
    refine List.filter_congr ?_
    intro i hir
    rw [decide_eq_decide.mpr (hmemiff i (List.mem_range.mp hir))]
  have hheadsperm : List.Perm (headsList idxsP redP)
      ((List.range idxsC.length).filter
        (fun i => decide (i ∈ headsList idxsP redP) &&
          (getCol redC i).isEmpty)) := by
    refine (List.perm_ext_iff_of_nodup (headsList_nodup h2)
      (List.Nodup.filter _ (List.nodup_range _))).mpr ?_
    intro a
    constructor
    · intro ha
      obtain ⟨halt, haempty⟩ := headsList_facts h1 h3 a ha
      refine List.mem_filter.mpr ⟨List.mem_range.mpr halt, ?_⟩
      rw [Bool.and_eq_true]
      exact ⟨decide_eq_true ha, by rw [haempty]; rfl⟩
    · intro ha
      have hc := (List.mem_filter.mp ha).2
      rw [Bool.and_eq_true] at hc
      exact of_decide_eq_true hc.1
  have hsplit : List.Perm
      ((((List.range idxsC.length).filter
          (fun i => (getCol redC i).isEmpty)).filter
        (fun i => decide (i ∈ headsList idxsP redP))) ++
       (((List.range idxsC.length).filter
          (fun i => (getCol redC i).isEmpty)).filter
        (fun i => !(decide (i ∈ headsList idxsP redP)))))
      ((List.range idxsC.length).filter
        (fun i => (getCol redC i).isEmpty)) :=
    List.filter_append_perm _ _
  have hff1 : (((List.range idxsC.length).filter
        (fun i => (getCol redC i).isEmpty)).filter
      (fun i => decide (i ∈ headsList idxsP redP))) =
      (List.range idxsC.length).filter
        (fun i => decide (i ∈ headsList idxsP redP) &&
          (getCol redC i).isEmpty) := by
    rw [List.filter_filter]
  have hff2 : (((List.range idxsC.length).filter
        (fun i => (getCol redC i).isEmpty)).filter
      (fun i => !(decide (i ∈ headsList idxsP redP)))) =
      (List.range idxsC.length).filter
        (fun i => !(decide (i ∈ headsList idxsP redP)) &&
          (getCol redC i).isEmpty) := by
    rw [List.filter_filter]
  have hrange : List.Perm
      (((List.range idxsC.length).filter
          (fun i => !(getCol redC i).isEmpty)) ++
       ((List.range idxsC.length).filter
          (fun i => (getCol redC i).isEmpty)))
      (List.range idxsC.length) := by
    have hbase := List.filter_append_perm
      (fun i => !(getCol redC i).isEmpty) (List.range idxsC.length)
    have hnn : (List.range idxsC.length).filter
        (fun i => !(!(getCol redC i).isEmpty)) =
        (List.range idxsC.length).filter
          (fun i => (getCol redC i).isEmpty) := by
      refine List.filter_congr ?_
      intro i _
      rw [Bool.not_not]
    rw [hnn] at hbase
    exact hbase
  rw [hessc]
  have hstep2 : List.Perm
      (((List.range idxsC.length).filter
          (fun i => decide (i ∈ headsList idxsP redP) &&
            (getCol redC i).isEmpty)) ++
       ((List.range idxsC.length).filter
          (fun i => !(decide (i ∈ headsList idxsP redP)) &&
            (getCol redC i).isEmpty)))
      ((List.range idxsC.length).filter
        (fun i => (getCol redC i).isEmpty)) := by
    rw [← hff1, ← hff2]
    exact hsplit
  exact ((List.Perm.append (List.Perm.append hheadsperm
      (List.Perm.refl _)) (List.Perm.refl _)).trans
    ((hstep2.append (List.Perm.refl _)).trans
      (List.perm_append_comm.trans hrange)))

theorem allIdxsM_eq_range (idxsX : List Nat) :
    allIdxsM idxsX = (((List.range idxsX.length).map
      (fun i => ((idxsX.getD i 0 : Nat) : Int))) : Multiset Int) := by
  have hlist : idxsX.map (fun a => ((a : Nat) : Int)) =
      (List.range idxsX.length).map
        (fun i => ((idxsX.getD i 0 : Nat) : Int)) := by
    conv_lhs => rw [← range_map_getD idxsX]
    rw [List.map_map]
    rfl
  rw [allIdxsM, hlist]

theorem dim0_block_contrib (idxs0 : List Nat) (red0 tri0 : List Col) :
    blockM (sortByBirthDesc (pairs0 idxs0 red0 tri0)) +
      deathsM idxs0 red0 = allIdxsM idxs0 := by
  rw [blockM_perm (sortByBirthDesc_perm _), blockM_pairs0,
    allIdxsM_eq_range]
  have hperm : List.Perm
      ((((List.range idxs0.length).filter
          (fun i => (getCol red0 i).isEmpty)) ++
        ((List.range idxs0.length).filter
          (fun i => !(getCol red0 i).isEmpty))).map
        (fun i => ((idxs0.getD i 0 : Nat) : Int)))
      ((List.range idxs0.length).map
        (fun i => ((idxs0.getD i 0 : Nat) : Int))) := by
    refine List.Perm.map _ ?_
    exact List.filter_append_perm
      (fun i => (getCol red0 i).isEmpty) (List.range idxs0.length)
  have hcoe := Multiset.coe_eq_coe.mpr hperm
  rw [List.map_append, ← Multiset.coe_add] at hcoe
  exact hcoe

theorem dim_block_contrib (idxsP idxsC : List Nat)
    (redP redC triC : List Col)
    (h1 : ∀ i, ∀ x ∈ getCol redP i, x < idxsC.length)
    (h2 : ∀ i1 i2 h, i1 ≠ i2 → (getCol redP i1).head? = some h →
      ¬((getCol redP i2).head? = some h))
    (h3 : ∀ i h, (getCol redP i).head? = some h → getCol redC h = [])
    (h4 : SortedLt idxsC) :
    blockM (sortByBirthDesc (finitePairs idxsP idxsC redP none ++
        essentialPairs idxsC redC triC (birthIdxs idxsP idxsC redP))) +
      deathsM idxsC redC
    = deathsM idxsP redP + allIdxsM idxsC := by
  rw [blockM_perm (sortByBirthDesc_perm _), blockM_append, blockM_finite,
    blockM_essential]
  have hHB : ((List.range idxsP.length).filter
        (fun i => !(getCol redP i).isEmpty)).map
      (fun i => ((idxsC.getD ((getCol redP i).head?.getD 0) 0 : Nat)
        : Int)) =
      (headsList idxsP redP).map
        (fun i => ((idxsC.getD i 0 : Nat) : Int)) := by
    rw [headsList, List.map_map]
    rfl
  have hdC : deathsM idxsC redC =
      ((((List.range idxsC.length).filter
          (fun i => !(getCol redC i).isEmpty)).map
        (fun i => ((idxsC.getD i 0 : Nat) : Int))) : Multiset Int) := rfl
  have hsum : ((((headsList idxsP redP).map
        (fun i => ((idxsC.getD i 0 : Nat) : Int))) : Multiset Int) +
      ((((List.range idxsC.length).filter
          (fun i => !(decide (idxsC.getD i 0 ∈
              birthIdxs idxsP idxsC redP)) &&
            (getCol redC i).isEmpty)).map
        (fun i => ((idxsC.getD i 0 : Nat) : Int))) : Multiset Int)) +
      ((((List.range idxsC.length).filter
          (fun i => !(getCol redC i).isEmpty)).map
        (fun i => ((idxsC.getD i 0 : Nat) : Int))) : Multiset Int)
      = allIdxsM idxsC := by
    have hp := dim_index_perm idxsP idxsC redP redC h1 h2 h3 h4
    have hcoe := Multiset.coe_eq_coe.mpr
      (hp.map (fun i => ((idxsC.getD i 0 : Nat) : Int)))
    rw [List.map_append, List.map_append, ← Multiset.coe_add,
      ← Multiset.coe_add] at hcoe
    rw [allIdxsM_eq_range]
    exact hcoe
  rw [hHB, hdC]
  calc deathsM idxsP redP +
        (((headsList idxsP redP).map
          (fun i => ((idxsC.getD i 0 : Nat) : Int))) : Multiset Int) +
        ((((List.range idxsC.length).filter
            (fun i => !(decide (idxsC.getD i 0 ∈
                birthIdxs idxsP idxsC redP)) &&
              (getCol redC i).isEmpty)).map
          (fun i => ((idxsC.getD i 0 : Nat) : Int))) : Multiset Int) +
        ((((List.range idxsC.length).filter
            (fun i => !(getCol redC i).isEmpty)).map
          (fun i => ((idxsC.getD i 0 : Nat) : Int))) : Multiset Int)
      = deathsM idxsP redP +
        ((((headsList idxsP redP).map
            (fun i => ((idxsC.getD i 0 : Nat) : Int))) : Multiset Int) +
          ((((List.range idxsC.length).filter
              (fun i => !(decide (idxsC.getD i 0 ∈
                  birthIdxs idxsP idxsC redP)) &&
                (getCol redC i).isEmpty)).map
            (fun i => ((idxsC.getD i 0 : Nat) : Int))) : Multiset Int) +
          ((((List.range idxsC.length).filter
              (fun i => !(getCol redC i).isEmpty)).map
            (fun i => ((idxsC.getD i 0 : Nat) : Int))) : Multiset Int)) := by
        rw [add_assoc, add_assoc, add_assoc]
    _ = deathsM idxsP redP + allIdxsM idxsC := by rw [hsum]

theorem barcode_fst_eq (idxs : List (List Nat))
    (reduced triangular : List (List Col)) :
    (get_barcode_and_coho_reps idxs reduced triangular none).1 =
      (sortByBirthDesc (pairs0 (idxs.getD 0 []) (reduced.getD 0 [])
          (triangular.getD 0 []))).map Prod.fst ::
      ((List.range' 1 (idxs.length - 1)).map
        (fun dim => (blockAt idxs reduced triangular dim).map
          Prod.fst)) := by
  rw [get_barcode_and_coho_reps]
  show _ :: ((List.range' 1 (idxs.length - 1)).map _).map _ = _
  rw [List.map_map]
  rfl

theorem barcodeIdxMultiset_eq (idxs : List (List Nat))
    (reduced triangular : List (List Col)) :
    barcodeIdxMultiset
        (get_barcode_and_coho_reps idxs reduced triangular none).1
    = blockM (sortByBirthDesc (pairs0 (idxs.getD 0 [])
        (reduced.getD 0 []) (triangular.getD 0 []))) +
      ((List.range' 1 (idxs.length - 1)).map
        (fun dim => blockM (blockAt idxs reduced triangular dim))).sum := by
  rw [barcode_fst_eq, barcodeIdxMultiset, List.map_cons, List.sum_cons,
    List.map_map]
  have hone : ∀ (b : List ((Int × Int) × Col)),
      ((b.map Prod.fst).map pairContrib).sum = blockM b := by
    intro b
    rw [blockM, List.map_map]
    rfl
  have hfun : ((fun b : List (Int × Int) => (b.map pairContrib).sum) ∘
      (fun dim => (blockAt idxs reduced triangular dim).map Prod.fst)) =
      fun dim => blockM (blockAt idxs reduced triangular dim) :=
    funext fun dim => hone _
  have hone' : ((sortByBirthDesc (pairs0 (idxs.getD 0 [])
        (reduced.getD 0 []) (triangular.getD 0 []))).map
      (pairContrib ∘ Prod.fst)).sum =
      blockM (sortByBirthDesc (pairs0 (idxs.getD 0 [])
        (reduced.getD 0 []) (triangular.getD 0 []))) := rfl
  rw [List.map_map, hfun, hone']

theorem blocks_telescope (idxs : List (List Nat))
    (reduced triangular : List (List Col)) :
    ∀ (k a : Nat), 1 ≤ a →
      (∀ d, a ≤ d → d < a + k →
        blockM (blockAt idxs reduced triangular d) +
          deathsM (idxs.getD d []) (reduced.getD d [])
        = deathsM (idxs.getD (d - 1) []) (reduced.getD (d - 1) []) +
          allIdxsM (idxs.getD d [])) →
      ((List.range' a k).map
        (fun d => blockM (blockAt idxs reduced triangular d))).sum +
        deathsM (idxs.getD (a + k - 1) []) (reduced.getD (a + k - 1) [])
      = deathsM (idxs.getD (a - 1) []) (reduced.getD (a - 1) []) +
        ((List.range' a k).map
          (fun d => allIdxsM (idxs.getD d []))).sum
  | 0, a, ha, hblk => by
    show ([] : List (Multiset Int)).sum + _ =
      _ + ([] : List (Multiset Int)).sum
    simp
  | k + 1, a, ha, hblk => by
    have hcons : List.range' a (k + 1) = a :: List.range' (a + 1) k := by
      rfl
    rw [hcons, List.map_cons, List.sum_cons, List.map_cons, List.sum_cons]
    have hih := blocks_telescope idxs reduced triangular k (a + 1)
      (by omega) (fun d hd1 hd2 => hblk d (by omega) (by omega))
    have hidx1 : a + 1 + k - 1 = a + (k + 1) - 1 := by omega
    have hidx2 : a + 1 - 1 = a := by omega
    rw [hidx1, hidx2] at hih
    have hone := hblk a (le_refl a) (by omega)
    calc blockM (blockAt idxs reduced triangular a) +
          ((List.range' (a + 1) k).map
            (fun d => blockM (blockAt idxs reduced triangular d))).sum +
          deathsM (idxs.getD (a + (k + 1) - 1) [])
            (reduced.getD (a + (k + 1) - 1) [])
        = blockM (blockAt idxs reduced triangular a) +
          (((List.range' (a + 1) k).map
            (fun d => blockM (blockAt idxs reduced triangular d))).sum +
          deathsM (idxs.getD (a + (k + 1) - 1) [])
            (reduced.getD (a + (k + 1) - 1) [])) := by
          rw [add_assoc]
      _ = blockM (blockAt idxs reduced triangular a) +
          (deathsM (idxs.getD a []) (reduced.getD a []) +
            ((List.range' (a + 1) k).map
              (fun d => allIdxsM (idxs.getD d []))).sum) := by rw [hih]
      _ = (blockM (blockAt idxs reduced triangular a) +
            deathsM (idxs.getD a []) (reduced.getD a [])) +
          ((List.range' (a + 1) k).map
            (fun d => allIdxsM (idxs.getD d []))).sum := by
          rw [add_assoc]
      _ = (deathsM (idxs.getD (a - 1) []) (reduced.getD (a - 1) []) +
            allIdxsM (idxs.getD a [])) +
          ((List.range' (a + 1) k).map
            (fun d => allIdxsM (idxs.getD d []))).sum := by rw [hone]
      _ = deathsM (idxs.getD (a - 1) []) (reduced.getD (a - 1) []) +
          (allIdxsM (idxs.getD a []) +
            ((List.range' (a + 1) k).map
              (fun d => allIdxsM (idxs.getD d []))).sum) := by
          rw [add_assoc]

theorem barcode_partition_core (idxs : List (List Nat))
    (reduced triangular : List (List Col)) (L : Nat)
    (hL : idxs.length = L) (hL1 : 1 ≤ L)
    (Hblk : ∀ d, 1 ≤ d → d < L →
      blockM (blockAt idxs reduced triangular d) +
        deathsM (idxs.getD d []) (reduced.getD d [])
      = deathsM (idxs.getD (d - 1) []) (reduced.getD (d - 1) []) +
        allIdxsM (idxs.getD d []))
    (Htop : deathsM (idxs.getD (L - 1) [])
      (reduced.getD (L - 1) []) = 0) :
    barcodeIdxMultiset
        (get_barcode_and_coho_reps idxs reduced triangular none).1
    = ((List.range L).map (fun d => allIdxsM (idxs.getD d []))).sum := by
  rw [barcodeIdxMultiset_eq, hL]
  have htel := blocks_telescope idxs reduced triangular (L - 1) 1
    (le_refl 1) (fun d hd1 hd2 => Hblk d hd1 (by omega))
  have hidx : 1 + (L - 1) - 1 = L - 1 := by omega
  rw [hidx, Htop, add_zero] at htel
  have hzero : (1 : Nat) - 1 = 0 := rfl
  rw [hzero] at htel
  have hd0 := dim0_block_contrib (idxs.getD 0 []) (reduced.getD 0 [])
    (triangular.getD 0 [])
  have hrange : List.range L = 0 :: List.range' 1 (L - 1) := by
    rw [List.range_eq_range']
    have hsucc : L = (L - 1) + 1 := by omega
    rw [hsucc]
    rfl
  rw [hrange, List.map_cons, List.sum_cons, htel, ← add_assoc, hd0]

theorem sum_ite_eq_list (n x : Nat) (X : Multiset Int) (hx : x < n) :
    ((List.range n).map (fun d => if x = d then X else 0)).sum = X := by
  induction n with
  | zero => omega
  | succ n ih =>
    rw [List.range_succ, List.map_append, List.sum_append]
    rcases Nat.lt_or_ge x n with h | h
    · rw [ih h]
      have hne : x ≠ n := by omega
      show X + ((if x = n then X else 0) + 0) = X
      rw [if_neg hne, add_zero, add_zero]
    · have hxn : x = n := by omega
      have hzero : ((List.range n).map
          (fun d => if x = d then X else 0)).sum = 0 := by
        refine List.sum_eq_zero ?_
        intro y hy
        obtain ⟨d, hd, hdy⟩ := List.mem_map.mp hy
        have hdn : d < n := List.mem_range.mp hd
        rw [← hdy, if_neg (by omega)]
      rw [hzero]
      show 0 + ((if x = n then X else 0) + 0) = X
      rw [if_pos hxn, zero_add, add_zero]

theorem sum_slots (m : Nat) : ∀ (l : List (Nat × List Nat)),
    (∀ p ∈ l, (pySorted p.2).length - 1 ≤ m) →
    ((List.range (m + 1)).map (fun d =>
      ((((l.filterMap (slotCond m d)).map Prod.fst).map
        (fun a => ((a : Nat) : Int))) : Multiset Int))).sum
    = (((l.map Prod.fst).map (fun a => ((a : Nat) : Int))) : Multiset Int)
  | [], hcov => by
    simp
  | p :: l, hcov => by
    have hdim : (pySorted p.2).length - 1 ≤ m :=
      hcov p (List.mem_cons_self _ _)
    have hpoint : ∀ d, d < m + 1 →
        ((((((p :: l).filterMap (slotCond m d)).map Prod.fst).map
          (fun a => ((a : Nat) : Int))) : Multiset Int)) =
        (if (pySorted p.2).length - 1 = d
          then ({((p.1 : Nat) : Int)} : Multiset Int) else 0) +
        ((((l.filterMap (slotCond m d)).map Prod.fst).map
          (fun a => ((a : Nat) : Int))) : Multiset Int) := by
      intro d hd
      rw [List.filterMap_cons]
      by_cases hdeq : (pySorted p.2).length - 1 = d
      · rw [show slotCond m d p = some (p.1, pySorted p.2) from by
          rw [slotCond, if_pos ⟨hdeq, by omega⟩]]
        rw [if_pos hdeq, List.map_cons, List.map_cons,
          ← Multiset.cons_coe, Multiset.singleton_add]
      · rw [show slotCond m d p = none from by
          rw [slotCond, if_neg (by
            rintro ⟨hh, _⟩
            exact hdeq hh)]]
        rw [if_neg hdeq, zero_add]
    have hcong : (List.range (m + 1)).map (fun d =>
        ((((((p :: l).filterMap (slotCond m d)).map Prod.fst).map
          (fun a => ((a : Nat) : Int))) : Multiset Int))) =
        (List.range (m + 1)).map (fun d =>
          (if (pySorted p.2).length - 1 = d
            then ({((p.1 : Nat) : Int)} : Multiset Int) else 0) +
          ((((l.filterMap (slotCond m d)).map Prod.fst).map
            (fun a => ((a : Nat) : Int))) : Multiset Int)) := by
      refine List.map_congr_left ?_
      intro d hd
      exact hpoint d (List.mem_range.mp hd)
    rw [hcong, sum_map_add, sum_ite_eq_list (m + 1)
      ((pySorted p.2).length - 1) _ (by omega),
      sum_slots m l (fun q hq => hcov q (List.mem_cons_of_mem _ hq))]
    rw [List.map_cons, List.map_cons, ← Multiset.cons_coe,
      Multiset.singleton_add]

theorem le_foldl_max (l : List Nat) : ∀ (a : Nat),
    a ≤ l.foldl max a ∧ ∀ x ∈ l, x ≤ l.foldl max a := by
  induction l with
  | nil =>
    intro a
    exact ⟨le_refl _, fun x hx => absurd hx (List.not_mem_nil _)⟩
  | cons b l ih =>
    intro a
    rw [List.foldl_cons]
    refine ⟨le_trans (le_max_left a b) (ih (max a b)).1, ?_⟩
    intro x hx
    rcases List.mem_cons.mp hx with rfl | hx
    · exact le_trans (le_max_right a x) (ih (max a x)).1
    · exact (ih (max a b)).2 x hx

theorem getD_map_lt {α β : Type _} (f : α → β) {l : List α} {i : Nat}
    (h : i < l.length) (d : α) (d' : β) :
    (l.map f).getD i d' = f (l.getD i d) := by
  rw [List.getD_eq_getElem _ _ (by rw [List.length_map]; exact h),
    List.getElem_map, List.getD_eq_getElem _ _ h]

/-- **C4**.  For every valid filtration, when no filtration values are
supplied, each global filtration index appears exactly once as a birth
or a finite death across all (death, birth) pairs of the ordinary
barcode returned by `get_barcode_and_coho_reps`, summed over all
dimensions (deaths of `-1` denoting essential bars contribute only
their birth): the multiset of index entries of the barcode equals
`{0, 1, ..., N - 1}`. -/
theorem C4_barcode_partition (filtration : List (List Nat))
    (tabs : List (Option DimTable)) (outs : List DimOut)
    (hval : validFiltrationB filtration = true)
    (hsort : sort_filtration_by_dim filtration none = some tabs)
    (hrun : get_reduced_triangular tabs = some outs) :
    barcodeIdxMultiset
        (get_barcode_and_coho_reps (outs.map (fun o => o.idxs))
          (outs.map (fun o => o.red)) (outs.map (fun o => o.tri))
          none).1
      = (((List.range filtration.length).map
          (fun a => ((a : Nat) : Int))) : Multiset Int) := by
  obtain ⟨hOK, htw⟩ := run_outsOK hval hsort hrun
  obtain ⟨hfne, hsimp, _⟩ := validB_facts hval
  have htabs : tabs = buildSlots filtration
      (((filtration.map List.length).foldl max 0) - 1) := by
    rcases filtration with _ | ⟨s, f'⟩
    · exact absurd rfl hfne
    · have h' : some (buildSlots (s :: f')
          ((((s :: f').map List.length).foldl max 0) - 1)) = some tabs :=
        hsort
      injection h' with h'
      rw [← h']
  set m := ((filtration.map List.length).foldl max 0) - 1 with hm
  have hLtabs : tabs.length = m + 1 := by
    rw [htabs]
    exact buildSlots_length
  have hLouts : outs.length = m + 1 := by
    rw [outsOK_length hOK, hLtabs]
  set idxs := outs.map (fun o => o.idxs) with hidxs
  set reduced := outs.map (fun o => o.red) with hreduced
  set triangular := outs.map (fun o => o.tri) with htriangular
  have hLidxs : idxs.length = m + 1 := by
    rw [hidxs, List.length_map, hLouts]
  have hdims : ∀ d, d < m + 1 →
      idxs.getD d [] = (outs.getD d default).idxs ∧
      reduced.getD d [] = (outs.getD d default).red ∧
      triangular.getD d [] = (outs.getD d default).tri := by
    intro d hd
    have hd' : d < outs.length := by rw [hLouts]; exact hd
    refine ⟨?_, ?_, ?_⟩
    · rw [hidxs]
      exact getD_map_lt _ hd' default _
    · rw [hreduced]
      exact getD_map_lt _ hd' default _
    · rw [htriangular]
      exact getD_map_lt _ hd' default _
  have hslot : ∀ d, d < m + 1 →
      ∃ idxsD tupsD, tabs.getD d none = some (idxsD, tupsD) ∧
        DimOK idxsD tupsD (outs.getD d default) ∧
        idxsD = (slotRaw filtration m d).map Prod.fst := by
    intro d hd
    obtain ⟨idxsD, tupsD, htabD, hok⟩ := outsOK_dim hOK d
      (by rw [hLtabs]; exact hd)
    refine ⟨idxsD, tupsD, htabD, hok, ?_⟩
    have hbs := htabD
    rw [htabs, buildSlots_getD] at hbs
    exact (slotConv_some hbs).2.1
  have Hblk : ∀ d, 1 ≤ d → d < m + 1 →
      blockM (blockAt idxs reduced triangular d) +
        deathsM (idxs.getD d []) (reduced.getD d [])
      = deathsM (idxs.getD (d - 1) []) (reduced.getD (d - 1) []) +
        allIdxsM (idxs.getD d []) := by
    intro d hd1 hd2
    obtain ⟨hi_d, hr_d, ht_d⟩ := hdims d hd2
    obtain ⟨hi_p, hr_p, _⟩ := hdims (d - 1) (by omega)
    obtain ⟨idxsP, tupsP, htabP, hokP, _⟩ := hslot (d - 1) (by omega)
    obtain ⟨idxsD, tupsD, htabD, hokD, hslotD⟩ := hslot d hd2
    obtain ⟨idxsP', tupsP', idxsN', tupsN', htabP', htabN', ⟨dn⟩⟩ :=
      outsOK_next hOK (d - 1) (by rw [hLtabs]; omega)
    have hdd : d - 1 + 1 = d := by omega
    rw [hdd] at htabN' dn
    have hNeq : idxsN' = idxsD := by
      rw [htabD] at htabN'
      injection htabN' with h'
      exact (congrArg Prod.fst h').symm
    have hsortC : SortedLt ((outs.getD d default).idxs) := by
      rw [hokD.oidxs, hslotD]
      exact slotRaw_fst_sorted
    have h1' : ∀ i, ∀ x ∈ getCol ((outs.getD (d - 1) default).red) i,
        x < ((outs.getD d default).idxs).length := by
      intro i x hx
      have := dn.redBound i x hx
      rw [hokD.oidxs, ← hNeq]
      exact this
    rw [blockAt, hi_d, hi_p, hr_d, hr_p, ht_d]
    exact dim_block_contrib _ _ _ _ _ h1' hokP.pivUnique
      dn.clearedNext hsortC
  have Htop : deathsM (idxs.getD ((m + 1) - 1) [])
      (reduced.getD ((m + 1) - 1) []) = 0 := by
    obtain ⟨hi_t, hr_t, _⟩ := hdims m (by omega)
    have hmm : (m + 1) - 1 = m := rfl
    rw [hmm, hi_t, hr_t, deathsM]
    have hnil : ((List.range ((outs.getD m default).idxs).length).filter
        (fun i =>
          !(getCol ((outs.getD m default).red) i).isEmpty)) = [] := by
      rw [List.filter_eq_nil_iff]
      intro a _
      intro hcon
      have hempty := outsOK_top hOK m hLtabs a
      rw [hempty] at hcon
      exact absurd hcon (by simp)
    rw [hnil]
    rfl
  have hcore := barcode_partition_core idxs reduced triangular (m + 1)
    hLidxs (by omega) Hblk Htop
  rw [hcore]
  have hallints : ∀ d, d < m + 1 → allIdxsM (idxs.getD d []) =
      (((((filtration.enum.filterMap (slotCond m d)).map Prod.fst).map
        (fun a => ((a : Nat) : Int)))) : Multiset Int) := by
    intro d hd
    obtain ⟨hi_d, _, _⟩ := hdims d hd
    obtain ⟨idxsD, tupsD, htabD, hokD, hslotD⟩ := hslot d hd
    rw [hi_d, hokD.oidxs, hslotD, allIdxsM]
    rfl
  have hmapc : (List.range (m + 1)).map
      (fun d => allIdxsM (idxs.getD d []))
      = (List.range (m + 1)).map (fun d =>
        (((((filtration.enum.filterMap (slotCond m d)).map Prod.fst).map
          (fun a => ((a : Nat) : Int)))) : Multiset Int)) := by
    refine List.map_congr_left ?_
    intro d hd
    exact hallints d (List.mem_range.mp hd)
  have hcov : ∀ p ∈ filtration.enum,
      (pySorted p.2).length - 1 ≤ m := by
    intro p hp
    rcases p with ⟨i, s⟩
    have hget := mem_enum_iff'.mp hp
    have hi : i < filtration.length := by
      by_contra hge
      rw [List.getElem?_eq_none (by omega)] at hget
      exact Option.noConfusion hget
    rw [List.getElem?_eq_getElem hi] at hget
    have hsnd : s ∈ filtration := by
      have hs : filtration[i] = s := by injection hget
      rw [← hs]
      exact List.getElem_mem hi
    obtain ⟨hsor, hne⟩ := hsimp s hsnd
    show (pySorted s).length - 1 ≤ m
    rw [pySorted_of_sorted hsor]
    have hlen1 : 1 ≤ s.length := List.length_pos.mpr hne
    have hle : s.length ≤ (filtration.map List.length).foldl max 0 :=
      (le_foldl_max _ 0).2 _ (List.mem_map.mpr ⟨s, hsnd, rfl⟩)
    omega
  rw [hmapc, sum_slots m filtration.enum hcov, List.enum_map_fst]

theorem C4_barcode_partition_witness :
    validFiltrationB exampleFiltration = true ∧
    barcodeIdxMultiset
        (get_barcode_and_coho_reps (exampleOuts.map (fun o => o.idxs))
          (exampleOuts.map (fun o => o.red))
          (exampleOuts.map (fun o => o.tri)) none).1
      = (((List.range exampleFiltration.length).map
          (fun a => ((a : Nat) : Int))) : Multiset Int) :=
  ⟨by decide, C4_barcode_partition exampleFiltration exampleTabs
    exampleOuts (by decide) (by rfl) (by rfl)⟩


/-! ### C5, C6, C7: degenerate inputs, `k = 0`, essential-bar markers -/

theorem grt_loop_none : ∀ (tabs : List (Option DimTable)) (carry : Carry),
    none ∈ tabs → grt_loop tabs carry = none
  | [], carry, h => absurd h (List.not_mem_nil _)
  | [cur?], carry, h => by
    have hcur : cur? = none := by
      rcases List.mem_cons.mp h with h' | h'
      · exact h'.symm
      · exact absurd h' (List.not_mem_nil _)
    subst hcur
    rfl
  | cur? :: next? :: rest, carry, h => by
    rcases cur? with _ | ⟨idxsDim, tupsDim⟩
    · rfl
    · rcases next? with _ | ⟨nidxs, ntups⟩
      · rfl
      · have hrest : (none : Option DimTable) ∈ rest := by
          rcases List.mem_cons.mp h with h' | h'
          · exact absurd h'.symm (fun x => Option.noConfusion x)
          · rcases List.mem_cons.mp h' with h'' | h''
            · exact absurd h''.symm (fun x => Option.noConfusion x)
            · exact h''
        simp only [grt_loop, Option.bind_eq_bind, Option.some_bind]
        rcases hinner : inner_reduce_single_dim idxsDim tupsDim
            carry.clear (some (nidxs, ntups)) with _ | out
        · rfl
        · simp only [Option.some_bind]
          rw [grt_loop_none (some (nidxs, ntups) :: rest) _
            (List.mem_cons_of_mem _ hrest)]
          rfl

theorem C5_counterexample :
    barcodes 1 [] false none false none 1 (-1) = none := rfl

/-- **C5** (corrected).  Calling `barcodes` on an empty filtration (with
the default `maxdim`), or on a filtration in which some dimension not
exceeding the maximum dimension contains zero simplices, does not return
empty barcodes for the affected dimensions: it raises (`max` of an empty
sequence, resp. unpacking an empty by-dimension slot), modelled by
`none`. -/
theorem C5_degenerate_input_errors (k : Nat) (absolute : Bool)
    (vals? : Option (List Int)) (returnValues : Bool) (nCores : Nat)
    (nJobs : Int) :
    barcodes k [] absolute vals? returnValues none nCores nJobs = none ∧
    (∀ (filtration : List (List Nat)) (m d : Nat), d ≤ m →
      (∀ s ∈ filtration, (pySorted s).length - 1 ≠ d) →
      barcodes k filtration absolute vals? returnValues (some m)
        nCores nJobs = none) := by
  constructor
  · rfl
  · intro f m d hdm hnod
    have hnil : slotRaw f m d = [] := by
      rw [slotRaw, List.filterMap_eq_nil_iff]
      rintro ⟨i, s⟩ hp
      have hget := mem_enum_iff'.mp hp
      have hi : i < f.length := by
        by_contra hge
        rw [List.getElem?_eq_none (by omega)] at hget
        exact Option.noConfusion hget
      rw [List.getElem?_eq_getElem hi] at hget
      have hsnd : s ∈ f := by
        have hs : f[i] = s := by injection hget
        rw [← hs]
        exact List.getElem_mem hi
      rw [slotCond, if_neg]
      rintro ⟨hh, _⟩
      exact hnod s hsnd hh
    have hmem : (none : Option DimTable) ∈ buildSlots f m := by
      have hgd : (buildSlots f m).getD d none = none := by
        rw [buildSlots_getD, hnil]
        rfl
      have hd' : d < (buildSlots f m).length := by
        rw [buildSlots_length]
        omega
      rw [List.getD_eq_getElem _ _ hd'] at hgd
      rw [← hgd]
      exact List.getElem_mem hd'
    simp only [barcodes, sort_filtration_by_dim, Option.bind_eq_bind,
      Option.some_bind]
    rw [get_reduced_triangular, grt_loop_none _ _ hmem]
    rfl

theorem C5_degenerate_input_errors_witness :
    barcodes 1 [] false none false none 1 (-1) = none ∧
    1 ≤ 1 ∧
    (∀ s ∈ ([[0]] : List (List Nat)), (pySorted s).length - 1 ≠ 1) ∧
    barcodes 1 [[0]] false none false (some 1) 1 (-1) = none :=
  ⟨(C5_degenerate_input_errors 1 false none false 1 (-1)).1,
   le_refl 1, by decide,
   (C5_degenerate_input_errors 1 false none false 1 (-1)).2 [[0]] 1 1
     (le_refl 1) (by decide)⟩

theorem C6_counterexample :
    barcodes 0 [[0]] false none false none 1 (-1) ≠ none := by decide

/-- **C6** (corrected).  `barcodes` performs no validation of `k`: with
`k = 0` the slice `coho_reps[:-k]` is empty, so the Steenrod matrix and
Steenrod barcode are empty, and the full ordinary barcode is returned
normally; no error is signaled. -/
theorem C6_k_zero_no_validation :
    (∀ (cohoReps : List (List Col)) (fbd : List (Option DimTable))
      (spx2idx : List (Simplex → Option Nat)) (nCores : Nat)
      (nJobs : Int),
      get_steenrod_matrix 0 cohoReps fbd spx2idx nCores nJobs = []) ∧
    (∀ (idxs : List (List Nat)) (reduced : List (List Col))
      (barcode : List (List (Int × Int))) (vals? : Option (List Int)),
      get_steenrod_barcode 0 [] idxs reduced barcode vals? = []) ∧
    barcodes 0 [[0]] false none false none 1 (-1) =
      some (BOut.idx [[(-1, 0)]], BOut.idx []) := by
  refine ⟨fun cohoReps fbd spx2idx nCores nJobs => rfl,
    fun idxs reduced barcode vals? => rfl, by decide⟩

theorem C7_counterexample :
    barcodes 1 [[0]] false (some [5]) true none 1 (-1) =
      some (BOut.val [[(FVal.ninf, FVal.fin 5)]], BOut.val [[]]) := by
  decide

/-- **C7** (corrected).  The open end of an essential bar is `-1` when
births and deaths are filtration indices, in both conventions; with
filtration values it is `+inf` in the absolute convention but `-inf`
(not `+inf`) in the relative convention, written by
`_to_values_barcode` as the death entry. -/
theorem C7_essential_markers :
    (∀ (barcode : List (List (Int × Int))) (vals : List Int)
      (dl : List (Int × Int)) (p : Int × Int), dl ∈ barcode → p ∈ dl →
      p.1 = -1 →
      ∃ dl', dl' ∈ to_values_barcode barcode vals ∧
        (FVal.ninf, FVal.fin (pyGetVal vals p.2)) ∈ dl') ∧
    (∀ (vals : List Int) (b : Int),
      to_absolute_barcode_vals [[(-1, b)]] vals =
        some [[(FVal.fin (pyGetVal vals b), FVal.pinf)]]) ∧
    (∀ (b : Int), to_absolute_barcode_idx [[(-1, b)]] =
      some [[(b, -1)]]) ∧
    (∀ (vals : List Int) (b : Int),
      to_values_barcode [[(-1, b)]] vals =
        [[(FVal.ninf, FVal.fin (pyGetVal vals b))]]) ∧
    barcodes 1 [[0]] true (some [5]) true none 1 (-1) =
      some (BOut.val [[(FVal.fin 5, FVal.pinf)]], BOut.val [[]]) ∧
    barcodes 1 [[0]] false none false none 1 (-1) =
      some (BOut.idx [[(-1, 0)]], BOut.idx [[]]) ∧
    barcodes 1 [[0]] true none false none 1 (-1) =
      some (BOut.idx [[(0, -1)]], BOut.idx [[]]) := by
  refine ⟨?_, fun vals b => rfl, fun b => rfl, fun vals b => rfl,
    by decide, by decide, by decide⟩
  intro barcode vals dl p hdl hp h1
  refine ⟨dl.map (fun p => if p.1 = -1
      then (FVal.ninf, FVal.fin (pyGetVal vals p.2))
      else (FVal.fin (pyGetVal vals p.1),
        FVal.fin (pyGetVal vals p.2))), ?_, ?_⟩
  · exact List.mem_map.mpr ⟨dl, hdl, rfl⟩
  · refine List.mem_map.mpr ⟨p, hp, ?_⟩
    rw [if_pos h1]

theorem C7_essential_markers_witness :
    [((-1 : Int), (0 : Int))] ∈ [[((-1 : Int), (0 : Int))]] ∧
    ((-1 : Int), (0 : Int)) ∈ [((-1 : Int), (0 : Int))] ∧
    ((-1 : Int), (0 : Int)).1 = -1 ∧
    ∃ dl', dl' ∈ to_values_barcode [[(-1, 0)]] [5] ∧
      (FVal.ninf, FVal.fin (pyGetVal [5] 0)) ∈ dl' :=
  ⟨by decide, by decide, by decide,
    C7_essential_markers.1 [[(-1, 0)]] [5] [(-1, 0)] (-1, 0)
      (by decide) (by decide) (by decide)⟩


/-! ### C8: zero-persistence suppression -/

theorem mem_pairs0_fst {idxs0 : List Nat} {red0 tri0 : List Col}
    {pr : (Int × Int) × Col} (h : pr ∈ pairs0 idxs0 red0 tri0) :
    pr.1.1 = -1 := by
  rw [pairs0_eq] at h
  obtain ⟨i, _, hi⟩ := List.mem_map.mp h
  rw [← hi]

theorem mem_essentialPairs_fst {idxsC : List Nat} {redC triC : List Col}
    {births : List Nat} {pr : (Int × Int) × Col}
    (h : pr ∈ essentialPairs idxsC redC triC births) : pr.1.1 = -1 := by
  rw [essentialPairs_eq] at h
  obtain ⟨i, _, hi⟩ := List.mem_map.mp h
  rw [← hi]

theorem mem_finitePairs_vals {idxsP idxsC : List Nat} {redP : List Col}
    {vals : List Int} {pr : (Int × Int) × Col}
    (h : pr ∈ finitePairs idxsP idxsC redP (some vals)) :
    ∃ d b : Nat, pr.1 = ((d : Int), (b : Int)) ∧
      vals.getD b 0 ≠ vals.getD d 0 := by
  rw [finitePairs] at h
  obtain ⟨i, _, hi⟩ := List.mem_filterMap.mp h
  rcases hcol : (getCol redP i).head? with _ | hd
  · simp only [hcol] at hi
    exact absurd hi (fun x => Option.noConfusion x)
  · simp only [hcol] at hi
    by_cases hne : vals.getD (idxsC.getD hd 0) 0 ≠
        vals.getD (idxsP.getD i 0) 0
    · rw [if_pos hne] at hi
      injection hi with hi
      exact ⟨idxsP.getD i 0, idxsC.getD hd 0, by rw [← hi], hne⟩
    · rw [if_neg hne] at hi
      exact absurd hi (fun x => Option.noConfusion x)

theorem barcode_pairs_vals (idxs : List (List Nat))
    (reduced triangular : List (List Col)) (vals : List Int) :
    ∀ dl ∈ (get_barcode_and_coho_reps idxs reduced triangular
      (some vals)).1,
    ∀ p ∈ dl, p.1 = -1 ∨
      ∃ d b : Nat, p = ((d : Int), (b : Int)) ∧
        vals.getD b 0 ≠ vals.getD d 0 := by
  intro dl hdl p hp
  rw [get_barcode_and_coho_reps] at hdl
  rcases List.mem_cons.mp hdl with h0 | hblocks
  · -- dimension-0 block: all pairs essential
    subst h0
    obtain ⟨pr, hpr, hpr2⟩ := List.mem_map.mp hp
    left
    rw [← hpr2]
    exact mem_pairs0_fst
      (((sortByBirthDesc_perm _).mem_iff).mp hpr)
  · obtain ⟨blk, hblk, hblkeq⟩ := List.mem_map.mp hblocks
    subst hblkeq
    obtain ⟨dim, _, hdim⟩ := List.mem_map.mp hblk
    subst hdim
    obtain ⟨pr, hpr, hpr2⟩ := List.mem_map.mp hp
    have hpr' := ((sortByBirthDesc_perm _).mem_iff).mp hpr
    rcases List.mem_append.mp hpr' with hfp | hep
    · right
      obtain ⟨d, b, hfst, hne⟩ := mem_finitePairs_vals hfp
      exact ⟨d, b, by rw [← hpr2, hfst], hne⟩
    · left
      rw [← hpr2]
      exact mem_essentialPairs_fst hep

theorem steenrod_bars_vals (k : Nat) (stMat : List (List Col))
    (idxs : List (List Nat)) (reduced : List (List Col))
    (barcode : List (List (Int × Int))) (vals : List Int) :
    ∀ dl ∈ get_steenrod_barcode k stMat idxs reduced barcode
      (some vals),
    ∀ p ∈ dl, p.1 = -1 ∨ pyGetVal vals p.1 ≠ pyGetVal vals p.2 := by
  intro dl hdl p hp
  rw [get_steenrod_barcode] at hdl
  rcases List.mem_append.mp hdl with hrep | hmap
  · have hnil := List.eq_of_mem_replicate hrep
    subst hnil
    exact absurd hp (List.not_mem_nil _)
  · obtain ⟨dim, _, hdim⟩ := List.mem_map.mp hmap
    subst hdim
    have hcond := (List.mem_filter.mp hp).2
    rw [nontrivialBar, Bool.or_eq_true] at hcond
    rcases hcond with h1 | h2
    · left
      exact of_decide_eq_true h1
    · right
      exact of_decide_eq_true h2

/-- **C8**.  With supplied filtration values (relative convention,
filtration indices returned), every finite pair emitted in the ordinary
barcode has endpoints with distinct filtration values, and every finite
bar of the Steenrod barcode likewise: pairs whose endpoints share a
value are suppressed in both outputs. -/
theorem C8_zero_persistence (k : Nat) (filtration : List (List Nat))
    (vals : List Int) (maxdim? : Option Nat) (nCores : Nat)
    (nJobs : Int) (bOut sOut : BOut)
    (h : barcodes k filtration false (some vals) false maxdim?
      nCores nJobs = some (bOut, sOut)) :
    ∃ bc st, bOut = BOut.idx bc ∧ sOut = BOut.idx st ∧
      (∀ dl ∈ bc, ∀ p ∈ dl, p.1 = -1 ∨
        ∃ d b : Nat, p = ((d : Int), (b : Int)) ∧
          vals.getD b 0 ≠ vals.getD d 0) ∧
      (∀ dl ∈ st, ∀ p ∈ dl, p.1 = -1 ∨
        pyGetVal vals p.1 ≠ pyGetVal vals p.2) := by
  simp only [barcodes, Option.bind_eq_bind] at h
  rcases hs : sort_filtration_by_dim filtration maxdim? with _ | fbd
  · rw [hs] at h
    simp only [Option.none_bind] at h
    exact absurd h (fun x => Option.noConfusion x)
  · rw [hs] at h
    simp only [Option.some_bind] at h
    rcases hg : get_reduced_triangular fbd with _ | outs
    · rw [hg] at h
      simp only [Option.none_bind] at h
      exact absurd h (fun x => Option.noConfusion x)
    · rw [hg] at h
      simp only [Option.some_bind] at h
      have h' : some (BOut.idx (get_barcode_and_coho_reps
          (outs.map (fun o => o.idxs)) (outs.map (fun o => o.red))
          (outs.map (fun o => o.tri)) (some vals)).1,
        BOut.idx (get_steenrod_barcode k
          (get_steenrod_matrix k (get_barcode_and_coho_reps
            (outs.map (fun o => o.idxs)) (outs.map (fun o => o.red))
            (outs.map (fun o => o.tri)) (some vals)).2 fbd
            (outs.map (fun o => o.spx2idx)) nCores nJobs)
          (outs.map (fun o => o.idxs)) (outs.map (fun o => o.red))
          (get_barcode_and_coho_reps (outs.map (fun o => o.idxs))
            (outs.map (fun o => o.red)) (outs.map (fun o => o.tri))
            (some vals)).1 (some vals))) = some (bOut, sOut) := h
      injection h' with h''
      refine ⟨_, _, (congrArg Prod.fst h'').symm,
        (congrArg Prod.snd h'').symm, ?_, ?_⟩
      · exact barcode_pairs_vals _ _ _ _
      · exact steenrod_bars_vals _ _ _ _ _ _

theorem C8_zero_persistence_witness :
    barcodes 1 [[0]] false (some [5]) false none 1 (-1) =
      some (BOut.idx [[(-1, 0)]], BOut.idx [[]]) ∧
    ∃ bc st, BOut.idx [[((-1 : Int), (0 : Int))]] = BOut.idx bc ∧
      BOut.idx ([[]] : List (List (Int × Int))) = BOut.idx st ∧
      (∀ dl ∈ bc, ∀ p ∈ dl, p.1 = -1 ∨
        ∃ d b : Nat, p = ((d : Int), (b : Int)) ∧
          [(5 : Int)].getD b 0 ≠ [(5 : Int)].getD d 0) ∧
      (∀ dl ∈ st, ∀ p ∈ dl, p.1 = -1 ∨
        pyGetVal [5] p.1 ≠ pyGetVal [5] p.2) :=
  ⟨by decide,
   C8_zero_persistence 1 [[0]] [5] none 1 (-1)
     (BOut.idx [[(-1, 0)]]) (BOut.idx [[]]) (by decide)⟩


/-! ### C9: determinism and independence from the thread count -/

theorem foldl_set_length {α : Type _} (F : Nat → α) :
    ∀ (S : List Nat) (acc : List α),
      (S.foldl (fun acc idx => acc.set idx (F idx)) acc).length =
        acc.length
  | [], _ => rfl
  | a :: S, acc => by
    rw [List.foldl_cons, foldl_set_length F S, List.length_set]

theorem foldl_set_getD_not_mem {α : Type _} (F : Nat → α) (d : α) :
    ∀ (S : List Nat) (acc : List α) (j : Nat), j ∉ S →
      (S.foldl (fun acc idx => acc.set idx (F idx)) acc).getD j d =
        acc.getD j d
  | [], _, _, _ => rfl
  | a :: S, acc, j, h => by
    rw [List.foldl_cons, foldl_set_getD_not_mem F d S _ j
      (fun hc => h (List.mem_cons_of_mem _ hc))]
    exact getD_set_ne (fun hc => h (by
      rw [← hc]
      exact List.mem_cons_self _ _)) _ _

theorem foldl_set_getD_mem {α : Type _} (F : Nat → α) (d : α) :
    ∀ (S : List Nat) (acc : List α) (j : Nat), j ∈ S →
      j < acc.length →
      (S.foldl (fun acc idx => acc.set idx (F idx)) acc).getD j d = F j
  | [], _, j, h, _ => absurd h (List.not_mem_nil _)
  | a :: S, acc, j, h, hlen => by
    rw [List.foldl_cons]
    by_cases hS : j ∈ S
    · exact foldl_set_getD_mem F d S _ j hS
        (by rw [List.length_set]; exact hlen)
    · have haj : a = j := by
        rcases List.mem_cons.mp h with h' | h'
        · exact h'.symm
        · exact absurd h' hS
      rw [foldl_set_getD_not_mem F d S _ j hS, haj,
        getD_set_self hlen]

theorem jobs_fold_length {α : Type _} (F : Nat → α) (len n : Nat) :
    ∀ (jobs : List Nat) (acc : List α),
      (jobs.foldl (fun acc jobIdx => (pyRange jobIdx len n).foldl
        (fun acc idx => acc.set idx (F idx)) acc) acc).length =
        acc.length
  | [], _ => rfl
  | jb :: jobs, acc => by
    rw [List.foldl_cons, jobs_fold_length F len n jobs, foldl_set_length]

theorem jobs_fold_getD_preserve {α : Type _} (F : Nat → α) (d : α)
    (len n : Nat) :
    ∀ (jobs : List Nat) (acc : List α) (j : Nat), j < acc.length →
      acc.getD j d = F j →
      ((jobs.foldl (fun acc jobIdx => (pyRange jobIdx len n).foldl
        (fun acc idx => acc.set idx (F idx)) acc) acc).getD j d) = F j
  | [], _, _, _, hF => hF
  | jb :: jobs, acc, j, hlen, hF => by
    rw [List.foldl_cons]
    refine jobs_fold_getD_preserve F d len n jobs _ j ?_ ?_
    · rw [foldl_set_length]
      exact hlen
    · by_cases hmem : j ∈ pyRange jb len n
      · exact foldl_set_getD_mem F d _ _ j hmem hlen
      · rw [foldl_set_getD_not_mem F d _ _ j hmem]
        exact hF

theorem jobs_fold_getD_mem {α : Type _} (F : Nat → α) (d : α)
    (len n : Nat) :
    ∀ (jobs : List Nat) (acc : List α) (j : Nat), j < acc.length →
      (∃ jb ∈ jobs, j ∈ pyRange jb len n) →
      ((jobs.foldl (fun acc jobIdx => (pyRange jobIdx len n).foldl
        (fun acc idx => acc.set idx (F idx)) acc) acc).getD j d) = F j
  | [], _, j, _, hex => by
    obtain ⟨jb, hjb, _⟩ := hex
    exact absurd hjb (List.not_mem_nil _)
  | jb :: jobs, acc, j, hlen, hex => by
    rw [List.foldl_cons]
    by_cases hfirst : j ∈ pyRange jb len n
    · refine jobs_fold_getD_preserve F d len n jobs _ j ?_ ?_
      · rw [foldl_set_length]
        exact hlen
      · exact foldl_set_getD_mem F d _ _ j hfirst hlen
    · obtain ⟨jb', hjb', hmem⟩ := hex
      have hrest : ∃ jb ∈ jobs, j ∈ pyRange jb len n := by
        rcases List.mem_cons.mp hjb' with h' | h'
        · subst h'
          exact absurd hmem hfirst
        · exact ⟨jb', h', hmem⟩
      exact jobs_fold_getD_mem F d len n jobs _ j
        (by rw [foldl_set_length]; exact hlen) hrest

theorem mem_pyRange_self {n len j : Nat} (hn : 1 ≤ n) (hj : j < len) :
    j ∈ pyRange (j % n) len n := by
  rw [pyRange, List.mem_map]
  refine ⟨j / n, ?_, Nat.mod_add_div j n⟩
  rw [List.mem_range]
  rw [Nat.lt_iff_add_one_le, Nat.le_div_iff_mul_le (by omega)]
  have hmd := Nat.mod_add_div j n
  have hmlt : j % n < n := Nat.mod_lt j (by omega)
  have hexp : (j / n + 1) * n = n * (j / n) + n := by ring
  omega

/-- The value written into slot `idx` by any thread is a function of
`idx` alone, and the stride partition covers every index; so the result
of the parallel population is the sequential map, whenever at least one
job runs. -/
theorem populate_canonical (length : Nat) (cohoRepsDim : List Col)
    (tupsDim : List Simplex) (spx2idxNext : Simplex → Option Nat)
    (nCores : Nat) (nJobs : Int)
    (h : 1 ≤ (if nJobs = -1 then nCores else nJobs.toNat)) :
    populate_steenrod_matrix_single_dim length cohoRepsDim tupsDim
      spx2idxNext nCores nJobs =
    (List.range cohoRepsDim.length).map (fun idx =>
      stsqColumn length spx2idxNext tupsDim
        (cohoRepsDim.getD idx [])) := by
  rw [populate_steenrod_matrix_single_dim]
  apply List.ext_getElem
  · rw [jobs_fold_length, List.length_replicate, List.length_map,
      List.length_range]
  · intro i h1 h2
    have hi : i < cohoRepsDim.length := by
      rw [jobs_fold_length, List.length_replicate] at h1
      exact h1
    rw [List.getElem_map, List.getElem_range,
      ← List.getD_eq_getElem _ ([] : Col) h1]
    exact jobs_fold_getD_mem _ [] cohoRepsDim.length _ _ _ i
      (by rw [List.length_replicate]; exact hi)
      ⟨i % (if nJobs = -1 then nCores else nJobs.toNat),
        by
          rw [List.mem_range]
          exact Nat.mod_lt i (by omega),
        mem_pyRange_self h hi⟩

theorem gsm_indep (k : Nat) (cohoReps : List (List Col))
    (fbd : List (Option DimTable))
    (spx2idx : List (Simplex → Option Nat)) (nC1 nC2 : Nat)
    (nJ1 nJ2 : Int) (h1 : 1 ≤ (if nJ1 = -1 then nC1 else nJ1.toNat))
    (h2 : 1 ≤ (if nJ2 = -1 then nC2 else nJ2.toNat)) :
    get_steenrod_matrix k cohoReps fbd spx2idx nC1 nJ1 =
    get_steenrod_matrix k cohoReps fbd spx2idx nC2 nJ2 := by
  have hpc1 : ∀ (L : Nat) (R : List Col) (T : List Simplex)
      (S : Simplex → Option Nat),
      populate_steenrod_matrix_single_dim L R T S nC1 nJ1 =
      (List.range R.length).map (fun idx =>
        stsqColumn L S T (R.getD idx [])) :=
    fun L R T S => populate_canonical L R T S nC1 nJ1 h1
  have hpc2 : ∀ (L : Nat) (R : List Col) (T : List Simplex)
      (S : Simplex → Option Nat),
      populate_steenrod_matrix_single_dim L R T S nC2 nJ2 =
      (List.range R.length).map (fun idx =>
        stsqColumn L S T (R.getD idx [])) :=
    fun L R T S => populate_canonical L R T S nC2 nJ2 h2
  rw [get_steenrod_matrix, get_steenrod_matrix]
  simp only [hpc1, hpc2]

/-- **C9**.  `barcodes` is deterministic (it is a pure function of its
arguments in this model; the threads of the parallel Steenrod-matrix
computation write disjoint stride-partition slots of the output, each a
function of the input alone): whenever at least one job runs
(`n_jobs = -1` with at least one core, or `n_jobs ≥ 1`), the
Steenrod-matrix population equals the sequential map, so
`get_steenrod_matrix` — and hence `barcodes` — does not depend on
`n_jobs` or the core count. -/
theorem C9_njobs_independence :
    (∀ (length : Nat) (cohoRepsDim : List Col) (tupsDim : List Simplex)
      (spx2idxNext : Simplex → Option Nat) (nCores : Nat) (nJobs : Int),
      1 ≤ (if nJobs = -1 then nCores else nJobs.toNat) →
      populate_steenrod_matrix_single_dim length cohoRepsDim tupsDim
        spx2idxNext nCores nJobs =
      (List.range cohoRepsDim.length).map (fun idx =>
        stsqColumn length spx2idxNext tupsDim
          (cohoRepsDim.getD idx []))) ∧
    (∀ (k : Nat) (cohoReps : List (List Col))
      (fbd : List (Option DimTable))
      (spx2idx : List (Simplex → Option Nat)) (nC1 nC2 : Nat)
      (nJ1 nJ2 : Int),
      1 ≤ (if nJ1 = -1 then nC1 else nJ1.toNat) →
      1 ≤ (if nJ2 = -1 then nC2 else nJ2.toNat) →
      get_steenrod_matrix k cohoReps fbd spx2idx nC1 nJ1 =
      get_steenrod_matrix k cohoReps fbd spx2idx nC2 nJ2) ∧
    (∀ (k : Nat) (filtration : List (List Nat)) (absolute : Bool)
      (vals? : Option (List Int)) (returnValues : Bool)
      (maxdim? : Option Nat) (nC1 nC2 : Nat) (nJ1 nJ2 : Int),
      1 ≤ (if nJ1 = -1 then nC1 else nJ1.toNat) →
      1 ≤ (if nJ2 = -1 then nC2 else nJ2.toNat) →
      barcodes k filtration absolute vals? returnValues maxdim?
        nC1 nJ1 =
      barcodes k filtration absolute vals? returnValues maxdim?
        nC2 nJ2) := by
  refine ⟨fun length cohoRepsDim tupsDim spx2idxNext nCores nJobs h =>
    populate_canonical length cohoRepsDim tupsDim spx2idxNext nCores
      nJobs h, gsm_indep, ?_⟩
  intro k filtration absolute vals? returnValues maxdim? nC1 nC2
    nJ1 nJ2 h1 h2
  simp only [barcodes, Option.bind_eq_bind]
  rcases hs : sort_filtration_by_dim filtration maxdim? with _ | fbd
  · rfl
  · simp only [Option.some_bind]
    rcases hg : get_reduced_triangular fbd with _ | outs
    · rfl
    · simp only [Option.some_bind]
      have hsm := gsm_indep k (get_barcode_and_coho_reps
          (outs.map (fun o => o.idxs)) (outs.map (fun o => o.red))
          (outs.map (fun o => o.tri)) vals?).2 fbd
        (outs.map (fun o => o.spx2idx)) nC1 nC2 nJ1 nJ2 h1 h2
      simp only [hsm]

theorem C9_njobs_independence_witness :
    1 ≤ (if (-1 : Int) = -1 then 1 else (-1 : Int).toNat) ∧
    1 ≤ (if (2 : Int) = -1 then 1 else (2 : Int).toNat) ∧
    barcodes 1 [[0]] false none false none 1 (-1) =
      barcodes 1 [[0]] false none false none 1 2 :=
  ⟨by decide, by decide,
   C9_njobs_independence.2.2 1 [[0]] false none false none 1 1 (-1) 2
     (by decide) (by decide)⟩

/-! ### C10: Steenrod bars have death strictly below birth -/

theorem sb_process_col_bars {nIdxsDim n : Nat} {births : List Int}
    {idx : Int} (stp : SBState × List Nat) (ii : Nat)
    (h : ∀ p ∈ stp.1.bars, p.1 = -1 ∨ p.1 < p.2) :
    ∀ p ∈ (sb_process_col nIdxsDim n births idx stp ii).1.bars,
      p.1 = -1 ∨ p.1 < p.2 := by
  intro p hp
  rw [sb_process_col] at hp
  rcases hc : (sb_reduce_loop stp.1.piv stp.1.aug (nIdxsDim + 1)
      (getCol stp.1.aug ii)).head? with _ | hh
  · simp only [hc] at hp
    by_cases ha : stp.1.alive.getD (ii - n) false
    · rw [if_pos ha] at hp
      rcases List.mem_append.mp hp with hold | hnew
      · exact h p hold
      · by_cases hlt : idx < births.getD (ii - n) 0
        · rw [if_pos hlt] at hnew
          rcases List.mem_cons.mp hnew with h' | h'
          · right
            rw [h']
            exact hlt
          · exact absurd h' (List.not_mem_nil _)
        · rw [if_neg hlt] at hnew
          exact absurd hnew (List.not_mem_nil _)
    · rw [if_neg ha] at hp
      exact h p hp
  · simp only [hc] at hp
    exact h p hp

theorem sb_step_bars {nIdxsDim : Nat} {births : List Int}
    {idxsPrev : List Nat} (st : SBState) (i : Nat)
    (h : ∀ p ∈ st.bars, p.1 = -1 ∨ p.1 < p.2) :
    ∀ p ∈ (sb_step nIdxsDim births idxsPrev st i).bars,
      p.1 = -1 ∨ p.1 < p.2 := by
  have hfold : ∀ (idx : Int) (nn : Nat) (L : List Nat)
      (stp : SBState × List Nat),
      (∀ p ∈ stp.1.bars, p.1 = -1 ∨ p.1 < p.2) →
      ∀ p ∈ (L.foldl (sb_process_col nIdxsDim nn births idx) stp).1.bars,
        p.1 = -1 ∨ p.1 < p.2 := by
    intro idx nn L
    induction L with
    | nil =>
      intro stp hstp p hp
      exact hstp p hp
    | cons a L ih =>
      intro stp hstp p hp
      rw [List.foldl_cons] at hp
      exact ih _ (sb_process_col_bars _ _ hstp) p hp
  intro p hp
  rw [sb_step] at hp
  rcases hm : (getCol st.aug (idxsPrev.length - 1 - i)).head?
      with _ | hh
  · simp only [hm] at hp
    exact hfold _ _ _ _ h p hp
  · simp only [hm] at hp
    exact hfold _ _ _ _ h p hp

theorem steenrod_single_dim_bars (stMatDim : List Col) (nIdxsDim : Nat)
    (idxsPrev : List Nat) (redPrev : List Col) (births : List Int) :
    ∀ p ∈ steenrod_barcode_single_dim stMatDim nIdxsDim idxsPrev
      redPrev births, p.1 = -1 ∨ p.1 < p.2 := by
  intro p hp
  rw [steenrod_barcode_single_dim] at hp
  rcases List.mem_append.mp hp with hbars | hess
  · have hfold : ∀ (L : List Nat) (st : SBState),
        (∀ q ∈ st.bars, q.1 = -1 ∨ q.1 < q.2) →
        ∀ q ∈ (L.foldl (sb_step nIdxsDim births idxsPrev) st).bars,
          q.1 = -1 ∨ q.1 < q.2 := by
      intro L
      induction L with
      | nil =>
        intro st hst q hq
        exact hst q hq
      | cons a L ih =>
        intro st hst q hq
        rw [List.foldl_cons] at hq
        exact ih _ (sb_step_bars _ _ hst) q hq
    exact hfold _ _ (fun q hq => absurd hq (List.not_mem_nil _)) p hbars
  · obtain ⟨i, _, hi⟩ := List.mem_filterMap.mp hess
    left
    by_cases ha : ((List.range idxsPrev.length).foldl
        (sb_step nIdxsDim births idxsPrev)
        ⟨redPrev ++ stMatDim, List.replicate nIdxsDim none,
          List.replicate births.length true, 0, []⟩).alive.getD i false
    · rw [if_pos ha] at hi
      injection hi with hi
      rw [← hi]
    · rw [if_neg ha] at hi
      exact absurd hi (fun x => Option.noConfusion x)

/-- **C10**.  Every finite (non-essential) bar of the Steenrod barcode
has death index strictly smaller than birth index: the recording branch
is guarded by `idx < birth`, so a Steenrod column that reduces to empty
at a filtration index at or above its class's birth marks the class
dead without recording any bar, even when no filtration values are
supplied — witnessed concretely by a class whose column dies exactly at
its birth index and leaves no bar (neither finite nor essential). -/
theorem C10_steenrod_death_lt_birth :
    (∀ (k : Nat) (stMat : List (List Col)) (idxs : List (List Nat))
      (reduced : List (List Col)) (barcode : List (List (Int × Int)))
      (vals? : Option (List Int)),
      ∀ dl ∈ get_steenrod_barcode k stMat idxs reduced barcode vals?,
      ∀ p ∈ dl, p.1 = -1 ∨ p.1 < p.2) ∧
    steenrod_barcode_single_dim [[]] 1 [5] [[]] [5] = [] := by
  constructor
  · intro k stMat idxs reduced barcode vals? dl hdl p hp
    rw [get_steenrod_barcode] at hdl
    rcases List.mem_append.mp hdl with hrep | hmap
    · have hnil := List.eq_of_mem_replicate hrep
      subst hnil
      exact absurd hp (List.not_mem_nil _)
    · obtain ⟨dim, _, hdim⟩ := List.mem_map.mp hmap
      subst hdim
      rcases vals? with _ | vals
      · exact steenrod_single_dim_bars _ _ _ _ _ p hp
      · exact steenrod_single_dim_bars _ _ _ _ _ p
          (List.mem_filter.mp hp).1
  · decide

theorem C10_steenrod_death_lt_birth_witness :
    [((-1 : Int), (5 : Int))] ∈ get_steenrod_barcode 1 [[], [[]]]
      [[3], [9]] [[[0]]] [[(4, 5)]] none ∧
    ((-1 : Int), (5 : Int)) ∈ [((-1 : Int), (5 : Int))] ∧
    (((-1 : Int), (5 : Int)).1 = -1 ∨
      ((-1 : Int), (5 : Int)).1 < ((-1 : Int), (5 : Int)).2) :=
  ⟨by decide, by decide,
   C10_steenrod_death_lt_birth.1 1 [[], [[]]] [[3], [9]]
     [[[0]]] [[(4, 5)]] none [(-1, 5)] (by decide) (-1, 5)
     (by decide)⟩


end Steenroder
